import Mathlib

/-!
Verification of the sprite-atlas construction pipeline of
`tools/atlas_tool.py` (HammerEngine template repository).

The Python source is shallowly embedded: images become total pixel
functions together with explicit width/height, Python `int` arithmetic
becomes `Int`, PIL operations (`crop`, `paste`, `tobytes`, `Image.new`)
become the corresponding pure functions, Python `dict` (insertion-ordered,
assignment replaces the value in place) becomes an association list with
an in-place-replacing insert, and Python's stable `list.sort` becomes
`List.insertionSort` (which inserts an element before the first element
it dominates, reproducing Python's stable ordering).
-/

namespace Atlas

/-- One RGBA pixel value, as produced by `Image.convert('RGBA')`. -/
structure RGBA where
  red : Nat
  green : Nat
  blue : Nat
  alpha : Nat
deriving DecidableEq

/-- The zero (fully transparent) pixel, `(0, 0, 0, 0)`. -/
def clearPx : RGBA := ⟨0, 0, 0, 0⟩

/-- A raster image: dimensions plus a total pixel function.  Only the
restriction of `pix` to `[0,width) × [0,height)` is observable (`tobytes`,
`crop`, detection all guard the bounds exactly as the source does). -/
structure PImage where
  width : Nat
  height : Nat
  pix : Nat → Nat → RGBA

/-- Alpha channel read `pixels[x, y][3]` at signed coordinates; reads
outside the image bounds yield 0 (the source only reads out of bounds
where it treats such pixels as transparent). -/
def alphaI (img : PImage) (x y : Int) : Nat :=
  if 0 ≤ x ∧ x < (img.width : Int) ∧ 0 ≤ y ∧ y < (img.height : Int) then
    (img.pix x.toNat y.toNat).alpha
  else 0

/-- `img.tobytes()`: the row-major sequence of pixel values. -/
def tobytes (img : PImage) : List RGBA :=
  (List.range img.height).flatMap (fun y => (List.range img.width).map (fun x => img.pix x y))

/-- `img.crop((x0, y0, x0+w, y0+h))`: a fresh `w × h` image; pixels taken
from outside the source bounds are transparent (PIL zero-pads). -/
def crop (img : PImage) (x0 y0 : Int) (w h : Nat) : PImage :=
  ⟨w, h, fun a b =>
    if 0 ≤ x0 + (a : Int) ∧ x0 + (a : Int) < (img.width : Int) ∧
       0 ≤ y0 + (b : Int) ∧ y0 + (b : Int) < (img.height : Int) then
      img.pix (x0 + (a : Int)).toNat (y0 + (b : Int)).toNat
    else clearPx⟩

/-- `dst.paste(src, (x0, y0))` for an RGBA `src` with no mask: the
`src`-rectangle is written over `dst`, clipped to `dst`'s bounds. -/
def paste (dst src : PImage) (x0 y0 : Int) : PImage :=
  ⟨dst.width, dst.height, fun x y =>
    if x0 ≤ (x : Int) ∧ (x : Int) < x0 + (src.width : Int) ∧
       y0 ≤ (y : Int) ∧ (y : Int) < y0 + (src.height : Int) then
      src.pix ((x : Int) - x0).toNat ((y : Int) - y0).toNat
    else dst.pix x y⟩

/-- `Image.new('RGBA', (w, h), (0, 0, 0, 0))`. -/
def blankImage (w h : Nat) : PImage := ⟨w, h, fun _ _ => clearPx⟩

/-- An `{x, y, w, h}` rectangle, in Python-int arithmetic. -/
structure Region where
  x : Int
  y : Int
  w : Int
  h : Int
deriving DecidableEq

/-- A sprite as loaded by `cmd_pack`: id (the file stem), image, and the
recorded `width`/`height` fields (set to the image dimensions on load). -/
structure Sprite where
  id : String
  image : PImage
  width : Int
  height : Int

/-- `get_image_hash`: md5 of `img.tobytes()`.  The hash is modelled by the
raw byte sequence itself (an injective content fingerprint); the claims
about the duplicate resolver all speak of identical pixel content. -/
def get_image_hash (img : PImage) : List RGBA := tobytes img

/-- Content hash of a sprite's image. -/
def hashOf (s : Sprite) : List RGBA := get_image_hash s.image

/-- The auto-generated-id convention: `sprite['id'].startswith('sprite_')`,
computed on the character sequences. -/
def isAuto (i : String) : Bool := "sprite_".data.isPrefixOf i.data

/-- Python-`dict` assignment `m[k] = v` on an insertion-ordered
association list: an existing key keeps its position and gets the new
value, a new key is appended at the end. -/
def dictInsert {K V : Type} [DecidableEq K] (k : K) (v : V) : List (K × V) → List (K × V)
  | [] => [(k, v)]
  | (k', v') :: rest => if k = k' then (k', v) :: rest else (k', v') :: dictInsert k v rest

/-- Python-`dict` lookup (`m[k]` / `k in m`). -/
def dictLookup {K V : Type} [DecidableEq K] (k : K) : List (K × V) → Option V
  | [] => none
  | (k', v') :: rest => if k = k' then some v' else dictLookup k rest

/-- One step of the first dedup pass of `cmd_pack`: a sprite whose id is
not auto-generated is assigned into `hash_to_sprite` (replacing any
previous value under the same hash). -/
def namedStep (m : List (List RGBA × Sprite)) (s : Sprite) : List (List RGBA × Sprite) :=
  if isAuto s.id then m else dictInsert (hashOf s) s m

/-- First dedup pass of `cmd_pack` over the whole sprite list. -/
def namedPass (sprites : List Sprite) : List (List RGBA × Sprite) :=
  sprites.foldl namedStep []

/-- One step of the second dedup pass of `cmd_pack`: an auto-generated-id
sprite whose hash is already present is dropped and recorded in
`duplicates`; otherwise it is inserted. -/
def autoStep (acc : List (List RGBA × Sprite) × List (String × String)) (s : Sprite) :
    List (List RGBA × Sprite) × List (String × String) :=
  if isAuto s.id then
    match dictLookup (hashOf s) acc.1 with
    | some t => (acc.1, acc.2 ++ [(s.id, t.id)])
    | none => (dictInsert (hashOf s) s acc.1, acc.2)
  else acc

/-- Second dedup pass of `cmd_pack` over the whole sprite list. -/
def autoPass (sprites : List Sprite) (m0 : List (List RGBA × Sprite)) :
    List (List RGBA × Sprite) × List (String × String) :=
  sprites.foldl autoStep (m0, [])

/-- `s` is externally named and has content hash `k`. -/
def namedWith (k : List RGBA) (s : Sprite) : Bool := !isAuto s.id && decide (hashOf s = k)

/-- The values of an association map, in insertion order
(`list(m.values())`). -/
def valuesOf {K V : Type} (m : List (K × V)) : List V := m.map Prod.snd

/-- Well-formedness of `hash_to_sprite`: every entry's key is its
value's content hash. -/
def hashMapWF (m : List (List RGBA × Sprite)) : Prop := ∀ e ∈ m, e.1 = hashOf e.2

/-- The duplicate-detection stage of `cmd_pack` (lines 1413–1433):
returns `list(hash_to_sprite.values())` and the `duplicates` audit list. -/
def dedupSprites (sprites : List Sprite) : List Sprite × List (String × String) :=
  let res := autoPass sprites (namedPass sprites)
  (res.1.map Prod.snd, res.2)

/-- The comparison behind `sprites.sort(key=lambda s: s['height'],
reverse=True)`. -/
def heightDescLE (s t : Sprite) : Prop := t.height ≤ s.height

instance : DecidableRel heightDescLE := fun s t => inferInstanceAs (Decidable (t.height ≤ s.height))

instance : IsTotal Sprite heightDescLE := ⟨fun s t => le_total t.height s.height⟩

instance : IsTrans Sprite heightDescLE := ⟨fun _ _ _ h1 h2 => le_trans h2 h1⟩

/-- `max_width = 512`. -/
def max_width : Int := 512

/-- `padding = 1`. -/
def padding : Int := 1

/-- A packing row: its sprites, accumulated width, and height. -/
structure Row where
  sprites : List Sprite
  width : Int
  height : Int

/-- Appending one sprite to the current row. -/
def addToRow (row : Row) (s : Sprite) : Row :=
  ⟨row.sprites ++ [s], row.width + s.width + padding, max row.height s.height⟩

/-- One iteration of the row-packing loop of `cmd_pack`: if the sprite
would overflow `max_width`, the current row is closed (if non-empty) and
a fresh row started; the sprite is then appended unconditionally. -/
def rowStep (acc : List Row × Row) (s : Sprite) : List Row × Row :=
  if acc.2.width + s.width + padding > max_width then
    (if acc.2.sprites.isEmpty then acc.1 else acc.1 ++ [acc.2], addToRow ⟨[], 0, 0⟩ s)
  else (acc.1, addToRow acc.2 s)

/-- The row-packing loop (lines 1466–1480), including the final
`if current_row['sprites']: rows.append(current_row)`. -/
def packRows (sprites : List Sprite) : List Row :=
  let acc := sprites.foldl rowStep ([], ⟨[], 0, 0⟩)
  if acc.2.sprites.isEmpty then acc.1 else acc.1 ++ [acc.2]

/-- `sum(row['height'] + padding for row in rows)`. -/
def rowStackHeight (rows : List Row) : Int := (rows.map (fun r => r.height + padding)).sum

/-- Fuel-driven body of `next_power_of_2` (`p = 1; while p < n: p *= 2`). -/
def npotAux : Nat → Int → Int → Int
  | 0, p, _ => p
  | fuel + 1, p, n => if p < n then npotAux fuel (2 * p) n else p

/-- `next_power_of_2(n)`; `n.toNat` doublings always suffice. -/
def next_power_of_2 (n : Int) : Int := npotAux n.toNat 1 n

/-- Stamping one sprite of a row: paste it at the running x offset,
record its placement rectangle, advance the offset. -/
def placeSpriteStep (yOff : Int) (st : PImage × List (String × Region) × Int) (s : Sprite) :
    PImage × List (String × Region) × Int :=
  (paste st.1 s.image st.2.2 yOff,
   dictInsert s.id ⟨st.2.2, yOff, s.width, s.height⟩ st.2.1,
   st.2.2 + s.width + padding)

/-- Stamping one row: its sprites from `x_offset = 0`, then
`y_offset += row['height'] + padding`. -/
def placeRowStep (st : PImage × List (String × Region) × Int) (row : Row) :
    PImage × List (String × Region) × Int :=
  let inner := row.sprites.foldl (placeSpriteStep st.2.2) (st.1, st.2.1, 0)
  (inner.1, inner.2.1, st.2.2 + row.height + padding)

/-- Result of the in-memory packing core of `cmd_pack`: the stamped
atlas image, the `regions` mapping written to `atlas.json`, and the
`duplicates` audit list. -/
structure PackResult where
  atlas : PImage
  regions : List (String × Region)
  duplicates : List (String × String)

/-- The algorithmic core of `cmd_pack` (lines 1399–1520): duplicate
resolution, height-descending sort, greedy row packing, power-of-two
atlas sizing, stamping, and manifest construction. -/
def cmd_pack (sprites : List Sprite) : PackResult :=
  let dd := dedupSprites sprites
  let sorted := List.insertionSort heightDescLE dd.1
  let rows := packRows sorted
  let atlasH := (next_power_of_2 (rowStackHeight rows)).toNat
  let st := rows.foldl placeRowStep (blankImage max_width.toNat atlasH, [], 0)
  ⟨st.1, st.2.1, dd.2⟩

/-- Pure description of the placement rectangles produced for one row's
sprites, starting at offsets `(x, y)`. -/
def rowRegions : List Sprite → Int → Int → List (String × Region)
  | [], _, _ => []
  | s :: rest, x, y => (s.id, ⟨x, y, s.width, s.height⟩) :: rowRegions rest (x + s.width + padding) y

/-- Pure description of the placement rectangles of a row list, starting
at vertical offset `y`. -/
def rowsRegions : List Row → Int → List (String × Region)
  | [], _ => []
  | row :: rest, y => rowRegions row.sprites 0 y ++ rowsRegions rest (y + row.height + padding)

/-- `sum(s.width + padding)` over a sprite list (a row's accumulated
width). -/
def rowWidthSum (l : List Sprite) : Int := (l.map (fun s => s.width + padding)).sum

/-- Every sprite of the list, laid out from offset `x`, has its right
edge within `max_width`. -/
def edgesOK : List Sprite → Int → Prop
  | [], _ => True
  | s :: l, x => x + s.width ≤ max_width ∧ edgesOK l (x + s.width + padding)

/-- Folding Python-dict assignments of a pair list into a map. -/
def dictFold {K V : Type} [DecidableEq K] (pairs : List (K × V)) (m : List (K × V)) :
    List (K × V) :=
  pairs.foldl (fun acc kv => dictInsert kv.1 kv.2 acc) m

/-- The row-stack height computed by `cmd_pack` for a sprite list:
`sum(row['height'] + padding for row in rows)` over its packed rows. -/
def packStack (sprites : List Sprite) : Int :=
  rowStackHeight (packRows (List.insertionSort heightDescLE (dedupSprites sprites).1))

/-- Two rectangles do not intersect (their interiors, as integer cells,
are disjoint). -/
def rectsDisjoint (r s : Region) : Prop :=
  r.x + r.w ≤ s.x ∨ s.x + s.w ≤ r.x ∨ r.y + r.h ≤ s.y ∨ s.y + s.h ≤ r.y

instance : ∀ r s, Decidable (rectsDisjoint r s) := fun _ _ => inferInstanceAs (Decidable (_ ∨ _))

/-- A rectangle lies fully inside a `w × h` canvas. -/
def rectInBounds (w h : Int) (r : Region) : Prop :=
  0 ≤ r.x ∧ 0 ≤ r.y ∧ r.x + r.w ≤ w ∧ r.y + r.h ≤ h

instance : ∀ w h r, Decidable (rectInBounds w h r) := fun _ _ _ => inferInstanceAs (Decidable (_ ∧ _))

/-- The `PackedAtlas` invariant: manifest keys are pairwise distinct,
the rectangles of distinct entries are pairwise disjoint, and every
rectangle lies within the atlas image bounds. -/
def atlasInvariant (p : PackResult) : Prop :=
  List.Pairwise (fun a b => a.1 ≠ b.1 ∧ rectsDisjoint a.2 b.2) p.regions ∧
  ∀ e ∈ p.regions, rectInBounds (p.atlas.width : Int) (p.atlas.height : Int) e.2

instance : ∀ p, Decidable (atlasInvariant p) := fun _ => inferInstanceAs (Decidable (_ ∧ _))

/-- Two images hold the same pixel data (same dimensions, same pixel at
every in-bounds coordinate) — what it means for two separate runs to have
loaded the same sprite file. -/
def pixEqWithin (a b : PImage) : Prop :=
  a.width = b.width ∧ a.height = b.height ∧
  ∀ x y : Nat, x < a.width → y < a.height → a.pix x y = b.pix x y

/-- Two loaded sprites are observationally the same input: same id, same
recorded dimensions, same pixel data. -/
def spriteObsEq (s t : Sprite) : Prop :=
  s.id = t.id ∧ s.width = t.width ∧ s.height = t.height ∧ pixEqWithin s.image t.image

/-- A fully opaque white pixel. -/
def whitePx : RGBA := ⟨255, 255, 255, 255⟩

/-- A `w × h` fully opaque image. -/
def solidImage (w h : Nat) : PImage := ⟨w, h, fun _ _ => whitePx⟩

/-- A sprite wrapping a fully opaque `w × h` image. -/
def solidSprite (i : String) (w h : Nat) : Sprite := ⟨i, solidImage w h, w, h⟩

/-- A 513-pixel-wide sprite: wider than `max_width`. -/
def spriteW513 : Sprite := solidSprite "wide_sheet" 513 1

/-- A 600-pixel-wide sprite: wider than `max_width`. -/
def spriteW600 : Sprite := solidSprite "big_sheet" 600 1

/-- An externally-named 1×1 sprite. -/
def dupAlpha : Sprite := solidSprite "alpha" 1 1

/-- A second externally-named sprite with pixel content identical to
`dupAlpha`. -/
def dupBeta : Sprite := solidSprite "beta" 1 1

/-- An externally-named sprite, pixel-identical to `auto007`. -/
def swordWorld : Sprite := solidSprite "sword_world" 1 1

/-- An auto-generated-id sprite, pixel-identical to `swordWorld`. -/
def auto007 : Sprite := solidSprite "sprite_007" 1 1

/-- A 1×1 sprite whose pixel function is constant. -/
def obsRunA : Sprite := ⟨"dot", ⟨1, 1, fun _ _ => whitePx⟩, 1, 1⟩

/-- A 1×1 sprite holding the same observable pixel data as `obsRunA`
through a different function — a second run's independently loaded copy. -/
def obsRunB : Sprite := ⟨"dot", ⟨1, 1, fun x _ => if x = 0 then whitePx else clearPx⟩, 1, 1⟩

/-! ### The adjacency merger (`merge_adjacent_sprites` and helpers) -/

/-- Python `range(a, b)` over `Int` (empty when `b ≤ a`). -/
def intRange (a b : Int) : List Int :=
  (List.range (b - a).toNat).map (fun i : Nat => a + (i : Int))

/-- The zero rectangle, used as an out-of-range list default (indices are
always in range at every call site, as in the Python source). -/
def r0 : Region := ⟨0, 0, 0, 0⟩

/-- The body of the horizontal-adjacency counting loops of
`count_shared_pixels`: the number of rows `y` in `[yS, yE)` whose pixels
in columns `x1` and `x2` are both within the image width and both opaque.
(The source indexes `pixels[x, y]` with `y` unchecked; such a read would
raise in Python and is never reached — here it reads alpha 0.) -/
def countH (atlas : PImage) (x1 x2 yS yE : Int) : Int :=
  ((intRange yS yE).filter (fun y =>
    decide (0 ≤ x1) && decide (x1 < (atlas.width : Int)) &&
    decide (0 ≤ x2) && decide (x2 < (atlas.width : Int)) &&
    decide (0 < alphaI atlas x1 y) && decide (0 < alphaI atlas x2 y))).length

/-- The body of the vertical-adjacency counting loops of
`count_shared_pixels`: columns `x` in `[xS, xE)` whose pixels in rows
`y1` and `y2` are both within the image height and both opaque. -/
def countV (atlas : PImage) (y1 y2 xS xE : Int) : Int :=
  ((intRange xS xE).filter (fun x =>
    decide (0 ≤ y1) && decide (y1 < (atlas.height : Int)) &&
    decide (0 ≤ y2) && decide (y2 < (atlas.height : Int)) &&
    decide (0 < alphaI atlas x y1) && decide (0 < alphaI atlas x y2))).length

/-- Block 1 of `count_shared_pixels` (`r1` exactly left of `r2`):
`some (shared, edge_len)` when it early-returns (`shared > 0`). -/
def cspBlock1 (atlas : PImage) (r1 r2 : Region) : Option (Int × Int) :=
  if r1.x + r1.w = r2.x then
    if 0 < countH atlas (r1.x + r1.w - 1) r2.x (max r1.y r2.y) (min (r1.y + r1.h) (r2.y + r2.h))
    then some (countH atlas (r1.x + r1.w - 1) r2.x (max r1.y r2.y) (min (r1.y + r1.h) (r2.y + r2.h)),
      min (r1.y + r1.h) (r2.y + r2.h) - max r1.y r2.y)
    else none
  else none

/-- Block 2 of `count_shared_pixels` (`r2` exactly left of `r1`). -/
def cspBlock2 (atlas : PImage) (r1 r2 : Region) : Option (Int × Int) :=
  if r2.x + r2.w = r1.x then
    if 0 < countH atlas r1.x (r2.x + r2.w - 1) (max r1.y r2.y) (min (r1.y + r1.h) (r2.y + r2.h))
    then some (countH atlas r1.x (r2.x + r2.w - 1) (max r1.y r2.y) (min (r1.y + r1.h) (r2.y + r2.h)),
      min (r1.y + r1.h) (r2.y + r2.h) - max r1.y r2.y)
    else none
  else none

/-- Block 3 of `count_shared_pixels` (`r1` exactly above `r2`). -/
def cspBlock3 (atlas : PImage) (r1 r2 : Region) : Option (Int × Int) :=
  if r1.y + r1.h = r2.y then
    if 0 < countV atlas (r1.y + r1.h - 1) r2.y (max r1.x r2.x) (min (r1.x + r1.w) (r2.x + r2.w))
    then some (countV atlas (r1.y + r1.h - 1) r2.y (max r1.x r2.x) (min (r1.x + r1.w) (r2.x + r2.w)),
      min (r1.x + r1.w) (r2.x + r2.w) - max r1.x r2.x)
    else none
  else none

/-- Block 4 of `count_shared_pixels` (`r2` exactly above `r1`). -/
def cspBlock4 (atlas : PImage) (r1 r2 : Region) : Option (Int × Int) :=
  if r2.y + r2.h = r1.y then
    if 0 < countV atlas r1.y (r2.y + r2.h - 1) (max r1.x r2.x) (min (r1.x + r1.w) (r2.x + r2.w))
    then some (countV atlas r1.y (r2.y + r2.h - 1) (max r1.x r2.x) (min (r1.x + r1.w) (r2.x + r2.w)),
      min (r1.x + r1.w) (r2.x + r2.w) - max r1.x r2.x)
    else none
  else none

/-- `count_shared_pixels(r1, r2)`: the four exact-adjacency blocks, each
early-returning `(shared, edge_len)` as soon as `shared > 0`, with a
final `return 0, 0`. -/
def count_shared_pixels (atlas : PImage) (r1 r2 : Region) : Int × Int :=
  ((((cspBlock1 atlas r1 r2).orElse (fun _ => cspBlock2 atlas r1 r2)).orElse
    (fun _ => cspBlock3 atlas r1 r2)).orElse (fun _ => cspBlock4 atlas r1 r2)).getD (0, 0)

/-- `min_overlap_ratio = 0.5` (the default, never overridden). The
source compares floats; with the tiny integer counts involved the
comparison agrees with exact rational arithmetic. -/
def min_overlap_ratio : ℚ := 1 / 2

/-- `should_merge(r1, r2)`: bounding-box quick check, the `edge_len == 0`
guard, then `shared / edge_len >= min_overlap_ratio`. -/
def should_merge (atlas : PImage) (r1 r2 : Region) : Bool :=
  if r1.x + r1.w < r2.x - 1 ∨ r2.x + r2.w < r1.x - 1 ∨
      r1.y + r1.h < r2.y - 1 ∨ r2.y + r2.h < r1.y - 1 then
    false
  else
    let se := count_shared_pixels atlas r1 r2
    if se.2 = 0 then false
    else decide (min_overlap_ratio ≤ (se.1 : ℚ) / (se.2 : ℚ))

/-- `find` with path compression, fuel-driven (the parent array's size
always suffices on the acyclic forests the merger builds). -/
def findAux : Nat → Array Nat → Nat → Nat × Array Nat
  | 0, par, x => (x, par)
  | fuel + 1, par, x =>
    if _ : x < par.size then
      let p := par.getD x x
      if p = x then (x, par)
      else
        let r := findAux fuel par p
        (r.1, r.2.set! x r.1)
    else (x, par)

/-- `find(x)` on the current parent array. -/
def ufFind (par : Array Nat) (x : Nat) : Nat × Array Nat := findAux par.size par x

/-- `union(x, y)`: `parent[find(x)] = find(y)` when the roots differ. -/
def ufUnion (par : Array Nat) (x y : Nat) : Array Nat :=
  let fx := ufFind par x
  let fy := ufFind fx.2 y
  if fx.1 ≠ fy.1 then fy.2.set! fx.1 fy.1 else fy.2

/-- The all-pairs loop of `merge_adjacent_sprites`: union every pair
`i < j` with `should_merge(regions[i], regions[j])`. -/
def unionPass (atlas : PImage) (rs : List Region) : Array Nat :=
  (List.range rs.length).foldl (fun par i =>
    (List.range' (i + 1) (rs.length - (i + 1))).foldl (fun par j =>
      if should_merge atlas (rs.getD i r0) (rs.getD j r0) then ufUnion par i j
      else par) par)
    (Array.range rs.length)

/-- `groups.setdefault(root, []).append(r)` on an insertion-ordered
association list. -/
def appendGroup (k : Nat) (r : Region) : List (Nat × List Region) → List (Nat × List Region)
  | [] => [(k, [r])]
  | (k', g) :: rest => if k = k' then (k', g ++ [r]) :: rest else (k', g) :: appendGroup k r rest

/-- Grouping loop of `merge_adjacent_sprites`: `root = find(i)` (with
its path compression threaded) and append `regions[i]` to that root's
group. -/
def buildGroups (rs : List Region) (par : Array Nat) :
    List (Nat × List Region) × Array Nat :=
  (List.range rs.length).foldl (fun acc i =>
    let f := ufFind acc.2 i
    (appendGroup f.1 (rs.getD i r0) acc.1, f.2)) ([], par)

/-- `min(f(r) for r in g)` over a non-empty list (0 on the unreachable
empty list). -/
def foldMin (f : Region → Int) : List Region → Int
  | [] => 0
  | r :: t => t.foldl (fun m q => min m (f q)) (f r)

/-- `max(f(r) for r in g)` over a non-empty list. -/
def foldMax (f : Region → Int) : List Region → Int
  | [] => 0
  | r :: t => t.foldl (fun m q => max m (f q)) (f r)

/-- `max_merged_size = 96`. -/
def max_merged_size : Int := 96

/-- The final loop of `merge_adjacent_sprites`: each singleton group
passes through; a larger group becomes its merged bounding box unless
that box exceeds `max_merged_size` in either dimension, in which case
the group's regions are kept separate. -/
def mergeGroups (groups : List (Nat × List Region)) : List Region :=
  groups.foldl (fun res kg =>
    match kg.2 with
    | [r] => res ++ [r]
    | g =>
      let minX := foldMin (fun r => r.x) g
      let minY := foldMin (fun r => r.y) g
      let maxX := foldMax (fun r => r.x + r.w) g
      let maxY := foldMax (fun r => r.y + r.h) g
      if maxX - minX > max_merged_size ∨ maxY - minY > max_merged_size then res ++ g
      else res ++ [⟨minX, minY, maxX - minX, maxY - minY⟩]) []

/-- `merge_adjacent_sprites(regions, atlas)`. -/
def merge_adjacent_sprites (rs : List Region) (atlas : PImage) : List Region :=
  if rs.isEmpty then rs
  else mergeGroups (buildGroups rs (unionPass atlas rs)).1

/-- The merged bounding box of two rectangles (what `merge_adjacent_sprites`
computes for a two-element group). -/
def mergedBox (a b : Region) : Region :=
  ⟨min a.x b.x, min a.y b.y,
    max (a.x + a.w) (b.x + b.w) - min a.x b.x,
    max (a.y + a.h) (b.y + b.h) - min a.y b.y⟩

/-- A 4×5 image whose top three rows are fully opaque: the shared edge
between the left half and the right half is opaque on both sides for
3 of its 5 pixels (60%). -/
def img60 : PImage := ⟨4, 5, fun _ y => if y < 3 then whitePx else clearPx⟩

/-- A 4×5 image whose top row only is opaque: the shared edge is opaque on
both sides for 1 of its 5 pixels (20%). -/
def img20 : PImage := ⟨4, 5, fun _ y => if y = 0 then whitePx else clearPx⟩

/-- Left half of the 4×5 test images. -/
def rm1 : Region := ⟨0, 0, 2, 5⟩

/-- Right half of the 4×5 test images. -/
def rm2 : Region := ⟨2, 0, 2, 5⟩

/-- The 60%-overlap image transposed: a 5×4 image whose left three
columns are fully opaque, for the vertically adjacent merge cases. -/
def img60v : PImage := ⟨5, 4, fun x _ => if x < 3 then whitePx else clearPx⟩

/-- Top half of the 5×4 vertical test image. -/
def rv1 : Region := ⟨0, 0, 5, 2⟩

/-- Bottom half of the 5×4 vertical test image. -/
def rv2 : Region := ⟨0, 2, 5, 2⟩

/-! ## `detect_sprite_regions` (flood-fill region detection) -/

/-- `is_transparent(x, y)` from `detect_sprite_regions`: out-of-bounds
coordinates are transparent, otherwise the test is `pixels[x, y][3] == 0`. -/
def is_transparent (img : PImage) (p : Int × Int) : Bool :=
  if p.1 < 0 ∨ (img.width : Int) ≤ p.1 ∨ p.2 < 0 ∨ (img.height : Int) ≤ p.2 then true
  else decide (alphaI img p.1 p.2 = 0)

/-- A coordinate holding a non-transparent pixel of the image (in bounds,
alpha > 0): the pixels the detector's flood fill collects. -/
def opaquePix (img : PImage) (p : Int × Int) : Prop :=
  0 ≤ p.1 ∧ p.1 < (img.width : Int) ∧ 0 ≤ p.2 ∧ p.2 < (img.height : Int) ∧
    0 < alphaI img p.1 p.2

instance : ∀ img p, Decidable (opaquePix img p) :=
  fun _ _ => inferInstanceAs (Decidable (_ ∧ _))

/-- The four neighbours pushed by `flood_fill`, in pop (LIFO) order: the
source appends `(0,1), (0,-1), (1,0), (-1,0)` offsets and pops from the
end of the list. -/
def neighbors (p : Int × Int) : List (Int × Int) :=
  [(p.1 - 1, p.2), (p.1 + 1, p.2), (p.1, p.2 - 1), (p.1, p.2 + 1)]

/-- The `while stack:` loop of `flood_fill`, with explicit fuel (each
iteration consumes one unit; `flood_fill` supplies enough fuel for the
loop to run to completion, which `floodLoop_correct` proves). -/
def floodLoop (img : PImage) (fuel : Nat) (stack : List (Int × Int))
    (V : Finset (Int × Int)) (minx miny maxx maxy : Int) :
    Finset (Int × Int) × Int × Int × Int × Int :=
  match stack with
  | [] => (V, minx, miny, maxx, maxy)
  | p :: rest =>
    match fuel with
    | 0 => (V, minx, miny, maxx, maxy)
    | fuel' + 1 =>
      if p ∈ V ∨ is_transparent img p then
        floodLoop img fuel' rest V minx miny maxx maxy
      else
        floodLoop img fuel' ((neighbors p).filter (fun q => q ∉ insert p V) ++ rest)
          (insert p V) (min minx p.1) (min miny p.2) (max maxx p.1) (max maxy p.2)

/-- `flood_fill(start_x, start_y)`: runs the loop from a singleton stack
with the bounding box initialised to the start pixel, threading the outer
`visited` set.  Returns the updated visited set and `(min_x, min_y,
max_x, max_y)`. -/
def flood_fill (img : PImage) (V : Finset (Int × Int)) (s : Int × Int) :
    Finset (Int × Int) × Int × Int × Int × Int :=
  floodLoop img (5 * (img.width * img.height) + 1) [s] V s.1 s.2 s.1 s.2

/-- One iteration of the scan loop body of `detect_sprite_regions`:
skip visited or transparent coordinates, otherwise flood fill and append
the discovered bounding box (subject to the `w >= 1 and h >= 1` filter). -/
def detectStep (img : PImage) (st : Finset (Int × Int) × List Region) (c : Int × Int) :
    Finset (Int × Int) × List Region :=
  if c ∈ st.1 ∨ is_transparent img c then st
  else
    let f := flood_fill img st.1 c
    let w := f.2.2.2.1 - f.2.1 + 1
    let h := f.2.2.2.2 - f.2.2.1 + 1
    (f.1, if 1 ≤ w ∧ 1 ≤ h then st.2 ++ [⟨f.2.1, f.2.2.1, w, h⟩] else st.2)

/-- The scan order of `detect_sprite_regions`: `for y in range(height):
for x in range(width):`. -/
def scanCoords (img : PImage) : List (Int × Int) :=
  (intRange 0 (img.height : Int)).flatMap
    (fun y => (intRange 0 (img.width : Int)).map (fun x => (x, y)))

/-- The sort key `(r['y'], r['x'])` of `detect_sprite_regions`, as a
total order on regions. -/
def regLE (a b : Region) : Prop := a.y < b.y ∨ (a.y = b.y ∧ a.x ≤ b.x)

instance : DecidableRel regLE :=
  fun a b => inferInstanceAs (Decidable (_ ∨ _))

instance : IsTotal Region regLE :=
  ⟨fun a b => by unfold regLE; omega⟩

instance : IsTrans Region regLE :=
  ⟨fun a b c h1 h2 => by unfold regLE at *; omega⟩

/-- `detect_sprite_regions(atlas)`: scan, flood fill, collect boxes, then
`regions.sort(key=lambda r: (r['y'], r['x']))` (a stable sort, embedded
as insertion sort). -/
def detect_sprite_regions (img : PImage) : List Region :=
  (((scanCoords img).foldl (detectStep img) (∅, [])).2).insertionSort regLE

/-- 4-adjacency of two coordinates (the offsets `(0,1), (0,-1), (1,0),
(-1,0)` used by the flood fill). -/
def adjP (p q : Int × Int) : Prop :=
  (p.1 = q.1 ∧ (q.2 = p.2 + 1 ∨ p.2 = q.2 + 1)) ∨
  (p.2 = q.2 ∧ (q.1 = p.1 + 1 ∨ p.1 = q.1 + 1))

/-- One step between two opaque 4-adjacent pixels. -/
def stepPix (img : PImage) (p q : Int × Int) : Prop :=
  opaquePix img p ∧ opaquePix img q ∧ adjP p q

/-- Connectivity: `q` lies in the same 4-connected opaque component as
`p`. -/
def Reach (img : PImage) : (Int × Int) → (Int × Int) → Prop :=
  Relation.ReflTransGen (stepPix img)

/-- `r` is the tight bounding box of the 4-connected opaque component of
`s`: it contains the component and all four sides are attained. -/
def TightBBox (img : PImage) (s : Int × Int) (r : Region) : Prop :=
  (∀ q, Reach img s q →
    r.x ≤ q.1 ∧ q.1 ≤ r.x + r.w - 1 ∧ r.y ≤ q.2 ∧ q.2 ≤ r.y + r.h - 1) ∧
  (∃ q, Reach img s q ∧ q.1 = r.x) ∧
  (∃ q, Reach img s q ∧ q.1 = r.x + r.w - 1) ∧
  (∃ q, Reach img s q ∧ q.2 = r.y) ∧
  (∃ q, Reach img s q ∧ q.2 = r.y + r.h - 1)

/-- A visited set closed under steps to adjacent opaque pixels (a union
of whole components). -/
def ClosedSet (img : PImage) (V : Finset (Int × Int)) : Prop :=
  ∀ p ∈ V, ∀ q, stepPix img p q → q ∈ V

/-- The finite set of opaque coordinates of an image. -/
def opaqueF (img : PImage) : Finset (Int × Int) :=
  (((Finset.range img.width) ×ˢ (Finset.range img.height)).image
    (fun ab => ((ab.1 : Int), (ab.2 : Int)))).filter (fun p => opaquePix img p)

/-- Termination measure of the flood-fill loop: each iteration either
pops a stack entry or visits a new opaque pixel (pushing at most four). -/
def floodMeasure (img : PImage) (stack : List (Int × Int))
    (V : Finset (Int × Int)) : Nat :=
  stack.length + 5 * (opaqueF img \ V).card

/-- Invariant of the flood-fill loop started at `s` with prior visited
set `V0`. -/
def FloodInv (img : PImage) (s : Int × Int) (V0 : Finset (Int × Int))
    (stack : List (Int × Int)) (V : Finset (Int × Int))
    (minx miny maxx maxy : Int) : Prop :=
  V0 ⊆ V ∧
  (∀ q ∈ V, q ∈ V0 ∨ Reach img s q) ∧
  (∀ q ∈ stack, q = s ∨ ∃ x ∈ V, x ∉ V0 ∧ adjP x q) ∧
  (∀ x ∈ V, x ∉ V0 → ∀ q, stepPix img x q → q ∈ V ∨ q ∈ stack) ∧
  (s ∈ V ∨ s ∈ stack) ∧
  (∀ q ∈ insert s (V \ V0), minx ≤ q.1 ∧ q.1 ≤ maxx ∧ miny ≤ q.2 ∧ q.2 ≤ maxy) ∧
  (∃ q ∈ insert s (V \ V0), q.1 = minx) ∧
  (∃ q ∈ insert s (V \ V0), q.1 = maxx) ∧
  (∃ q ∈ insert s (V \ V0), q.2 = miny) ∧
  (∃ q ∈ insert s (V \ V0), q.2 = maxy)

/-- Postcondition of a completed flood fill from `s` over prior visited
set `V0`: the visited set grows by exactly the component of `s` and the
returned box is that component's tight bounding box. -/
def FloodPost (img : PImage) (s : Int × Int) (V0 : Finset (Int × Int))
    (r : Finset (Int × Int) × Int × Int × Int × Int) : Prop :=
  (∀ q, q ∈ r.1 ↔ q ∈ V0 ∨ Reach img s q) ∧
  ClosedSet img r.1 ∧
  (∀ q, Reach img s q →
    r.2.1 ≤ q.1 ∧ q.1 ≤ r.2.2.2.1 ∧ r.2.2.1 ≤ q.2 ∧ q.2 ≤ r.2.2.2.2) ∧
  (∃ q, Reach img s q ∧ q.1 = r.2.1) ∧
  (∃ q, Reach img s q ∧ q.1 = r.2.2.2.1) ∧
  (∃ q, Reach img s q ∧ q.2 = r.2.2.1) ∧
  (∃ q, Reach img s q ∧ q.2 = r.2.2.2.2)

/-- Invariant of the scan loop of `detect_sprite_regions` after the
coordinates `done` have been processed. -/
def DetectInv (img : PImage) (done : List (Int × Int))
    (st : Finset (Int × Int) × List Region) : Prop :=
  (∀ p ∈ st.1, opaquePix img p) ∧
  ClosedSet img st.1 ∧
  (∃ reps : List (Int × Int),
    List.Forall₂ (fun p r => opaquePix img p ∧ TightBBox img p r) reps st.2 ∧
    reps.Pairwise (fun p q => ¬ Reach img p q) ∧
    (∀ q, q ∈ st.1 ↔ ∃ p ∈ reps, Reach img p q)) ∧
  (∀ c ∈ done, opaquePix img c → c ∈ st.1)

/-- The spec's 64×64 scenario: fully transparent except a fully opaque
10×10 square whose top-left corner is at `(5, 5)`. -/
def sq64 : PImage :=
  ⟨64, 64, fun x y => if 5 ≤ x ∧ x < 15 ∧ 5 ≤ y ∧ y < 15 then whitePx else clearPx⟩

/-! ## `split_by_gaps` / `split_by_grid` -/

/-- `all(pixels[x, y][3] == 0 for x in range(width))`: row `y` is fully
transparent. -/
def rowTransparent (img : PImage) (y : Nat) : Bool :=
  (List.range img.width).all (fun x => (img.pix x y).alpha == 0)

/-- `all(pixels[x, y][3] == 0 for y in range(height))`: column `x` is
fully transparent. -/
def colTransparent (img : PImage) (x : Nat) : Bool :=
  (List.range img.height).all (fun y => (img.pix x y).alpha == 0)

/-- One iteration of the split-collection loops: a fully transparent
line index is appended unless it equals the current last entry. -/
def gapAux (t : Nat → Bool) (acc : List Nat) (y : Nat) : List Nat :=
  if t y then (if acc.getLastD 0 ≠ y then acc ++ [y] else acc) else acc

/-- The `h_splits` / `v_splits` lists: `[0]`, then each fully transparent
line index (skipping an index equal to the previous entry), then the
image extent. -/
def splitsOf (n : Nat) (t : Nat → Bool) : List Nat :=
  ((List.range n).foldl (gapAux t) [0]) ++ [n]

/-- Consecutive pairs `(l[i], l[i+1])` of a list (the cell extents built
from the split lists). -/
def consecPairs : List Nat → List (Nat × Nat)
  | [] => []
  | [_] => []
  | a :: b :: t => (a, b) :: consecPairs (b :: t)

/-- The cropped `sub_img` of `split_by_gaps`. -/
def subImage (region : Region) (atlas : PImage) : PImage :=
  crop atlas region.x region.y region.w.toNat region.h.toNat

/-- The `h_splits` list of `split_by_gaps` (fully transparent rows). -/
def hSplits (region : Region) (atlas : PImage) : List Nat :=
  splitsOf (subImage region atlas).height (rowTransparent (subImage region atlas))

/-- The `v_splits` list of `split_by_gaps` (fully transparent columns). -/
def vSplits (region : Region) (atlas : PImage) : List Nat :=
  splitsOf (subImage region atlas).width (colTransparent (subImage region atlas))

/-- One gap cell's contribution: skipped when thinner than 2 in either
direction, otherwise the cell is cropped out of `sub_img`, detection runs
on it, and the found regions are offset back to atlas coordinates
(`cr['x'] += region['x'] + x1`, `cr['y'] += region['y'] + y1`). -/
def cellContrib (region : Region) (sub : PImage) (x1 x2 y1 y2 : Nat) : List Region :=
  if x2 - x1 < 2 ∨ y2 - y1 < 2 then []
  else
    (detect_sprite_regions (crop sub (x1 : Int) (y1 : Int) (x2 - x1) (y2 - y1))).map
      (fun cr => ⟨cr.x + region.x + (x1 : Int), cr.y + region.y + (y1 : Int), cr.w, cr.h⟩)

/-- `range(0, h, grid_size)`. -/
def gridOffsets (h step : Int) : List Int :=
  (List.range ((h + step - 1) / step).toNat).map (fun k : Nat => (k : Int) * step)

/-- The cell-collection loop of `split_by_grid`: each grid cell is
cropped from the atlas, detection runs on it, and the found regions are
offset back to atlas coordinates. -/
def gridResult (region : Region) (atlas : PImage) (gs : Int) : List Region :=
  (gridOffsets region.h gs).flatMap (fun gy =>
    (gridOffsets region.w gs).flatMap (fun gx =>
      (detect_sprite_regions (crop atlas (region.x + gx) (region.y + gy)
          (min gs (region.w - gx)).toNat (min gs (region.h - gy)).toNat)).map
        (fun cr => ⟨cr.x + (region.x + gx), cr.y + (region.y + gy), cr.w, cr.h⟩)))

/-- `split_by_grid(region, atlas, grid_size)`: grid cells, detection per
cell, then `merge_adjacent_sprites` on a non-empty result; an empty final
result falls back to `[region]`. -/
def split_by_grid (region : Region) (atlas : PImage) (gs : Int) : List Region :=
  let result := gridResult region atlas gs
  let result2 := if result.isEmpty then result else merge_adjacent_sprites result atlas
  if result2.isEmpty then [region] else result2

/-- The cell loop of `split_by_gaps`: `i` over row bands, `j` over column
bands. -/
def gapResult (region : Region) (atlas : PImage) : List Region :=
  (consecPairs (hSplits region atlas)).flatMap (fun yp =>
    (consecPairs (vSplits region atlas)).flatMap (fun xp =>
      cellContrib region (subImage region atlas) xp.1 xp.2 yp.1 yp.2))

/-- `split_by_gaps(region, atlas, max_size)`: regions small in both
dimensions pass through; otherwise split at transparency gaps, falling
back to `split_by_grid(grid_size=32)` when no gaps exist, and to
`[region]` when every cell was skipped or empty. -/
def split_by_gaps (region : Region) (atlas : PImage) (max_size : Int) : List Region :=
  if region.w ≤ max_size ∧ region.h ≤ max_size then [region]
  else if (hSplits region atlas).length ≤ 2 ∧ (vSplits region atlas).length ≤ 2 then
    split_by_grid region atlas 32
  else
    let result := gapResult region atlas
    if result.isEmpty then [region] else result

/-- Membership of a pixel in a region's rectangle. -/
def inRegion (r : Region) (p : Int × Int) : Prop :=
  r.x ≤ p.1 ∧ p.1 < r.x + r.w ∧ r.y ≤ p.2 ∧ p.2 < r.y + r.h

instance : ∀ r p, Decidable (inRegion r p) :=
  fun _ _ => inferInstanceAs (Decidable (_ ∧ _))

/-- A pixel is covered by some region of a list. -/
def coveredBy (p : Int × Int) (rs : List Region) : Prop :=
  ∃ r ∈ rs, inRegion r p

instance : ∀ p rs, Decidable (coveredBy p rs) :=
  fun _ _ => List.decidableBEx _ _

/-- Rectangle containment. -/
def subRegion (r r' : Region) : Prop :=
  r'.x ≤ r.x ∧ r.x + r.w ≤ r'.x + r'.w ∧ r'.y ≤ r.y ∧ r.y + r.h ≤ r'.y + r'.h

/-- The pixel lies (in region-local coordinates) inside a gap cell that
`split_by_gaps` skips for being thinner than 2 pixels in one direction —
the pixels the splitter can lose. -/
def ThinLoss (region : Region) (atlas : PImage) (p : Int × Int) : Prop :=
  ∃ xp ∈ consecPairs (vSplits region atlas), ∃ yp ∈ consecPairs (hSplits region atlas),
    (xp.2 - xp.1 < 2 ∨ yp.2 - yp.1 < 2) ∧
    region.x + (xp.1 : Int) ≤ p.1 ∧ p.1 < region.x + (xp.2 : Int) ∧
    region.y + (yp.1 : Int) ≤ p.2 ∧ p.2 < region.y + (yp.2 : Int)

/-- The loop body of the final grouping pass of `merge_adjacent_sprites`,
as the list each group contributes to the output. -/
def groupOut (kg : Nat × List Region) : List Region :=
  match kg.2 with
  | [r] => [r]
  | g =>
    if foldMax (fun r => r.x + r.w) g - foldMin (fun r => r.x) g > max_merged_size ∨
       foldMax (fun r => r.y + r.h) g - foldMin (fun r => r.y) g > max_merged_size then g
    else
      [⟨foldMin (fun r => r.x) g, foldMin (fun r => r.y) g,
        foldMax (fun r => r.x + r.w) g - foldMin (fun r => r.x) g,
        foldMax (fun r => r.y + r.h) g - foldMin (fun r => r.y) g⟩]

/-- A 65×3 image whose columns 0 and 64 are fully opaque: 65 > 64 forces
a split, every interior column is a transparency gap, and the 1-wide cell
holding column 0 is skipped by the thin-cell filter. -/
def imgC3 : PImage :=
  ⟨65, 3, fun x _ => if x = 0 ∨ x = 64 then whitePx else clearPx⟩

/-- The full-image region fed to the splitter in the C3 counterexample. -/
def regC3 : Region := ⟨0, 0, 65, 3⟩

/-! ## Lemmas about `next_power_of_2` -/

theorem npotAux_spec (fuel : Nat) : ∀ (i : Nat) (n : Int),
    (i = 0 ∨ (2 : Int) ^ (i - 1) < n) → n ≤ 2 ^ fuel * 2 ^ i →
    ∃ j : Nat, npotAux fuel (2 ^ i) n = 2 ^ j ∧ n ≤ 2 ^ j ∧ (j = 0 ∨ (2 : Int) ^ (j - 1) < n) := by
  induction fuel with
  | zero =>
    intro i n hinv hle
    exact ⟨i, rfl, by simpa using hle, hinv⟩
  | succ fuel ih =>
    intro i n hinv hle
    simp only [npotAux]
    by_cases hlt : (2 : Int) ^ i < n
    · rw [if_pos hlt]
      have h2 : (2 : Int) * 2 ^ i = 2 ^ (i + 1) := by ring
      rw [h2]
      refine ih (i + 1) n (Or.inr ?_) ?_
      · simpa using hlt
      · calc n ≤ 2 ^ (fuel + 1) * 2 ^ i := hle
          _ = 2 ^ fuel * 2 ^ (i + 1) := by ring
    · rw [if_neg hlt]
      exact ⟨i, rfl, le_of_not_lt hlt, hinv⟩

theorem one_le_two_pow_int (m : Nat) : (1 : Int) ≤ 2 ^ m := by
  have h : (1 : Nat) ≤ 2 ^ m := Nat.one_le_two_pow
  calc (1 : Int) ≤ ((2 ^ m : Nat) : Int) := by exact_mod_cast h
    _ = 2 ^ m := by push_cast; ring

theorem le_two_pow_toNat (n : Int) : n ≤ 2 ^ n.toNat := by
  rcases le_or_lt n 0 with h | h
  · exact h.trans (le_trans one_pos.le (one_le_two_pow_int n.toNat))
  · have h1 : n = (n.toNat : Int) := (Int.toNat_of_nonneg h.le).symm
    have h2 : n.toNat < 2 ^ n.toNat := Nat.lt_two_pow n.toNat
    calc n = (n.toNat : Int) := h1
      _ ≤ ((2 ^ n.toNat : Nat) : Int) := by exact_mod_cast h2.le
      _ = 2 ^ n.toNat := by push_cast; ring

theorem next_power_of_2_spec (n : Int) :
    ∃ j : Nat, next_power_of_2 n = 2 ^ j ∧ n ≤ 2 ^ j ∧
      ∀ m : Nat, n ≤ 2 ^ m → (2 : Int) ^ j ≤ 2 ^ m := by
  have h0 : (2 : Int) ^ (0 : Nat) = 1 := by norm_num
  have hb : n ≤ 2 ^ n.toNat * 2 ^ (0 : Nat) := by simpa using le_two_pow_toNat n
  obtain ⟨j, hj, hnj, hmin⟩ := npotAux_spec n.toNat 0 n (Or.inl rfl) hb
  rw [h0] at hj
  refine ⟨j, hj, hnj, ?_⟩
  intro m hm
  rcases hmin with h | h
  · subst h
    simpa using one_le_two_pow_int m
  · have hjm : j - 1 < m := by
      by_contra hc
      push_neg at hc
      have hle : (2 : Int) ^ m ≤ 2 ^ (j - 1) :=
        pow_le_pow_right₀ (by norm_num) hc
      exact absurd (lt_of_le_of_lt hle (lt_of_lt_of_le h hm)) (lt_irrefl _)
    have hjm' : j ≤ m := by omega
    exact pow_le_pow_right₀ (by norm_num) hjm'

/-! ## Lemmas about the Python-dict model -/

theorem dictLookup_dictInsert_self {K V : Type} [DecidableEq K] (k : K) (v : V) :
    ∀ m : List (K × V), dictLookup k (dictInsert k v m) = some v := by
  intro m
  induction m with
  | nil => simp [dictInsert, dictLookup]
  | cons e rest ih =>
    obtain ⟨k', v'⟩ := e
    by_cases h : k = k'
    · simp [dictInsert, dictLookup, h]
    · simp [dictInsert, dictLookup, h, ih]

theorem dictLookup_dictInsert_ne {K V : Type} [DecidableEq K] {k k' : K} (v : V)
    (h : k ≠ k') : ∀ m : List (K × V), dictLookup k (dictInsert k' v m) = dictLookup k m := by
  intro m
  induction m with
  | nil => simp [dictInsert, dictLookup, h]
  | cons e rest ih =>
    obtain ⟨k'', v''⟩ := e
    by_cases h2 : k' = k''
    · subst h2
      simp [dictInsert, dictLookup, h]
    · by_cases h3 : k = k''
      · simp [dictInsert, dictLookup, h2, h3]
      · simp [dictInsert, dictLookup, h2, h3, ih]

theorem mem_dictInsert {K V : Type} [DecidableEq K] {k : K} {v : V} {e : K × V} :
    ∀ {m : List (K × V)}, e ∈ dictInsert k v m → e = (k, v) ∨ e ∈ m := by
  intro m
  induction m with
  | nil => simp [dictInsert]
  | cons e' rest ih =>
    obtain ⟨k', v'⟩ := e'
    intro h
    by_cases hk : k = k'
    · subst hk
      rw [dictInsert, if_pos rfl] at h
      rcases List.mem_cons.1 h with h2 | h2
      · exact Or.inl h2
      · exact Or.inr (List.mem_cons.2 (Or.inr h2))
    · rw [dictInsert, if_neg hk] at h
      rcases List.mem_cons.1 h with h2 | h2
      · exact Or.inr (List.mem_cons.2 (Or.inl h2))
      · rcases ih h2 with h3 | h3
        · exact Or.inl h3
        · exact Or.inr (List.mem_cons.2 (Or.inr h3))

theorem dictInsert_lookup_none {K V : Type} [DecidableEq K] (k : K) (v : V) :
    ∀ m : List (K × V), dictLookup k m = none → dictInsert k v m = m ++ [(k, v)] := by
  intro m
  induction m with
  | nil => intro _; rfl
  | cons e rest ih =>
    obtain ⟨k', v'⟩ := e
    intro h
    by_cases hk : k = k'
    · rw [dictLookup, if_pos hk] at h
      cases h
    · rw [dictLookup, if_neg hk] at h
      simp [dictInsert, hk, ih h]

theorem dictLookup_none_iff {K V : Type} [DecidableEq K] (k : K) :
    ∀ m : List (K × V), dictLookup k m = none ↔ k ∉ m.map Prod.fst := by
  intro m
  induction m with
  | nil => simp [dictLookup]
  | cons e rest ih =>
    obtain ⟨k', v'⟩ := e
    by_cases h : k = k'
    · simp [dictLookup, h]
    · simp [dictLookup, h, ih]

theorem dictLookup_mem {K V : Type} [DecidableEq K] {k : K} {v : V} :
    ∀ {m : List (K × V)}, dictLookup k m = some v → (k, v) ∈ m := by
  intro m
  induction m with
  | nil => simp [dictLookup]
  | cons e rest ih =>
    obtain ⟨k', v'⟩ := e
    by_cases h : k = k'
    · subst h
      intro h2
      rw [dictLookup, if_pos rfl] at h2
      obtain rfl : v' = v := Option.some.inj h2
      exact List.mem_cons.2 (Or.inl rfl)
    · intro h2
      rw [dictLookup, if_neg h] at h2
      exact List.mem_cons.2 (Or.inr (ih h2))

theorem dictLookup_of_mem_nodup {K V : Type} [DecidableEq K] {k : K} {v : V} :
    ∀ {m : List (K × V)}, (m.map Prod.fst).Nodup → (k, v) ∈ m → dictLookup k m = some v := by
  intro m
  induction m with
  | nil => simp
  | cons e rest ih =>
    obtain ⟨k', v'⟩ := e
    intro hnd hmem
    simp only [List.map_cons, List.nodup_cons] at hnd
    rcases List.mem_cons.1 hmem with h | h
    · have hk : k = k' := congrArg Prod.fst h
      have hv : v = v' := congrArg Prod.snd h
      subst hk
      subst hv
      rw [dictLookup, if_pos rfl]
    · have hk : k ≠ k' := by
        rintro rfl
        exact hnd.1 (List.mem_map_of_mem Prod.fst h)
      rw [dictLookup, if_neg hk]
      exact ih hnd.2 h

theorem keys_dictInsert_of_none {K V : Type} [DecidableEq K] {k : K} (v : V) :
    ∀ {m : List (K × V)}, dictLookup k m = none →
      (dictInsert k v m).map Prod.fst = m.map Prod.fst ++ [k] := by
  intro m
  induction m with
  | nil => simp [dictInsert, dictLookup]
  | cons e rest ih =>
    obtain ⟨k', v'⟩ := e
    by_cases h : k = k'
    · simp [dictLookup, h]
    · simp only [dictLookup, if_neg h]
      intro h2
      simp [dictInsert, h, ih h2]

theorem keys_dictInsert_of_some {K V : Type} [DecidableEq K] {k : K} (v : V) {w : V} :
    ∀ {m : List (K × V)}, dictLookup k m = some w →
      (dictInsert k v m).map Prod.fst = m.map Prod.fst := by
  intro m
  induction m with
  | nil => simp [dictLookup]
  | cons e rest ih =>
    obtain ⟨k', v'⟩ := e
    by_cases h : k = k'
    · simp [dictInsert, dictLookup, h]
    · simp only [dictLookup, if_neg h]
      intro h2
      simp [dictInsert, h, ih h2]

theorem keys_nodup_dictInsert {K V : Type} [DecidableEq K] (k : K) (v : V)
    {m : List (K × V)} (h : (m.map Prod.fst).Nodup) :
    ((dictInsert k v m).map Prod.fst).Nodup := by
  cases h2 : dictLookup k m with
  | none =>
    rw [keys_dictInsert_of_none v h2]
    have hk : k ∉ m.map Prod.fst := (dictLookup_none_iff k m).1 h2
    simp [List.nodup_append, h, hk]
  | some w =>
    rw [keys_dictInsert_of_some v h2]
    exact h

theorem valuesOf_dictInsert_sub {K V : Type} [DecidableEq K] {k : K} {v : V} {t : V}
    {m : List (K × V)} (h : t ∈ valuesOf (dictInsert k v m)) : t = v ∨ t ∈ valuesOf m := by
  obtain ⟨e, he, rfl⟩ := List.mem_map.1 h
  rcases mem_dictInsert he with h2 | h2
  · subst h2
    exact Or.inl rfl
  · exact Or.inr (List.mem_map_of_mem Prod.snd h2)

/-! ## Lemmas about the duplicate resolver -/

theorem namedPass_concat (l : List Sprite) (s : Sprite) :
    namedPass (l ++ [s]) = namedStep (namedPass l) s := by
  unfold namedPass
  rw [List.foldl_concat]

theorem autoPass_concat (l : List Sprite) (s : Sprite) (m0 : List (List RGBA × Sprite)) :
    autoPass (l ++ [s]) m0 = autoStep (autoPass l m0) s := by
  unfold autoPass
  rw [List.foldl_concat]

theorem namedPass_lookup (k : List RGBA) (l : List Sprite) :
    dictLookup k (namedPass l) = (l.filter (namedWith k)).getLast? := by
  induction l using List.reverseRecOn with
  | nil => simp [namedPass, dictLookup]
  | append_singleton l s ih =>
    rw [namedPass_concat, List.filter_append]
    cases hA : isAuto s.id with
    | true =>
      have hnw : namedWith k s = false := by simp [namedWith, hA]
      simp [namedStep, hA, hnw, ih]
    | false =>
      by_cases hH : hashOf s = k
      · have hnw : namedWith k s = true := by simp [namedWith, hA, hH]
        simp only [namedStep, hA, if_neg Bool.false_ne_true]
        rw [hH, dictLookup_dictInsert_self]
        simp [hnw, List.getLast?_concat]
      · have hnw : namedWith k s = false := by simp [namedWith, hA, hH]
        simp only [namedStep, hA, if_neg Bool.false_ne_true]
        rw [dictLookup_dictInsert_ne _ (fun h => hH h.symm)]
        simp [hnw, ih]

theorem namedPass_WF (l : List Sprite) : hashMapWF (namedPass l) := by
  induction l using List.reverseRecOn with
  | nil => intro e he; simp [namedPass] at he
  | append_singleton l s ih =>
    rw [namedPass_concat]
    unfold namedStep
    cases hA : isAuto s.id with
    | true => simpa using ih
    | false =>
      simp only [if_neg Bool.false_ne_true]
      intro e he
      rcases mem_dictInsert he with h | h
      · subst h; rfl
      · exact ih e h

theorem namedPass_keysNodup (l : List Sprite) : ((namedPass l).map Prod.fst).Nodup := by
  induction l using List.reverseRecOn with
  | nil => simp [namedPass]
  | append_singleton l s ih =>
    rw [namedPass_concat]
    unfold namedStep
    cases hA : isAuto s.id with
    | true => simpa using ih
    | false =>
      simp only [if_neg Bool.false_ne_true]
      exact keys_nodup_dictInsert _ _ ih

theorem namedPass_values_named (l : List Sprite) :
    ∀ t ∈ valuesOf (namedPass l), isAuto t.id = false := by
  induction l using List.reverseRecOn with
  | nil => intro t ht; simp [namedPass, valuesOf] at ht
  | append_singleton l s ih =>
    rw [namedPass_concat]
    unfold namedStep
    cases hA : isAuto s.id with
    | true => simpa using ih
    | false =>
      simp only [if_neg Bool.false_ne_true]
      intro t ht
      rcases valuesOf_dictInsert_sub ht with h | h
      · subst h; exact hA
      · exact ih t h

theorem getLast?_mem_of_eq_some {α : Type _} {l : List α} {a : α}
    (h : l.getLast? = some a) : a ∈ l := by
  obtain ⟨hne, heq⟩ := List.mem_getLast?_eq_getLast (Option.mem_def.2 h)
  rw [heq]
  exact List.getLast_mem hne

theorem getLast?_of_all_eq {α : Type _} {l : List α} {a : α}
    (hne : l ≠ []) (hall : ∀ x ∈ l, x = a) : l.getLast? = some a := by
  rw [List.getLast?_eq_getLast_of_ne_nil hne]
  exact congrArg some (hall _ (List.getLast_mem hne))

theorem namedPass_values_mem (l : List Sprite) :
    ∀ t ∈ valuesOf (namedPass l), t ∈ l := by
  induction l using List.reverseRecOn with
  | nil => intro t ht; simp [namedPass, valuesOf] at ht
  | append_singleton l s ih =>
    rw [namedPass_concat]
    unfold namedStep
    cases hA : isAuto s.id with
    | true =>
      intro t ht
      exact List.mem_append_left _ (ih t (by simpa [hA] using ht))
    | false =>
      simp only [if_neg Bool.false_ne_true]
      intro t ht
      rcases valuesOf_dictInsert_sub ht with h | h
      · subst h; simp
      · exact List.mem_append_left _ (ih t h)

theorem autoStep_eq_named {acc : List (List RGBA × Sprite) × List (String × String)}
    {s : Sprite} (hA : isAuto s.id = false) : autoStep acc s = acc := by
  unfold autoStep
  rw [hA]
  simp

theorem autoStep_eq_dup {acc : List (List RGBA × Sprite) × List (String × String)}
    {s : Sprite} {t : Sprite} (hA : isAuto s.id = true)
    (hL : dictLookup (hashOf s) acc.1 = some t) :
    autoStep acc s = (acc.1, acc.2 ++ [(s.id, t.id)]) := by
  unfold autoStep
  rw [hA, hL]
  simp

theorem autoStep_eq_insert {acc : List (List RGBA × Sprite) × List (String × String)}
    {s : Sprite} (hA : isAuto s.id = true)
    (hL : dictLookup (hashOf s) acc.1 = none) :
    autoStep acc s = (dictInsert (hashOf s) s acc.1, acc.2) := by
  unfold autoStep
  rw [hA, hL]
  simp

theorem autoStep_lookup_mono {acc : List (List RGBA × Sprite) × List (String × String)}
    {s : Sprite} {k : List RGBA} {v : Sprite} (h : dictLookup k acc.1 = some v) :
    dictLookup k (autoStep acc s).1 = some v := by
  cases hA : isAuto s.id with
  | false => rw [autoStep_eq_named hA]; exact h
  | true =>
    cases hL : dictLookup (hashOf s) acc.1 with
    | some t => rw [autoStep_eq_dup hA hL]; exact h
    | none =>
      have hk : k ≠ hashOf s := by
        rintro rfl
        rw [h] at hL
        cases hL
      rw [autoStep_eq_insert hA hL]
      exact (dictLookup_dictInsert_ne _ hk _).trans h

theorem autoPass_lookup_mono (l : List Sprite) (m0 : List (List RGBA × Sprite))
    {k : List RGBA} {v : Sprite} (h : dictLookup k m0 = some v) :
    dictLookup k (autoPass l m0).1 = some v := by
  induction l using List.reverseRecOn with
  | nil => exact h
  | append_singleton l s ih =>
    rw [autoPass_concat]
    exact autoStep_lookup_mono ih

theorem autoPass_lookup_exists (l : List Sprite) (m0 : List (List RGBA × Sprite)) :
    ∀ s ∈ l, isAuto s.id = true →
      ∃ t, dictLookup (hashOf s) (autoPass l m0).1 = some t := by
  induction l using List.reverseRecOn with
  | nil => intro s hs; simp at hs
  | append_singleton l a ih =>
    intro s hs hA
    rw [autoPass_concat]
    rcases List.mem_append.1 hs with h | h
    · obtain ⟨t, ht⟩ := ih s h hA
      exact ⟨t, autoStep_lookup_mono ht⟩
    · obtain rfl : a = s := (List.mem_singleton.1 h).symm
      cases hL : dictLookup (hashOf a) (autoPass l m0).1 with
      | some t => exact ⟨t, by rw [autoStep_eq_dup hA hL]; exact hL⟩
      | none =>
        refine ⟨a, ?_⟩
        rw [autoStep_eq_insert hA hL]
        exact dictLookup_dictInsert_self (hashOf a) a (autoPass l m0).1

theorem autoStep_WF {acc : List (List RGBA × Sprite) × List (String × String)} {s : Sprite}
    (h : hashMapWF acc.1) : hashMapWF (autoStep acc s).1 := by
  cases hA : isAuto s.id with
  | false => rw [autoStep_eq_named hA]; exact h
  | true =>
    cases hL : dictLookup (hashOf s) acc.1 with
    | some t => rw [autoStep_eq_dup hA hL]; exact h
    | none =>
      rw [autoStep_eq_insert hA hL]
      intro e he
      rcases mem_dictInsert he with h2 | h2
      · subst h2; rfl
      · exact h e h2

theorem autoPass_WF (l : List Sprite) (m0 : List (List RGBA × Sprite))
    (h : hashMapWF m0) : hashMapWF (autoPass l m0).1 := by
  induction l using List.reverseRecOn with
  | nil => exact h
  | append_singleton l s ih =>
    rw [autoPass_concat]
    exact autoStep_WF ih

theorem autoStep_keysNodup {acc : List (List RGBA × Sprite) × List (String × String)}
    {s : Sprite} (h : (acc.1.map Prod.fst).Nodup) : ((autoStep acc s).1.map Prod.fst).Nodup := by
  cases hA : isAuto s.id with
  | false => rw [autoStep_eq_named hA]; exact h
  | true =>
    cases hL : dictLookup (hashOf s) acc.1 with
    | some t => rw [autoStep_eq_dup hA hL]; exact h
    | none =>
      rw [autoStep_eq_insert hA hL]
      exact keys_nodup_dictInsert _ _ h

theorem autoPass_keysNodup (l : List Sprite) (m0 : List (List RGBA × Sprite))
    (h : (m0.map Prod.fst).Nodup) : ((autoPass l m0).1.map Prod.fst).Nodup := by
  induction l using List.reverseRecOn with
  | nil => exact h
  | append_singleton l s ih =>
    rw [autoPass_concat]
    exact autoStep_keysNodup ih

theorem autoPass_values_sub (l : List Sprite) (m0 : List (List RGBA × Sprite)) :
    ∀ t ∈ valuesOf (autoPass l m0).1, t ∈ valuesOf m0 ∨ t ∈ l := by
  induction l using List.reverseRecOn with
  | nil => intro t ht; exact Or.inl ht
  | append_singleton l s ih =>
    intro t ht
    rw [autoPass_concat] at ht
    have hstep : t ∈ valuesOf (autoPass l m0).1 ∨ t = s := by
      cases hA : isAuto s.id with
      | false => rw [autoStep_eq_named hA] at ht; exact Or.inl ht
      | true =>
        cases hL : dictLookup (hashOf s) (autoPass l m0).1 with
        | some u => rw [autoStep_eq_dup hA hL] at ht; exact Or.inl ht
        | none =>
          rw [autoStep_eq_insert hA hL] at ht
          rcases valuesOf_dictInsert_sub ht with h2 | h2
          · exact Or.inr h2
          · exact Or.inl h2
    rcases hstep with h2 | h2
    · rcases ih t h2 with h3 | h3
      · exact Or.inl h3
      · exact Or.inr (List.mem_append_left _ h3)
    · subst h2; exact Or.inr (by simp)

theorem autoPass_dups_auto (l : List Sprite) (m0 : List (List RGBA × Sprite)) :
    ∀ e ∈ (autoPass l m0).2, isAuto e.1 = true := by
  induction l using List.reverseRecOn with
  | nil => intro e he; simp [autoPass] at he
  | append_singleton l s ih =>
    intro e he
    rw [autoPass_concat] at he
    cases hA : isAuto s.id with
    | false => rw [autoStep_eq_named hA] at he; exact ih e he
    | true =>
      cases hL : dictLookup (hashOf s) (autoPass l m0).1 with
      | some t =>
        rw [autoStep_eq_dup hA hL] at he
        simp only [List.mem_append] at he
        rcases he with h2 | h2
        · exact ih e h2
        · obtain rfl : e = (s.id, t.id) := List.mem_singleton.1 h2
          exact hA
      | none => rw [autoStep_eq_insert hA hL] at he; exact ih e he

/-! ## Claim-level facts about the duplicate resolver -/

theorem dedup_kept_eq (l : List Sprite) :
    (dedupSprites l).1 = valuesOf (autoPass l (namedPass l)).1 := rfl

theorem dedup_WF (l : List Sprite) : hashMapWF (autoPass l (namedPass l)).1 :=
  autoPass_WF l _ (namedPass_WF l)

theorem dedup_keysNodup (l : List Sprite) :
    (((autoPass l (namedPass l)).1).map Prod.fst).Nodup :=
  autoPass_keysNodup l _ (namedPass_keysNodup l)

theorem dedup_hashes_nodup (l : List Sprite) :
    ((dedupSprites l).1.map hashOf).Nodup := by
  have h : (dedupSprites l).1.map hashOf = ((autoPass l (namedPass l)).1).map Prod.fst := by
    rw [dedup_kept_eq]
    unfold valuesOf
    rw [List.map_map]
    exact List.map_congr_left (fun e he => (dedup_WF l e he).symm)
  rw [h]
  exact dedup_keysNodup l

theorem dedup_mem_kept (l : List Sprite) : ∀ t ∈ (dedupSprites l).1, t ∈ l := by
  rw [dedup_kept_eq]
  intro t ht
  rcases autoPass_values_sub l _ t ht with h | h
  · exact namedPass_values_mem l t h
  · exact h

theorem namedPass_lookup_of_named {l : List Sprite} {n : Sprite} (hn : n ∈ l)
    (hAn : isAuto n.id = false) :
    ∃ t, dictLookup (hashOf n) (namedPass l) = some t ∧ isAuto t.id = false ∧
      hashOf t = hashOf n := by
  have hmem : n ∈ l.filter (namedWith (hashOf n)) :=
    List.mem_filter.2 ⟨hn, by simp [namedWith, hAn]⟩
  have hne : l.filter (namedWith (hashOf n)) ≠ [] := List.ne_nil_of_mem hmem
  cases ht : (l.filter (namedWith (hashOf n))).getLast? with
  | none => exact absurd (List.getLast?_eq_none_iff.1 ht) hne
  | some t =>
    have htmem : t ∈ l.filter (namedWith (hashOf n)) := getLast?_mem_of_eq_some ht
    have hprop := (List.mem_filter.1 htmem).2
    simp only [namedWith, Bool.and_eq_true, Bool.not_eq_true', decide_eq_true_eq] at hprop
    exact ⟨t, by rw [namedPass_lookup]; exact ht, hprop.1, hprop.2⟩

theorem dedup_represents (l : List Sprite) :
    ∀ s ∈ l, ∃ t ∈ (dedupSprites l).1, hashOf t = hashOf s := by
  intro s hs
  cases hA : isAuto s.id with
  | false =>
    obtain ⟨t, hNP, _, hth⟩ := namedPass_lookup_of_named hs hA
    have hfin := autoPass_lookup_mono l _ hNP
    have hmem2 := dictLookup_mem hfin
    exact ⟨t, by rw [dedup_kept_eq]; exact List.mem_map_of_mem Prod.snd hmem2, hth⟩
  | true =>
    obtain ⟨t, hfin⟩ := autoPass_lookup_exists l (namedPass l) s hs hA
    have hmem2 := dictLookup_mem hfin
    refine ⟨t, by rw [dedup_kept_eq]; exact List.mem_map_of_mem Prod.snd hmem2, ?_⟩
    exact (dedup_WF l _ hmem2).symm

theorem dedup_mem_lookup {l : List Sprite} {t : Sprite} (h : t ∈ (dedupSprites l).1) :
    dictLookup (hashOf t) (autoPass l (namedPass l)).1 = some t := by
  rw [dedup_kept_eq] at h
  obtain ⟨e, he, rfl⟩ := List.mem_map.1 h
  have hk : e.1 = hashOf e.2 := dedup_WF l e he
  have he2 : (hashOf e.2, e.2) ∈ (autoPass l (namedPass l)).1 := by
    rw [← hk]
    exact Prod.mk.eta ▸ he
  exact dictLookup_of_mem_nodup (dedup_keysNodup l) he2

theorem dedup_auto_dropped (l : List Sprite) {n u : Sprite} (hn : n ∈ l) (_ : u ∈ l)
    (hAn : isAuto n.id = false) (hAu : isAuto u.id = true)
    (hh : hashOf n = hashOf u) : u ∉ (dedupSprites l).1 := by
  intro hmem
  have hlu : dictLookup (hashOf u) (autoPass l (namedPass l)).1 = some u :=
    dedup_mem_lookup hmem
  obtain ⟨t, hNP, hAt, _⟩ := namedPass_lookup_of_named hn hAn
  have hfin := autoPass_lookup_mono l _ hNP
  rw [hh] at hfin
  obtain rfl : t = u := Option.some.inj (hfin.symm.trans hlu)
  rw [hAt] at hAu
  cases hAu

theorem dedup_named_iff (l : List Sprite) {n : Sprite} (hn : n ∈ l)
    (hAn : isAuto n.id = false) :
    n ∈ (dedupSprites l).1 ↔ (l.filter (namedWith (hashOf n))).getLast? = some n := by
  constructor
  · intro hmem
    have hlu := dedup_mem_lookup hmem
    obtain ⟨t, hNP, _, _⟩ := namedPass_lookup_of_named hn hAn
    have hfin := autoPass_lookup_mono l _ hNP
    obtain rfl : t = n := Option.some.inj (hfin.symm.trans hlu)
    rw [namedPass_lookup] at hNP
    exact hNP
  · intro hlast
    have hNP : dictLookup (hashOf n) (namedPass l) = some n := by
      rw [namedPass_lookup]
      exact hlast
    have hfin := autoPass_lookup_mono l _ hNP
    have hmem2 := dictLookup_mem hfin
    rw [dedup_kept_eq]
    exact List.mem_map_of_mem Prod.snd hmem2

theorem dedup_named_kept (l : List Sprite) {n : Sprite} (hn : n ∈ l)
    (hAn : isAuto n.id = false)
    (huniq : ∀ m ∈ l, isAuto m.id = false → hashOf m = hashOf n → m = n) :
    n ∈ (dedupSprites l).1 := by
  rw [dedup_named_iff l hn hAn]
  refine getLast?_of_all_eq (List.ne_nil_of_mem (List.mem_filter.2 ⟨hn, by simp [namedWith, hAn]⟩)) ?_
  intro x hx
  have hprop := (List.mem_filter.1 hx).2
  simp only [namedWith, Bool.and_eq_true, Bool.not_eq_true', decide_eq_true_eq] at hprop
  exact huniq x (List.mem_filter.1 hx).1 hprop.1 hprop.2

/-! ## Lemmas about the row-packing loop -/

theorem rowWidthSum_concat (l : List Sprite) (s : Sprite) :
    rowWidthSum (l ++ [s]) = rowWidthSum l + s.width + padding := by
  unfold rowWidthSum
  rw [List.map_append, List.sum_append]
  simp [add_assoc]

theorem edgesOK_concat {l : List Sprite} {x : Int} {s : Sprite} (h : edgesOK l x)
    (hb : x + rowWidthSum l + s.width ≤ max_width) : edgesOK (l ++ [s]) x := by
  induction l generalizing x with
  | nil =>
    refine ⟨?_, trivial⟩
    simpa [rowWidthSum] using hb
  | cons t l ih =>
    refine ⟨h.1, ih h.2 ?_⟩
    have : rowWidthSum (t :: l) = t.width + padding + rowWidthSum l := by
      unfold rowWidthSum
      simp [add_assoc]
    rw [this] at hb
    linarith

theorem rowStep_over_empty {cur : Row} {s : Sprite} {rows : List Row}
    (hov : cur.width + s.width + padding > max_width) (hemp : cur.sprites = []) :
    rowStep (rows, cur) s = (rows, addToRow ⟨[], 0, 0⟩ s) := by
  unfold rowStep
  rw [if_pos hov, if_pos (List.isEmpty_iff.2 hemp)]

theorem rowStep_over_ne {cur : Row} {s : Sprite} {rows : List Row}
    (hov : cur.width + s.width + padding > max_width) (hemp : ¬ cur.sprites = []) :
    rowStep (rows, cur) s = (rows ++ [cur], addToRow ⟨[], 0, 0⟩ s) := by
  unfold rowStep
  rw [if_pos hov, if_neg (fun h => hemp (List.isEmpty_iff.1 h))]

theorem rowStep_fit {cur : Row} {s : Sprite} {rows : List Row}
    (hov : ¬ cur.width + s.width + padding > max_width) :
    rowStep (rows, cur) s = (rows, addToRow cur s) := by
  unfold rowStep
  rw [if_neg hov]

theorem rowFold_flatten (l : List Sprite) :
    ∀ (rows : List Row) (cur : Row),
      (((l.foldl rowStep (rows, cur)).1.map Row.sprites).flatten ++
        (l.foldl rowStep (rows, cur)).2.sprites) =
      ((rows.map Row.sprites).flatten ++ cur.sprites) ++ l := by
  induction l with
  | nil => intro rows cur; simp
  | cons s l ih =>
    intro rows cur
    rw [List.foldl_cons]
    by_cases hov : cur.width + s.width + padding > max_width
    · by_cases hemp : cur.sprites = []
      · rw [rowStep_over_empty hov hemp, ih]
        simp [addToRow, hemp]
      · rw [rowStep_over_ne hov hemp, ih]
        simp [addToRow]
    · rw [rowStep_fit hov, ih]
      simp [addToRow]

theorem packRows_flatten (l : List Sprite) :
    ((packRows l).map Row.sprites).flatten = l := by
  unfold packRows
  have h := rowFold_flatten l [] ⟨[], 0, 0⟩
  by_cases hemp : (l.foldl rowStep ([], ⟨[], 0, 0⟩)).2.sprites.isEmpty
  · rw [if_pos hemp]
    have h2 : (l.foldl rowStep ([], ⟨[], 0, 0⟩)).2.sprites = [] := List.isEmpty_iff.1 hemp
    rw [h2, List.append_nil] at h
    simpa using h
  · rw [if_neg hemp]
    rw [List.map_append, List.flatten_append]
    simpa using h

/-- A closed row produced by the packer, given well-dimensioned input
sprites: all right edges within `max_width`, all sprite heights bounded
by the row height, and a nonnegative row height. -/
def RowGood (row : Row) : Prop :=
  edgesOK row.sprites 0 ∧ (∀ s ∈ row.sprites, s.height ≤ row.height) ∧ 0 ≤ row.height

/-- The in-progress row of the packing loop: `RowGood` plus the accumulated
width being the sum of widths-plus-padding. -/
def CurGood (cur : Row) : Prop :=
  edgesOK cur.sprites 0 ∧ cur.width = rowWidthSum cur.sprites ∧
  (∀ s ∈ cur.sprites, s.height ≤ cur.height) ∧ 0 ≤ cur.height

theorem rowFold_good (l : List Sprite)
    (hdim : ∀ s ∈ l, 0 ≤ s.width ∧ s.width ≤ max_width ∧ 0 ≤ s.height) :
    ∀ (rows : List Row) (cur : Row), (∀ r ∈ rows, RowGood r) → CurGood cur →
      (∀ r ∈ (l.foldl rowStep (rows, cur)).1, RowGood r) ∧
        CurGood (l.foldl rowStep (rows, cur)).2 := by
  induction l with
  | nil => intro rows cur hrows hcur; exact ⟨hrows, hcur⟩
  | cons s l ih =>
    intro rows cur hrows hcur
    have hs := hdim s (by simp)
    have hdim' : ∀ t ∈ l, 0 ≤ t.width ∧ t.width ≤ max_width ∧ 0 ≤ t.height := by
      intro t ht
      exact hdim t (by simp [ht])
    rw [List.foldl_cons]
    by_cases hov : cur.width + s.width + padding > max_width
    · have hfresh : CurGood (addToRow ⟨[], 0, 0⟩ s) := by
        refine ⟨⟨by simpa using hs.2.1, trivial⟩, ?_, ?_, le_max_left 0 _⟩
        · simp [addToRow, rowWidthSum]
        · intro t ht
          simp only [addToRow] at ht
          obtain rfl : t = s := by simpa using ht
          exact le_max_right 0 _
      by_cases hemp : cur.sprites = []
      · rw [rowStep_over_empty hov hemp]
        exact ih hdim' _ _ hrows hfresh
      · rw [rowStep_over_ne hov hemp]
        have hrows' : ∀ r ∈ rows ++ [cur], RowGood r := by
          intro r hr
          rcases List.mem_append.1 hr with h2 | h2
          · exact hrows r h2
          · obtain rfl : r = cur := List.mem_singleton.1 h2
            exact ⟨hcur.1, hcur.2.2.1, hcur.2.2.2⟩
        exact ih hdim' _ _ hrows' hfresh
    · rw [rowStep_fit hov]
      have hle : cur.width + s.width + padding ≤ max_width := le_of_not_lt hov
      have hcur' : CurGood (addToRow cur s) := by
        refine ⟨?_, ?_, ?_, le_max_of_le_left hcur.2.2.2⟩
        · refine edgesOK_concat hcur.1 ?_
          rw [← hcur.2.1]
          have hpad : (0 : Int) < padding := by norm_num [padding]
          linarith
        · simp only [addToRow]
          rw [rowWidthSum_concat, hcur.2.1]
        · intro t ht
          simp only [addToRow] at ht
          rcases List.mem_append.1 ht with h2 | h2
          · exact le_trans (hcur.2.2.1 t h2) (le_max_left _ _)
          · obtain rfl : t = s := List.mem_singleton.1 h2
            exact le_max_right _ _
      exact ih hdim' _ _ hrows hcur'

theorem packRows_good (l : List Sprite)
    (hdim : ∀ s ∈ l, 0 ≤ s.width ∧ s.width ≤ max_width ∧ 0 ≤ s.height) :
    ∀ row ∈ packRows l, RowGood row := by
  have h := rowFold_good l hdim [] ⟨[], 0, 0⟩ (by intro r hr; simp at hr)
    ⟨trivial, by simp [rowWidthSum], by intro t ht; simp at ht, le_refl 0⟩
  unfold packRows
  by_cases hemp : (l.foldl rowStep ([], ⟨[], 0, 0⟩)).2.sprites.isEmpty
  · rw [if_pos hemp]; exact h.1
  · rw [if_neg hemp]
    intro row hrow
    rcases List.mem_append.1 hrow with h2 | h2
    · exact h.1 row h2
    · obtain rfl : row = _ := List.mem_singleton.1 h2
      exact ⟨h.2.1, h.2.2.2.1, h.2.2.2.2⟩

theorem rowStackHeight_nonneg {rows : List Row} (h : ∀ r ∈ rows, 0 ≤ r.height) :
    0 ≤ rowStackHeight rows := by
  unfold rowStackHeight
  induction rows with
  | nil => simp
  | cons r rest ih =>
    simp only [List.map_cons, List.sum_cons]
    have h1 : 0 ≤ r.height := h r (by simp)
    have h2 := ih (fun t ht => h t (by simp [ht]))
    have hpad : (0 : Int) ≤ padding := by norm_num [padding]
    linarith

/-! ## Lemmas about stamping and the manifest -/

theorem dictFold_append {K V : Type} [DecidableEq K] (a b : List (K × V)) (m : List (K × V)) :
    dictFold (a ++ b) m = dictFold b (dictFold a m) := by
  unfold dictFold
  exact List.foldl_append _ _ _ _

theorem dictFold_eq_append {K V : Type} [DecidableEq K] :
    ∀ (pairs : List (K × V)) (m : List (K × V)),
      ((m.map Prod.fst) ++ pairs.map Prod.fst).Nodup →
      dictFold pairs m = m ++ pairs := by
  intro pairs
  induction pairs with
  | nil => intro m _; simp [dictFold]
  | cons e rest ih =>
    obtain ⟨k, v⟩ := e
    intro m hnd
    have hk : k ∉ m.map Prod.fst := by
      intro hmem
      have hdisj := (List.nodup_append.1 hnd).2.2
      exact hdisj hmem (by simp)
    have hnone : dictLookup k m = none := (dictLookup_none_iff k m).2 hk
    have hstep : dictFold ((k, v) :: rest) m = dictFold rest (m ++ [(k, v)]) := by
      unfold dictFold
      rw [List.foldl_cons, dictInsert_lookup_none k v m hnone]
    rw [hstep, ih (m ++ [(k, v)]) ?_]
    · simp
    · have h1 : (m ++ [(k, v)]).map Prod.fst ++ rest.map Prod.fst =
          m.map Prod.fst ++ ((k, v) :: rest).map Prod.fst := by
        simp
      rw [h1]
      exact hnd

theorem placeFold_inner_regions (y : Int) (sprs : List Sprite) :
    ∀ (img : PImage) (rs : List (String × Region)) (x : Int),
      (sprs.foldl (placeSpriteStep y) (img, rs, x)).2.1 = dictFold (rowRegions sprs x y) rs := by
  induction sprs with
  | nil => intro img rs x; simp [rowRegions, dictFold]
  | cons s l ih =>
    intro img rs x
    rw [List.foldl_cons]
    have hstep : placeSpriteStep y (img, rs, x) s =
        (paste img s.image x y, dictInsert s.id ⟨x, y, s.width, s.height⟩ rs,
          x + s.width + padding) := rfl
    rw [hstep, ih]
    rfl

theorem placeFold_outer_regions (rows : List Row) :
    ∀ (img : PImage) (rs : List (String × Region)) (y : Int),
      (rows.foldl placeRowStep (img, rs, y)).2.1 = dictFold (rowsRegions rows y) rs := by
  induction rows with
  | nil => intro img rs y; simp [rowsRegions, dictFold]
  | cons row rest ih =>
    intro img rs y
    rw [List.foldl_cons]
    have hstep : placeRowStep (img, rs, y) row =
        ((row.sprites.foldl (placeSpriteStep y) (img, rs, 0)).1,
         (row.sprites.foldl (placeSpriteStep y) (img, rs, 0)).2.1,
         y + row.height + padding) := rfl
    rw [hstep, ih, placeFold_inner_regions, rowsRegions, dictFold_append]

theorem placeFold_inner_dims (y : Int) (sprs : List Sprite) :
    ∀ (img : PImage) (rs : List (String × Region)) (x : Int),
      (sprs.foldl (placeSpriteStep y) (img, rs, x)).1.width = img.width ∧
      (sprs.foldl (placeSpriteStep y) (img, rs, x)).1.height = img.height := by
  induction sprs with
  | nil => intro img rs x; exact ⟨rfl, rfl⟩
  | cons s l ih =>
    intro img rs x
    rw [List.foldl_cons]
    exact ih (paste img s.image x y) _ _

theorem placeFold_outer_dims (rows : List Row) :
    ∀ (img : PImage) (rs : List (String × Region)) (y : Int),
      (rows.foldl placeRowStep (img, rs, y)).1.width = img.width ∧
      (rows.foldl placeRowStep (img, rs, y)).1.height = img.height := by
  induction rows with
  | nil => intro img rs y; exact ⟨rfl, rfl⟩
  | cons row rest ih =>
    intro img rs y
    rw [List.foldl_cons]
    have hstep := placeFold_inner_dims y row.sprites img rs 0
    have h2 := ih (row.sprites.foldl (placeSpriteStep y) (img, rs, 0)).1
      (row.sprites.foldl (placeSpriteStep y) (img, rs, 0)).2.1 (y + row.height + padding)
    exact ⟨h2.1.trans hstep.1, h2.2.trans hstep.2⟩

theorem cmd_pack_atlas_width (l : List Sprite) :
    (cmd_pack l).atlas.width = max_width.toNat := by
  unfold cmd_pack
  exact (placeFold_outer_dims _ _ _ _).1

theorem cmd_pack_atlas_height (l : List Sprite) :
    (cmd_pack l).atlas.height = (next_power_of_2 (packStack l)).toNat := by
  unfold cmd_pack packStack
  exact (placeFold_outer_dims _ _ _ _).2

theorem cmd_pack_regions_eq (l : List Sprite) :
    (cmd_pack l).regions =
      dictFold (rowsRegions (packRows (List.insertionSort heightDescLE (dedupSprites l).1)) 0)
        [] := by
  unfold cmd_pack
  exact placeFold_outer_regions _ _ _ _

/-! ## Geometry of the placement rectangles -/

theorem rowRegions_keys (l : List Sprite) :
    ∀ (x y : Int), (rowRegions l x y).map Prod.fst = l.map Sprite.id := by
  induction l with
  | nil => intro x y; rfl
  | cons s rest ih =>
    intro x y
    simp only [rowRegions, List.map_cons]
    rw [ih]

theorem rowsRegions_keys (rows : List Row) :
    ∀ (y : Int), (rowsRegions rows y).map Prod.fst =
      ((rows.map Row.sprites).flatten).map Sprite.id := by
  induction rows with
  | nil => intro y; rfl
  | cons row rest ih =>
    intro y
    simp only [rowsRegions, List.map_cons, List.map_append, List.flatten_cons]
    rw [ih, rowRegions_keys]

theorem rowRegions_mem_sprite {l : List Sprite} {e : String × Region} :
    ∀ {x y : Int}, e ∈ rowRegions l x y →
      e.2.y = y ∧ ∃ s ∈ l, e.1 = s.id ∧ e.2.w = s.width ∧ e.2.h = s.height := by
  induction l with
  | nil => intro x y h; simp [rowRegions] at h
  | cons s rest ih =>
    intro x y h
    rcases List.mem_cons.1 h with h2 | h2
    · subst h2
      exact ⟨rfl, s, by simp, rfl, rfl, rfl⟩
    · obtain ⟨hy, t, ht, he⟩ := ih h2
      exact ⟨hy, t, by simp [ht], he⟩

theorem rowRegions_x_lb {l : List Sprite} (hw : ∀ s ∈ l, 0 ≤ s.width) :
    ∀ {x y : Int}, ∀ e ∈ rowRegions l x y, x ≤ e.2.x := by
  induction l with
  | nil => intro x y e h; simp [rowRegions] at h
  | cons s rest ih =>
    intro x y e h
    rcases List.mem_cons.1 h with h2 | h2
    · subst h2; exact le_refl x
    · have hs : 0 ≤ s.width := hw s (by simp)
      have hrest : ∀ t ∈ rest, 0 ≤ t.width := fun t ht => hw t (by simp [ht])
      have := ih hrest e h2
      have hpad : (0 : Int) ≤ padding := by norm_num [padding]
      linarith

theorem rowRegions_x_disjoint {l : List Sprite} (hw : ∀ s ∈ l, 0 ≤ s.width) :
    ∀ {x y : Int}, List.Pairwise (fun a b => a.2.x + a.2.w ≤ b.2.x) (rowRegions l x y) := by
  induction l with
  | nil => intro x y; exact List.Pairwise.nil
  | cons s rest ih =>
    intro x y
    have hrest : ∀ t ∈ rest, 0 ≤ t.width := fun t ht => hw t (by simp [ht])
    refine List.pairwise_cons.2 ⟨?_, ih hrest⟩
    intro e he
    have hx := rowRegions_x_lb hrest e he
    have hpad : (0 : Int) < padding := by norm_num [padding]
    simp only []
    linarith

theorem rowRegions_right_edge {l : List Sprite} :
    ∀ {x y : Int}, edgesOK l x → ∀ e ∈ rowRegions l x y, e.2.x + e.2.w ≤ max_width := by
  induction l with
  | nil => intro x y _ e h; simp [rowRegions] at h
  | cons s rest ih =>
    intro x y hOK e h
    rcases List.mem_cons.1 h with h2 | h2
    · subst h2
      exact hOK.1
    · exact ih hOK.2 e h2

theorem rowStackHeight_cons (row : Row) (rest : List Row) :
    rowStackHeight (row :: rest) = row.height + padding + rowStackHeight rest := by
  simp [rowStackHeight]

theorem rowsRegions_inBounds : ∀ {rows : List Row}, (∀ r ∈ rows, RowGood r) →
    (∀ r ∈ rows, ∀ s ∈ r.sprites, 0 ≤ s.width) →
    ∀ {y : Int}, ∀ e ∈ rowsRegions rows y,
      0 ≤ e.2.x ∧ y ≤ e.2.y ∧ e.2.x + e.2.w ≤ max_width ∧
        e.2.y + e.2.h ≤ y + rowStackHeight rows := by
  intro rows
  induction rows with
  | nil => intro _ _ y e he; simp [rowsRegions] at he
  | cons row rest ih =>
    intro hgood hw y e he
    have hrow := hgood row (by simp)
    have hgrest : ∀ r ∈ rest, RowGood r := fun r hr => hgood r (by simp [hr])
    have hwrow := hw row (by simp)
    have hwrest : ∀ r ∈ rest, ∀ s ∈ r.sprites, 0 ≤ s.width :=
      fun r hr => hw r (by simp [hr])
    have hstackrest : 0 ≤ rowStackHeight rest :=
      rowStackHeight_nonneg (fun r hr => (hgrest r hr).2.2)
    have hpad : (0 : Int) ≤ padding := by norm_num [padding]
    have hstack := rowStackHeight_cons row rest
    rcases List.mem_append.1 he with h2 | h2
    · obtain ⟨hy, s, hs, _, _, hh⟩ := rowRegions_mem_sprite h2
      have hhle : e.2.h ≤ row.height := hh ▸ hrow.2.1 s hs
      refine ⟨rowRegions_x_lb hwrow e h2, le_of_eq hy.symm,
        rowRegions_right_edge hrow.1 e h2, ?_⟩
      rw [hy]
      linarith
    · obtain ⟨hx, hy2, hr, hb⟩ := ih hgrest hwrest e h2
      have hrh : 0 ≤ row.height := hrow.2.2
      refine ⟨hx, ?_, hr, ?_⟩
      · linarith
      · linarith

theorem rowsRegions_disjoint : ∀ {rows : List Row}, (∀ r ∈ rows, RowGood r) →
    (∀ r ∈ rows, ∀ s ∈ r.sprites, 0 ≤ s.width) →
    ∀ {y : Int}, List.Pairwise (fun (a b : String × Region) => rectsDisjoint a.2 b.2)
      (rowsRegions rows y) := by
  intro rows
  induction rows with
  | nil => intro _ _ y; exact List.Pairwise.nil
  | cons row rest ih =>
    intro hgood hw y
    have hrow := hgood row (by simp)
    have hgrest : ∀ r ∈ rest, RowGood r := fun r hr => hgood r (by simp [hr])
    have hwrow := hw row (by simp)
    have hwrest : ∀ r ∈ rest, ∀ s ∈ r.sprites, 0 ≤ s.width :=
      fun r hr => hw r (by simp [hr])
    refine List.pairwise_append.2 ⟨?_, ih hgrest hwrest, ?_⟩
    · exact (rowRegions_x_disjoint hwrow).imp (fun h => Or.inl h)
    · intro a ha b hb
      obtain ⟨hay, s, hs, _, _, hah⟩ := rowRegions_mem_sprite ha
      have hahle : a.2.h ≤ row.height := hah ▸ hrow.2.1 s hs
      obtain ⟨_, hby, _, _⟩ := rowsRegions_inBounds hgrest hwrest b hb
      have hpad : (0 : Int) < padding := by norm_num [padding]
      refine Or.inr (Or.inr (Or.inl ?_))
      rw [hay]
      linarith

theorem dedup_ids_nodup (l : List Sprite) (hid : (l.map Sprite.id).Nodup) :
    ((dedupSprites l).1.map Sprite.id).Nodup := by
  have hkept : (dedupSprites l).1.Nodup := (dedup_hashes_nodup l).of_map hashOf
  refine hkept.map_on ?_
  intro a ha b hb hab
  exact List.inj_on_of_nodup_map hid (dedup_mem_kept l a ha) (dedup_mem_kept l b hb) hab

theorem next_power_of_2_pos (n : Int) : 0 < next_power_of_2 n := by
  obtain ⟨j, hj, _, _⟩ := next_power_of_2_spec n
  rw [hj]
  exact pow_pos (by norm_num) j

theorem cmd_pack_invariant (l : List Sprite) (hid : (l.map Sprite.id).Nodup)
    (hdim : ∀ s ∈ l, 0 ≤ s.width ∧ s.width ≤ max_width ∧ 0 ≤ s.height) :
    atlasInvariant (cmd_pack l) := by
  have hperm : (List.insertionSort heightDescLE (dedupSprites l).1).Perm (dedupSprites l).1 :=
    List.perm_insertionSort _ _
  have hdimS : ∀ s ∈ List.insertionSort heightDescLE (dedupSprites l).1,
      0 ≤ s.width ∧ s.width ≤ max_width ∧ 0 ≤ s.height :=
    fun s hs => hdim s (dedup_mem_kept l s (hperm.mem_iff.1 hs))
  have hgood := packRows_good _ hdimS
  have hflat := packRows_flatten (List.insertionSort heightDescLE (dedupSprites l).1)
  have hw : ∀ r ∈ packRows (List.insertionSort heightDescLE (dedupSprites l).1),
      ∀ s ∈ r.sprites, 0 ≤ s.width := by
    intro r hr s hs
    have hmem : s ∈ List.insertionSort heightDescLE (dedupSprites l).1 := by
      rw [← hflat]
      exact List.mem_flatten.2 ⟨r.sprites, List.mem_map_of_mem Row.sprites hr, hs⟩
    exact (hdimS s hmem).1
  have hkeys : (((rowsRegions (packRows (List.insertionSort heightDescLE (dedupSprites l).1)) 0)).map
      Prod.fst).Nodup := by
    rw [rowsRegions_keys, hflat]
    exact (dedup_ids_nodup l hid).perm ((hperm.map Sprite.id).symm)
  have hreg : (cmd_pack l).regions =
      rowsRegions (packRows (List.insertionSort heightDescLE (dedupSprites l).1)) 0 := by
    rw [cmd_pack_regions_eq]
    rw [dictFold_eq_append _ [] (by simpa using hkeys)]
    simp
  constructor
  · rw [hreg]
    exact (List.pairwise_map.1 hkeys).and (rowsRegions_disjoint hgood hw)
  · intro e he
    rw [hreg] at he
    obtain ⟨hx, hy, hright, hbot⟩ := rowsRegions_inBounds hgood hw e he
    have hwidth : ((cmd_pack l).atlas.width : Int) = max_width := by
      rw [cmd_pack_atlas_width]
      norm_num [max_width]
    have hnn : (0 : Int) ≤ next_power_of_2 (packStack l) := (next_power_of_2_pos _).le
    have hheight : ((cmd_pack l).atlas.height : Int) = next_power_of_2 (packStack l) := by
      rw [cmd_pack_atlas_height]
      exact Int.toNat_of_nonneg hnn
    obtain ⟨j, hj, hle, _⟩ := next_power_of_2_spec (packStack l)
    have hstack : packStack l ≤ next_power_of_2 (packStack l) := by
      rw [hj]
      exact hle
    refine ⟨hx, le_trans (le_refl 0) hy, by rw [hwidth]; exact hright, ?_⟩
    rw [hheight]
    have : e.2.y + e.2.h ≤ packStack l := by
      simpa [packStack] using hbot
    linarith

/-! ## Claims C1, C2, C4, C5, C6 -/

set_option maxRecDepth 40000

/-- C1 (corrected, amended): for every sprite sequence given to the packer
whose ids are distinct (as directory file stems are) and whose sprites
have nonnegative dimensions and width at most `max_width = 512`, the
produced manifest satisfies the `PackedAtlas` invariant: keys are
pairwise distinct, placement rectangles of distinct ids do not intersect,
and every rectangle is fully contained within the atlas image bounds. -/
theorem C1_packed_atlas_invariant (l : List Sprite) (hid : (l.map Sprite.id).Nodup)
    (hdim : ∀ s ∈ l, 0 ≤ s.width ∧ s.width ≤ max_width ∧ 0 ≤ s.height) :
    atlasInvariant (cmd_pack l) :=
  cmd_pack_invariant l hid hdim

/-- C1 (counterexample to the claim as stated): a single 513-pixel-wide
sprite is packed into a manifest whose rectangle is not contained in the
512-pixel-wide atlas image, so the unrestricted claim is false. -/
theorem C1_counterexample : ¬ atlasInvariant (cmd_pack [spriteW513]) := by decide

/-- Witness: `C1_packed_atlas_invariant` applied to a concrete
two-sprite input. -/
theorem C1_witness :
    ((([solidSprite "gem" 2 3, solidSprite "rock" 2 2].map Sprite.id).Nodup ∧
      ∀ s ∈ [solidSprite "gem" 2 3, solidSprite "rock" 2 2],
        0 ≤ s.width ∧ s.width ≤ max_width ∧ 0 ≤ s.height) ∧
     atlasInvariant (cmd_pack [solidSprite "gem" 2 3, solidSprite "rock" 2 2])) :=
  ⟨⟨by decide, by decide⟩,
    C1_packed_atlas_invariant _ (by decide) (by decide)⟩

/-- C2 (the claim is right, the code is wrong): packing an individual
600-pixel-wide sprite does not fail — `cmd_pack` has no oversize check.
The sprite is placed in its own row at `x = 0`, the manifest records a
600-wide rectangle, and that rectangle escapes the 512-pixel atlas
bounds (PIL's `paste` silently crops the stamped pixels). -/
theorem C2_oversize_packed_without_error :
    (cmd_pack [spriteW600]).regions = [("big_sheet", ⟨0, 0, 600, 1⟩)] ∧
    (cmd_pack [spriteW600]).atlas.width = 512 ∧
    ¬ rectInBounds ((cmd_pack [spriteW600]).atlas.width : Int)
      ((cmd_pack [spriteW600]).atlas.height : Int) ⟨0, 0, 600, 1⟩ := by
  refine ⟨by decide, by decide, ?_⟩
  intro h
  have h2 := h.2.2.1
  revert h2
  decide

/-- C4 (counterexample to the claim as stated): two externally-named
sprites `"alpha"` and `"beta"` with identical pixel content: the
duplicate resolver keeps the second occurrence `"beta"` (not the first),
and the collision is not reported — the duplicates list is empty. -/
theorem C4_counterexample :
    (dedupSprites [dupAlpha, dupBeta]).1.map Sprite.id = ["beta"] ∧
    (dedupSprites [dupAlpha, dupBeta]).2 = [] := by decide

/-- C4 (corrected, amended): when externally-named sprites collide on
pixel content, the LAST occurrence in input processing order survives —
a named sprite is kept exactly when it is the last named sprite of its
content hash — and such collisions are never reported: every entry of
the duplicates list names an auto-generated sprite. -/
theorem C4_last_named_wins_unlogged (l : List Sprite) :
    (∀ e ∈ (dedupSprites l).2, isAuto e.1 = true) ∧
    ∀ n ∈ l, isAuto n.id = false →
      (n ∈ (dedupSprites l).1 ↔ (l.filter (namedWith (hashOf n))).getLast? = some n) := by
  refine ⟨autoPass_dups_auto l _, ?_⟩
  intro n hn hAn
  exact dedup_named_iff l hn hAn

/-- Witness: `C4_last_named_wins_unlogged` applied to the concrete
colliding pair, showing `"beta"` (the last occurrence) is kept. -/
theorem C4_witness :
    dupBeta ∈ [dupAlpha, dupBeta] ∧ isAuto dupBeta.id = false ∧
    dupBeta ∈ (dedupSprites [dupAlpha, dupBeta]).1 := by
  refine ⟨by simp, by decide, ?_⟩
  refine ((C4_last_named_wins_unlogged [dupAlpha, dupBeta]).2 dupBeta (by simp) (by decide)).2 ?_
  rfl

/-- C5 (confirmed): the duplicate resolver's output has exactly one
sprite per distinct pixel-content hash (its hashes are duplicate-free and
every input hash is represented), and when a named sprite and an
auto-generated-id sprite have identical pixel content, the auto-generated
one is dropped while the named one (when it is the unique named sprite of
that content) is kept. -/
theorem C5_dedup_unique_named_preferred (l : List Sprite) :
    ((dedupSprites l).1.map hashOf).Nodup ∧
    (∀ s ∈ l, ∃ t ∈ (dedupSprites l).1, hashOf t = hashOf s) ∧
    (∀ n u : Sprite, n ∈ l → u ∈ l → isAuto n.id = false → isAuto u.id = true →
      hashOf n = hashOf u →
      u ∉ (dedupSprites l).1 ∧
        ((∀ m ∈ l, isAuto m.id = false → hashOf m = hashOf n → m = n) →
          n ∈ (dedupSprites l).1)) := by
  refine ⟨dedup_hashes_nodup l, dedup_represents l, ?_⟩
  intro n u hn hu hAn hAu hh
  exact ⟨dedup_auto_dropped l hn hu hAn hAu hh, fun huniq => dedup_named_kept l hn hAn huniq⟩

/-- Witness: `C5_dedup_unique_named_preferred` applied to the spec's
example: `"sword_world"` is kept and the pixel-identical `"sprite_007"`
is dropped. -/
theorem C5_witness :
    auto007 ∉ (dedupSprites [swordWorld, auto007]).1 ∧
    swordWorld ∈ (dedupSprites [swordWorld, auto007]).1 := by
  have h := (C5_dedup_unique_named_preferred [swordWorld, auto007]).2.2 swordWorld auto007
    (by simp) (by simp) (by decide) (by decide) (by decide)
  refine ⟨h.1, h.2 ?_⟩
  intro m hm hAm _
  rcases List.mem_cons.1 hm with h2 | h2
  · exact h2
  · obtain rfl : m = auto007 := List.mem_singleton.1 h2
    exact absurd hAm (by decide)

/-- C6 (confirmed): for every non-empty sprite sequence the packed atlas
has width exactly `max_width = 512` and height `next_power_of_2` of the
computed row-stack height — a power of two that is at least the row-stack
height, and minimal among such powers of two. -/
theorem C6_atlas_dimensions (l : List Sprite) (_ : l ≠ []) :
    (cmd_pack l).atlas.width = 512 ∧
    ((cmd_pack l).atlas.height : Int) = next_power_of_2 (packStack l) ∧
    ∃ j : Nat, ((cmd_pack l).atlas.height : Int) = 2 ^ j ∧
      packStack l ≤ 2 ^ j ∧ ∀ m : Nat, packStack l ≤ 2 ^ m → (2 : Int) ^ j ≤ 2 ^ m := by
  have hheight : ((cmd_pack l).atlas.height : Int) = next_power_of_2 (packStack l) := by
    rw [cmd_pack_atlas_height]
    exact Int.toNat_of_nonneg (next_power_of_2_pos _).le
  refine ⟨by rw [cmd_pack_atlas_width]; rfl, hheight, ?_⟩
  obtain ⟨j, hj, hle, hmin⟩ := next_power_of_2_spec (packStack l)
  exact ⟨j, by rw [hheight, hj], hle, hmin⟩

/-- Witness: `C6_atlas_dimensions` applied to a concrete one-sprite
input. -/
theorem C6_witness :
    ([solidSprite "gem" 2 2] ≠ []) ∧
    ((cmd_pack [solidSprite "gem" 2 2]).atlas.width = 512 ∧
      ((cmd_pack [solidSprite "gem" 2 2]).atlas.height : Int) =
        next_power_of_2 (packStack [solidSprite "gem" 2 2]) ∧
      ∃ j : Nat, ((cmd_pack [solidSprite "gem" 2 2]).atlas.height : Int) = 2 ^ j ∧
        packStack [solidSprite "gem" 2 2] ≤ 2 ^ j ∧
        ∀ m : Nat, packStack [solidSprite "gem" 2 2] ≤ 2 ^ m → (2 : Int) ^ j ≤ 2 ^ m) :=
  ⟨List.cons_ne_nil _ _, C6_atlas_dimensions _ (List.cons_ne_nil _ _)⟩

/-! ## Observational congruence of the pipeline (claim C9) -/

theorem list_flatMap_congr {α β : Type _} {l : List α} {f g : α → List β}
    (h : ∀ x ∈ l, f x = g x) : l.flatMap f = l.flatMap g := by
  induction l with
  | nil => rfl
  | cons a t ih =>
    simp only [List.flatMap_cons]
    rw [h a (by simp), ih (fun x hx => h x (by simp [hx]))]

theorem tobytes_congr {a b : PImage} (h : pixEqWithin a b) : tobytes a = tobytes b := by
  unfold tobytes
  rw [← h.1, ← h.2.1]
  refine list_flatMap_congr ?_
  intro y hy
  refine List.map_congr_left ?_
  intro x hx
  exact h.2.2 x y (List.mem_range.1 hx) (List.mem_range.1 hy)

theorem hashOf_congr {s t : Sprite} (h : spriteObsEq s t) : hashOf s = hashOf t :=
  tobytes_congr h.2.2.2

theorem isAuto_congr {s t : Sprite} (h : spriteObsEq s t) : isAuto s.id = isAuto t.id := by
  rw [h.1]

/-- Pointwise relatedness of two runs' `hash_to_sprite` maps. -/
def mapRel (m₁ m₂ : List (List RGBA × Sprite)) : Prop :=
  List.Forall₂ (fun e f => e.1 = f.1 ∧ spriteObsEq e.2 f.2) m₁ m₂

theorem mapRel_dictInsert {m₁ m₂ : List (List RGBA × Sprite)} (h : mapRel m₁ m₂)
    {k : List RGBA} {v w : Sprite} (hv : spriteObsEq v w) :
    mapRel (dictInsert k v m₁) (dictInsert k w m₂) := by
  induction h with
  | nil => exact List.Forall₂.cons ⟨rfl, hv⟩ List.Forall₂.nil
  | @cons e f t₁ t₂ he ht ih =>
    obtain ⟨k1, v1⟩ := e
    obtain ⟨k2, v2⟩ := f
    obtain ⟨hk12, hv12⟩ := he
    simp only at hk12
    subst hk12
    by_cases hk : k = k1
    · subst hk
      simp only [dictInsert, if_pos rfl]
      exact List.Forall₂.cons ⟨rfl, hv⟩ ht
    · simp only [dictInsert, if_neg hk]
      exact List.Forall₂.cons ⟨rfl, hv12⟩ ih

theorem mapRel_lookup {m₁ m₂ : List (List RGBA × Sprite)} (h : mapRel m₁ m₂)
    (k : List RGBA) :
    (dictLookup k m₁ = none ∧ dictLookup k m₂ = none) ∨
    ∃ v w, dictLookup k m₁ = some v ∧ dictLookup k m₂ = some w ∧ spriteObsEq v w := by
  induction h with
  | nil => exact Or.inl ⟨rfl, rfl⟩
  | @cons e f t₁ t₂ he ht ih =>
    obtain ⟨k1, v1⟩ := e
    obtain ⟨k2, v2⟩ := f
    obtain ⟨hk12, hv12⟩ := he
    simp only at hk12
    subst hk12
    by_cases hk : k = k1
    · subst hk
      exact Or.inr ⟨v1, v2, by simp [dictLookup], by simp [dictLookup], hv12⟩
    · simp only [dictLookup, if_neg hk]
      exact ih

theorem mapRel_values {m₁ m₂ : List (List RGBA × Sprite)} (h : mapRel m₁ m₂) :
    List.Forall₂ spriteObsEq (valuesOf m₁) (valuesOf m₂) := by
  induction h with
  | nil => exact List.Forall₂.nil
  | @cons e f t₁ t₂ he ht ih => exact List.Forall₂.cons he.2 ih

theorem namedFold_rel : ∀ {l₁ l₂ : List Sprite}, List.Forall₂ spriteObsEq l₁ l₂ →
    ∀ {m₁ m₂ : List (List RGBA × Sprite)}, mapRel m₁ m₂ →
      mapRel (l₁.foldl namedStep m₁) (l₂.foldl namedStep m₂) := by
  intro l₁ l₂ h
  induction h with
  | nil => intro m₁ m₂ hm; exact hm
  | @cons s t t₁ t₂ hst ht ih =>
    intro m₁ m₂ hm
    simp only [List.foldl_cons]
    refine ih ?_
    unfold namedStep
    rw [isAuto_congr hst]
    cases isAuto t.id with
    | true => simpa using hm
    | false =>
      rw [if_neg Bool.false_ne_true, if_neg Bool.false_ne_true, hashOf_congr hst]
      exact mapRel_dictInsert hm hst

theorem autoFold_rel : ∀ {l₁ l₂ : List Sprite}, List.Forall₂ spriteObsEq l₁ l₂ →
    ∀ {acc₁ acc₂ : List (List RGBA × Sprite) × List (String × String)},
      mapRel acc₁.1 acc₂.1 → acc₁.2 = acc₂.2 →
      mapRel (l₁.foldl autoStep acc₁).1 (l₂.foldl autoStep acc₂).1 ∧
        (l₁.foldl autoStep acc₁).2 = (l₂.foldl autoStep acc₂).2 := by
  intro l₁ l₂ h
  induction h with
  | nil => intro acc₁ acc₂ hm hd; exact ⟨hm, hd⟩
  | @cons s t t₁ t₂ hst ht ih =>
    intro acc₁ acc₂ hm hd
    simp only [List.foldl_cons]
    have hkey : hashOf t = hashOf s := (hashOf_congr hst).symm
    have hstep : mapRel (autoStep acc₁ s).1 (autoStep acc₂ t).1 ∧
        (autoStep acc₁ s).2 = (autoStep acc₂ t).2 := by
      cases hA : isAuto s.id with
      | false =>
        have hAt : isAuto t.id = false := by rw [← isAuto_congr hst]; exact hA
        rw [autoStep_eq_named hA, autoStep_eq_named hAt]
        exact ⟨hm, hd⟩
      | true =>
        have hAt : isAuto t.id = true := by rw [← isAuto_congr hst]; exact hA
        rcases mapRel_lookup hm (hashOf s) with ⟨h1, h2⟩ | ⟨v, w, h1, h2, hvw⟩
        · rw [autoStep_eq_insert hA h1, autoStep_eq_insert hAt (by rw [hkey]; exact h2)]
          refine ⟨?_, hd⟩
          rw [hkey]
          exact mapRel_dictInsert hm hst
        · rw [autoStep_eq_dup hA h1, autoStep_eq_dup hAt (by rw [hkey]; exact h2)]
          refine ⟨hm, ?_⟩
          rw [hd, hst.1, hvw.1]
    exact ih hstep.1 hstep.2

theorem dedup_rel {l₁ l₂ : List Sprite} (h : List.Forall₂ spriteObsEq l₁ l₂) :
    List.Forall₂ spriteObsEq (dedupSprites l₁).1 (dedupSprites l₂).1 ∧
      (dedupSprites l₁).2 = (dedupSprites l₂).2 := by
  have hnamed : mapRel (namedPass l₁) (namedPass l₂) :=
    namedFold_rel h (by exact List.Forall₂.nil)
  have hauto := @autoFold_rel _ _ h (namedPass l₁, []) (namedPass l₂, []) hnamed rfl
  exact ⟨mapRel_values hauto.1, hauto.2⟩

theorem orderedInsert_rel {s t : Sprite} (hst : spriteObsEq s t) :
    ∀ {l₁ l₂ : List Sprite}, List.Forall₂ spriteObsEq l₁ l₂ →
      List.Forall₂ spriteObsEq (List.orderedInsert heightDescLE s l₁)
        (List.orderedInsert heightDescLE t l₂) := by
  intro l₁ l₂ h
  induction h with
  | nil => exact List.Forall₂.cons hst List.Forall₂.nil
  | @cons a b t₁ t₂ hab ht ih =>
    have hcond : heightDescLE s a ↔ heightDescLE t b := by
      unfold heightDescLE
      rw [hab.2.2.1, hst.2.2.1]
    by_cases hr : heightDescLE s a
    · rw [List.orderedInsert, List.orderedInsert, if_pos hr, if_pos (hcond.1 hr)]
      exact List.Forall₂.cons hst (List.Forall₂.cons hab ht)
    · rw [List.orderedInsert, List.orderedInsert, if_neg hr, if_neg (fun h2 => hr (hcond.2 h2))]
      exact List.Forall₂.cons hab ih

theorem insertionSort_rel : ∀ {l₁ l₂ : List Sprite}, List.Forall₂ spriteObsEq l₁ l₂ →
    List.Forall₂ spriteObsEq (List.insertionSort heightDescLE l₁)
      (List.insertionSort heightDescLE l₂) := by
  intro l₁ l₂ h
  induction h with
  | nil => exact List.Forall₂.nil
  | @cons a b t₁ t₂ hab ht ih => exact orderedInsert_rel hab ih

/-- Pointwise relatedness of two runs' packing rows. -/
def rowRel (r₁ r₂ : Row) : Prop :=
  List.Forall₂ spriteObsEq r₁.sprites r₂.sprites ∧ r₁.width = r₂.width ∧ r₁.height = r₂.height

theorem addToRow_rel {r₁ r₂ : Row} (hr : rowRel r₁ r₂) {s t : Sprite}
    (hst : spriteObsEq s t) : rowRel (addToRow r₁ s) (addToRow r₂ t) := by
  refine ⟨?_, ?_, ?_⟩
  · simp only [addToRow]
    exact List.rel_append hr.1 (List.Forall₂.cons hst List.Forall₂.nil)
  · simp only [addToRow]
    rw [hr.2.1, hst.2.1]
  · simp only [addToRow]
    rw [hr.2.2, hst.2.2.1]

theorem rowFold_rel : ∀ {l₁ l₂ : List Sprite}, List.Forall₂ spriteObsEq l₁ l₂ →
    ∀ {acc₁ acc₂ : List Row × Row}, List.Forall₂ rowRel acc₁.1 acc₂.1 → rowRel acc₁.2 acc₂.2 →
      List.Forall₂ rowRel (l₁.foldl rowStep acc₁).1 (l₂.foldl rowStep acc₂).1 ∧
        rowRel (l₁.foldl rowStep acc₁).2 (l₂.foldl rowStep acc₂).2 := by
  intro l₁ l₂ h
  induction h with
  | nil => intro acc₁ acc₂ h1 h2; exact ⟨h1, h2⟩
  | @cons s t t₁ t₂ hst ht ih =>
    intro acc₁ acc₂ h1 h2
    obtain ⟨rows₁, cur₁⟩ := acc₁
    obtain ⟨rows₂, cur₂⟩ := acc₂
    simp only [List.foldl_cons]
    have hwidth : cur₁.width + s.width + padding = cur₂.width + t.width + padding := by
      rw [h2.2.1, hst.2.1]
    have hfresh : rowRel (addToRow ⟨[], 0, 0⟩ s) (addToRow ⟨[], 0, 0⟩ t) :=
      addToRow_rel ⟨List.Forall₂.nil, rfl, rfl⟩ hst
    by_cases hov : cur₁.width + s.width + padding > max_width
    · have hov₂ : cur₂.width + t.width + padding > max_width := by rw [← hwidth]; exact hov
      by_cases hemp : cur₁.sprites = []
      · have hemp₂ : cur₂.sprites = [] := by
          have h3 := h2.1
          rw [hemp] at h3
          exact List.forall₂_nil_left_iff.1 h3
        rw [rowStep_over_empty hov hemp, rowStep_over_empty hov₂ hemp₂]
        exact ih h1 hfresh
      · have hemp₂ : ¬ cur₂.sprites = [] := by
          intro h4
          have h3 := h2.1
          rw [h4] at h3
          exact hemp (List.forall₂_nil_right_iff.1 h3)
        rw [rowStep_over_ne hov hemp, rowStep_over_ne hov₂ hemp₂]
        refine ih ?_ hfresh
        exact List.rel_append h1 (List.Forall₂.cons h2 List.Forall₂.nil)
    · have hov₂ : ¬ cur₂.width + t.width + padding > max_width := by rw [← hwidth]; exact hov
      rw [rowStep_fit hov, rowStep_fit hov₂]
      exact ih h1 (addToRow_rel h2 hst)

theorem packRows_rel {l₁ l₂ : List Sprite} (h : List.Forall₂ spriteObsEq l₁ l₂) :
    List.Forall₂ rowRel (packRows l₁) (packRows l₂) := by
  have hfold := @rowFold_rel _ _ h ([], ⟨[], 0, 0⟩) ([], ⟨[], 0, 0⟩)
    List.Forall₂.nil ⟨List.Forall₂.nil, rfl, rfl⟩
  unfold packRows
  by_cases hemp : (l₁.foldl rowStep ([], ⟨[], 0, 0⟩)).2.sprites.isEmpty
  · have hemp₂ : (l₂.foldl rowStep ([], ⟨[], 0, 0⟩)).2.sprites.isEmpty := by
      have h3 := hfold.2.1
      rw [List.isEmpty_iff.1 hemp] at h3
      exact List.isEmpty_iff.2 (List.forall₂_nil_left_iff.1 h3)
    rw [if_pos hemp, if_pos hemp₂]
    exact hfold.1
  · have hemp₂ : ¬ (l₂.foldl rowStep ([], ⟨[], 0, 0⟩)).2.sprites.isEmpty := by
      intro h4
      have h3 := hfold.2.1
      rw [List.isEmpty_iff.1 h4] at h3
      exact hemp (List.isEmpty_iff.2 (List.forall₂_nil_right_iff.1 h3))
    rw [if_neg hemp, if_neg hemp₂]
    exact List.rel_append hfold.1 (List.Forall₂.cons hfold.2 List.Forall₂.nil)

theorem rowRegions_congr : ∀ {l₁ l₂ : List Sprite}, List.Forall₂ spriteObsEq l₁ l₂ →
    ∀ (x y : Int), rowRegions l₁ x y = rowRegions l₂ x y := by
  intro l₁ l₂ h
  induction h with
  | nil => intro x y; rfl
  | @cons s t t₁ t₂ hst ht ih =>
    intro x y
    simp only [rowRegions]
    rw [hst.1, hst.2.1, hst.2.2.1, ih (x + t.width + padding) y]

theorem rowsRegions_congr : ∀ {rows₁ rows₂ : List Row}, List.Forall₂ rowRel rows₁ rows₂ →
    ∀ (y : Int), rowsRegions rows₁ y = rowsRegions rows₂ y := by
  intro rows₁ rows₂ h
  induction h with
  | nil => intro y; rfl
  | @cons r₁ r₂ t₁ t₂ hr ht ih =>
    intro y
    simp only [rowsRegions]
    rw [rowRegions_congr hr.1, hr.2.2, ih]

theorem rowStackHeight_congr : ∀ {rows₁ rows₂ : List Row}, List.Forall₂ rowRel rows₁ rows₂ →
    rowStackHeight rows₁ = rowStackHeight rows₂ := by
  intro rows₁ rows₂ h
  induction h with
  | nil => rfl
  | @cons r₁ r₂ t₁ t₂ hr ht ih =>
    rw [rowStackHeight_cons, rowStackHeight_cons, hr.2.2, ih]

theorem paste_pixEq {d₁ d₂ s₁ s₂ : PImage} {x0 y0 : Int} (hd : pixEqWithin d₁ d₂)
    (hs : pixEqWithin s₁ s₂) : pixEqWithin (paste d₁ s₁ x0 y0) (paste d₂ s₂ x0 y0) := by
  refine ⟨hd.1, hd.2.1, ?_⟩
  intro x y hx hy
  simp only [paste]
  by_cases hc : x0 ≤ (x : Int) ∧ (x : Int) < x0 + (s₁.width : Int) ∧
      y0 ≤ (y : Int) ∧ (y : Int) < y0 + (s₁.height : Int)
  · have hc₂ : x0 ≤ (x : Int) ∧ (x : Int) < x0 + (s₂.width : Int) ∧
        y0 ≤ (y : Int) ∧ (y : Int) < y0 + (s₂.height : Int) := by
      rw [← hs.1, ← hs.2.1]
      exact hc
    rw [if_pos hc, if_pos hc₂]
    have hxb : ((x : Int) - x0).toNat < s₁.width := by
      have h1 : (x : Int) - x0 < (s₁.width : Int) := by linarith [hc.2.1]
      omega
    have hyb : ((y : Int) - y0).toNat < s₁.height := by
      have h1 : (y : Int) - y0 < (s₁.height : Int) := by linarith [hc.2.2.2]
      omega
    exact hs.2.2 _ _ hxb hyb
  · have hc₂ : ¬ (x0 ≤ (x : Int) ∧ (x : Int) < x0 + (s₂.width : Int) ∧
        y0 ≤ (y : Int) ∧ (y : Int) < y0 + (s₂.height : Int)) := by
      rw [← hs.1, ← hs.2.1]
      exact hc
    rw [if_neg hc, if_neg hc₂]
    exact hd.2.2 x y hx hy

theorem placeFold_inner_pix (y : Int) : ∀ {sprs₁ sprs₂ : List Sprite},
    List.Forall₂ spriteObsEq sprs₁ sprs₂ →
    ∀ {img₁ img₂ : PImage} (rs₁ rs₂ : List (String × Region)) (x : Int),
      pixEqWithin img₁ img₂ →
      pixEqWithin (sprs₁.foldl (placeSpriteStep y) (img₁, rs₁, x)).1
        (sprs₂.foldl (placeSpriteStep y) (img₂, rs₂, x)).1 := by
  intro sprs₁ sprs₂ h
  induction h with
  | nil => intro img₁ img₂ rs₁ rs₂ x himg; exact himg
  | @cons s t t₁ t₂ hst ht ih =>
    intro img₁ img₂ rs₁ rs₂ x himg
    simp only [List.foldl_cons]
    have hstep₁ : placeSpriteStep y (img₁, rs₁, x) s =
        (paste img₁ s.image x y, dictInsert s.id ⟨x, y, s.width, s.height⟩ rs₁,
          x + s.width + padding) := rfl
    have hstep₂ : placeSpriteStep y (img₂, rs₂, x) t =
        (paste img₂ t.image x y, dictInsert t.id ⟨x, y, t.width, t.height⟩ rs₂,
          x + t.width + padding) := rfl
    rw [hstep₁, hstep₂, hst.2.1]
    exact ih _ _ _ (paste_pixEq himg hst.2.2.2)

theorem placeFold_outer_pix : ∀ {rows₁ rows₂ : List Row},
    List.Forall₂ rowRel rows₁ rows₂ →
    ∀ {img₁ img₂ : PImage} (rs₁ rs₂ : List (String × Region)) (y : Int),
      pixEqWithin img₁ img₂ →
      pixEqWithin (rows₁.foldl placeRowStep (img₁, rs₁, y)).1
        (rows₂.foldl placeRowStep (img₂, rs₂, y)).1 := by
  intro rows₁ rows₂ h
  induction h with
  | nil => intro img₁ img₂ rs₁ rs₂ y himg; exact himg
  | @cons r₁ r₂ t₁ t₂ hr ht ih =>
    intro img₁ img₂ rs₁ rs₂ y himg
    simp only [List.foldl_cons]
    have hstep₁ : placeRowStep (img₁, rs₁, y) r₁ =
        ((r₁.sprites.foldl (placeSpriteStep y) (img₁, rs₁, 0)).1,
         (r₁.sprites.foldl (placeSpriteStep y) (img₁, rs₁, 0)).2.1,
         y + r₁.height + padding) := rfl
    have hstep₂ : placeRowStep (img₂, rs₂, y) r₂ =
        ((r₂.sprites.foldl (placeSpriteStep y) (img₂, rs₂, 0)).1,
         (r₂.sprites.foldl (placeSpriteStep y) (img₂, rs₂, 0)).2.1,
         y + r₂.height + padding) := rfl
    rw [hstep₁, hstep₂, hr.2.2]
    exact ih _ _ _ (placeFold_inner_pix y hr.1 rs₁ rs₂ 0 himg)

theorem cmd_pack_obs_congr {l₁ l₂ : List Sprite} (h : List.Forall₂ spriteObsEq l₁ l₂) :
    (cmd_pack l₁).regions = (cmd_pack l₂).regions ∧
    (cmd_pack l₁).duplicates = (cmd_pack l₂).duplicates ∧
    (cmd_pack l₁).atlas.width = (cmd_pack l₂).atlas.width ∧
    (cmd_pack l₁).atlas.height = (cmd_pack l₂).atlas.height ∧
    tobytes (cmd_pack l₁).atlas = tobytes (cmd_pack l₂).atlas := by
  have hdd := dedup_rel h
  have hsorted := insertionSort_rel hdd.1
  have hrows := packRows_rel hsorted
  have hstack : packStack l₁ = packStack l₂ := rowStackHeight_congr hrows
  have hH : (next_power_of_2 (packStack l₁)).toNat = (next_power_of_2 (packStack l₂)).toNat := by
    rw [hstack]
  have hpix : pixEqWithin (cmd_pack l₁).atlas (cmd_pack l₂).atlas := by
    unfold cmd_pack
    refine placeFold_outer_pix hrows _ _ _ ?_
    have hb : blankImage max_width.toNat
        (next_power_of_2 (rowStackHeight (packRows
          (List.insertionSort heightDescLE (dedupSprites l₁).1)))).toNat =
        blankImage max_width.toNat
        (next_power_of_2 (rowStackHeight (packRows
          (List.insertionSort heightDescLE (dedupSprites l₂).1)))).toNat := by
      have : rowStackHeight (packRows (List.insertionSort heightDescLE (dedupSprites l₁).1)) =
          rowStackHeight (packRows (List.insertionSort heightDescLE (dedupSprites l₂).1)) :=
        rowStackHeight_congr hrows
      rw [this]
    rw [hb]
    exact ⟨rfl, rfl, fun _ _ _ _ => rfl⟩
  refine ⟨?_, hdd.2, ?_, ?_, tobytes_congr hpix⟩
  · rw [cmd_pack_regions_eq, cmd_pack_regions_eq, rowsRegions_congr hrows]
  · rw [cmd_pack_atlas_width, cmd_pack_atlas_width]
  · rw [cmd_pack_atlas_height, cmd_pack_atlas_height, hstack]

/-- C9 (confirmed): the packing pipeline (dedup, sort, row packing, atlas
stamping, manifest construction) is deterministic — two runs on
observationally identical sprite inputs (same ids, same dimensions, same
pixel data, however the pixel data is represented in memory) produce an
identical id→rectangle manifest, an identical duplicates report, and a
byte-identical packed atlas image. -/
theorem C9_pipeline_deterministic (l₁ l₂ : List Sprite)
    (h : List.Forall₂ spriteObsEq l₁ l₂) :
    (cmd_pack l₁).regions = (cmd_pack l₂).regions ∧
    (cmd_pack l₁).duplicates = (cmd_pack l₂).duplicates ∧
    (cmd_pack l₁).atlas.width = (cmd_pack l₂).atlas.width ∧
    (cmd_pack l₁).atlas.height = (cmd_pack l₂).atlas.height ∧
    tobytes (cmd_pack l₁).atlas = tobytes (cmd_pack l₂).atlas :=
  cmd_pack_obs_congr h

/-- Witness: `C9_pipeline_deterministic` applied to one sprite loaded
twice through two different (but pointwise-equal) pixel functions. -/
theorem C9_witness :
    List.Forall₂ spriteObsEq [obsRunA] [obsRunB] ∧
    ((cmd_pack [obsRunA]).regions = (cmd_pack [obsRunB]).regions ∧
     (cmd_pack [obsRunA]).duplicates = (cmd_pack [obsRunB]).duplicates ∧
     (cmd_pack [obsRunA]).atlas.width = (cmd_pack [obsRunB]).atlas.width ∧
     (cmd_pack [obsRunA]).atlas.height = (cmd_pack [obsRunB]).atlas.height ∧
     tobytes (cmd_pack [obsRunA]).atlas = tobytes (cmd_pack [obsRunB]).atlas) := by
  have hobs : List.Forall₂ spriteObsEq [obsRunA] [obsRunB] := by
    refine List.Forall₂.cons ⟨rfl, rfl, rfl, rfl, rfl, ?_⟩ List.Forall₂.nil
    intro x y hx _
    obtain rfl : x = 0 := Nat.lt_one_iff.1 hx
    rfl
  exact ⟨hobs, C9_pipeline_deterministic [obsRunA] [obsRunB] hobs⟩

/-! ## The adjacency merger: claims C10 and C7 -/

theorem intRange_length (a b : Int) : (intRange a b).length = (b - a).toNat := by
  unfold intRange
  rw [List.length_map, List.length_range]

theorem filter_length_pos_int {α : Type _} {p : α → Bool} {l : List α}
    (h : 0 < (((l.filter p).length : Nat) : Int)) : 0 < ((l.length : Nat) : Int) := by
  have h1 : 0 < (l.filter p).length := by exact_mod_cast h
  have h2 := List.length_filter_le p l
  exact_mod_cast lt_of_lt_of_le h1 h2

theorem countH_edge_pos {atlas : PImage} {x1 x2 yS yE : Int}
    (h : 0 < countH atlas x1 x2 yS yE) : 0 < yE - yS := by
  unfold countH at h
  have h1 := filter_length_pos_int h
  rw [intRange_length] at h1
  omega

theorem countV_edge_pos {atlas : PImage} {y1 y2 xS xE : Int}
    (h : 0 < countV atlas y1 y2 xS xE) : 0 < xE - xS := by
  unfold countV at h
  have h1 := filter_length_pos_int h
  rw [intRange_length] at h1
  omega

theorem cspBlock1_some {atlas : PImage} {r1 r2 : Region} {p : Int × Int}
    (h : cspBlock1 atlas r1 r2 = some p) : 0 < p.1 ∧ 0 < p.2 := by
  unfold cspBlock1 at h
  by_cases hc : r1.x + r1.w = r2.x
  · rw [if_pos hc] at h
    by_cases hs : 0 < countH atlas (r1.x + r1.w - 1) r2.x (max r1.y r2.y)
        (min (r1.y + r1.h) (r2.y + r2.h))
    · rw [if_pos hs] at h
      obtain rfl := (Option.some.inj h).symm
      exact ⟨hs, countH_edge_pos hs⟩
    · rw [if_neg hs] at h
      cases h
  · rw [if_neg hc] at h
    cases h

theorem cspBlock2_some {atlas : PImage} {r1 r2 : Region} {p : Int × Int}
    (h : cspBlock2 atlas r1 r2 = some p) : 0 < p.1 ∧ 0 < p.2 := by
  unfold cspBlock2 at h
  by_cases hc : r2.x + r2.w = r1.x
  · rw [if_pos hc] at h
    by_cases hs : 0 < countH atlas r1.x (r2.x + r2.w - 1) (max r1.y r2.y)
        (min (r1.y + r1.h) (r2.y + r2.h))
    · rw [if_pos hs] at h
      obtain rfl := (Option.some.inj h).symm
      exact ⟨hs, countH_edge_pos hs⟩
    · rw [if_neg hs] at h
      cases h
  · rw [if_neg hc] at h
    cases h

theorem cspBlock3_some {atlas : PImage} {r1 r2 : Region} {p : Int × Int}
    (h : cspBlock3 atlas r1 r2 = some p) : 0 < p.1 ∧ 0 < p.2 := by
  unfold cspBlock3 at h
  by_cases hc : r1.y + r1.h = r2.y
  · rw [if_pos hc] at h
    by_cases hs : 0 < countV atlas (r1.y + r1.h - 1) r2.y (max r1.x r2.x)
        (min (r1.x + r1.w) (r2.x + r2.w))
    · rw [if_pos hs] at h
      obtain rfl := (Option.some.inj h).symm
      exact ⟨hs, countV_edge_pos hs⟩
    · rw [if_neg hs] at h
      cases h
  · rw [if_neg hc] at h
    cases h

theorem cspBlock4_some {atlas : PImage} {r1 r2 : Region} {p : Int × Int}
    (h : cspBlock4 atlas r1 r2 = some p) : 0 < p.1 ∧ 0 < p.2 := by
  unfold cspBlock4 at h
  by_cases hc : r2.y + r2.h = r1.y
  · rw [if_pos hc] at h
    by_cases hs : 0 < countV atlas r1.y (r2.y + r2.h - 1) (max r1.x r2.x)
        (min (r1.x + r1.w) (r2.x + r2.w))
    · rw [if_pos hs] at h
      obtain rfl := (Option.some.inj h).symm
      exact ⟨hs, countV_edge_pos hs⟩
    · rw [if_neg hs] at h
      cases h
  · rw [if_neg hc] at h
    cases h

theorem count_shared_pixels_cases (atlas : PImage) (r1 r2 : Region) :
    count_shared_pixels atlas r1 r2 = (0, 0) ∨
    (0 < (count_shared_pixels atlas r1 r2).1 ∧ 0 < (count_shared_pixels atlas r1 r2).2) := by
  unfold count_shared_pixels
  cases h1 : cspBlock1 atlas r1 r2 with
  | some p => exact Or.inr (by simpa [Option.orElse] using cspBlock1_some h1)
  | none =>
    cases h2 : cspBlock2 atlas r1 r2 with
    | some p => exact Or.inr (by simpa [Option.orElse] using cspBlock2_some h2)
    | none =>
      cases h3 : cspBlock3 atlas r1 r2 with
      | some p => exact Or.inr (by simpa [Option.orElse] using cspBlock3_some h3)
      | none =>
        cases h4 : cspBlock4 atlas r1 r2 with
        | some p => exact Or.inr (by simpa [Option.orElse] using cspBlock4_some h4)
        | none => exact Or.inl (by simp [Option.orElse])

/-- C10 (confirmed): the merge decision never divides by zero — a
positive shared count from `count_shared_pixels` comes with a positive
edge length, and `should_merge` returns `False` on a zero edge length
before the ratio `shared / edge_len` is ever formed. -/
theorem C10_no_division_by_zero (atlas : PImage) (r1 r2 : Region) :
    (0 < (count_shared_pixels atlas r1 r2).1 → 0 < (count_shared_pixels atlas r1 r2).2) ∧
    ((count_shared_pixels atlas r1 r2).2 = 0 → should_merge atlas r1 r2 = false) := by
  constructor
  · intro hs
    rcases count_shared_pixels_cases atlas r1 r2 with h | h
    · rw [h] at hs
      exact absurd hs (by norm_num)
    · exact h.2
  · intro he
    unfold should_merge
    by_cases hq : r1.x + r1.w < r2.x - 1 ∨ r2.x + r2.w < r1.x - 1 ∨
        r1.y + r1.h < r2.y - 1 ∨ r2.y + r2.h < r1.y - 1
    · rw [if_pos hq]
    · rw [if_neg hq]
      simp [he]

/-- Witness: `C10_no_division_by_zero` at two concrete inputs — an
adjacent opaque pair (positive shared count, positive edge) and a far
pair (zero edge, merge refused). -/
theorem C10_witness :
    (0 < (count_shared_pixels (solidImage 2 1) ⟨0, 0, 1, 1⟩ ⟨1, 0, 1, 1⟩).1 ∧
      0 < (count_shared_pixels (solidImage 2 1) ⟨0, 0, 1, 1⟩ ⟨1, 0, 1, 1⟩).2) ∧
    ((count_shared_pixels (solidImage 2 1) ⟨0, 0, 1, 1⟩ ⟨5, 5, 1, 1⟩).2 = 0 ∧
      should_merge (solidImage 2 1) ⟨0, 0, 1, 1⟩ ⟨5, 5, 1, 1⟩ = false) := by
  constructor
  · have h1 : 0 < (count_shared_pixels (solidImage 2 1) ⟨0, 0, 1, 1⟩ ⟨1, 0, 1, 1⟩).1 := by decide
    exact ⟨h1, (C10_no_division_by_zero (solidImage 2 1) ⟨0, 0, 1, 1⟩ ⟨1, 0, 1, 1⟩).1 h1⟩
  · have h2 : (count_shared_pixels (solidImage 2 1) ⟨0, 0, 1, 1⟩ ⟨5, 5, 1, 1⟩).2 = 0 := by decide
    exact ⟨h2, (C10_no_division_by_zero (solidImage 2 1) ⟨0, 0, 1, 1⟩ ⟨5, 5, 1, 1⟩).2 h2⟩

theorem unionPass_pair (atlas : PImage) (r1 r2 : Region) :
    unionPass atlas [r1, r2] =
      if should_merge atlas r1 r2 then ufUnion (Array.range 2) 0 1 else Array.range 2 := rfl

theorem merge_pair_not {atlas : PImage} {r1 r2 : Region}
    (h : should_merge atlas r1 r2 = false) :
    merge_adjacent_sprites [r1, r2] atlas = [r1, r2] := by
  have h1 : merge_adjacent_sprites [r1, r2] atlas =
      mergeGroups (buildGroups [r1, r2] (unionPass atlas [r1, r2])).1 := rfl
  rw [h1, unionPass_pair, h]
  rfl

theorem merge_pair_yes {atlas : PImage} {r1 r2 : Region}
    (h : should_merge atlas r1 r2 = true) :
    merge_adjacent_sprites [r1, r2] atlas =
      (if max_merged_size < (mergedBox r1 r2).w ∨ max_merged_size < (mergedBox r1 r2).h
       then [r1, r2] else [mergedBox r1 r2]) := by
  have h1 : merge_adjacent_sprites [r1, r2] atlas =
      mergeGroups (buildGroups [r1, r2] (unionPass atlas [r1, r2])).1 := rfl
  rw [h1, unionPass_pair, h]
  rfl

theorem quickcheck_false_of_adj {r1 r2 : Region}
    (hw1 : 1 ≤ r1.w) (hw2 : 1 ≤ r2.w) (hh1 : 1 ≤ r1.h) (hh2 : 1 ≤ r2.h)
    (hadj : ((r1.x + r1.w = r2.x ∨ r2.x + r2.w = r1.x) ∧
        max r1.y r2.y < min (r1.y + r1.h) (r2.y + r2.h)) ∨
      ((r1.y + r1.h = r2.y ∨ r2.y + r2.h = r1.y) ∧
        max r1.x r2.x < min (r1.x + r1.w) (r2.x + r2.w))) :
    ¬ (r1.x + r1.w < r2.x - 1 ∨ r2.x + r2.w < r1.x - 1 ∨
      r1.y + r1.h < r2.y - 1 ∨ r2.y + r2.h < r1.y - 1) := by
  have hy1 : r2.y ≤ max r1.y r2.y := le_max_right _ _
  have hy2 : r1.y ≤ max r1.y r2.y := le_max_left _ _
  have hy3 : min (r1.y + r1.h) (r2.y + r2.h) ≤ r1.y + r1.h := min_le_left _ _
  have hy4 : min (r1.y + r1.h) (r2.y + r2.h) ≤ r2.y + r2.h := min_le_right _ _
  have hx1 : r2.x ≤ max r1.x r2.x := le_max_right _ _
  have hx2 : r1.x ≤ max r1.x r2.x := le_max_left _ _
  have hx3 : min (r1.x + r1.w) (r2.x + r2.w) ≤ r1.x + r1.w := min_le_left _ _
  have hx4 : min (r1.x + r1.w) (r2.x + r2.w) ≤ r2.x + r2.w := min_le_right _ _
  omega

theorem should_merge_iff_ratio {atlas : PImage} {r1 r2 : Region}
    (hq : ¬ (r1.x + r1.w < r2.x - 1 ∨ r2.x + r2.w < r1.x - 1 ∨
      r1.y + r1.h < r2.y - 1 ∨ r2.y + r2.h < r1.y - 1)) :
    should_merge atlas r1 r2 = true ↔
      min_overlap_ratio ≤ ((count_shared_pixels atlas r1 r2).1 : ℚ) /
        ((count_shared_pixels atlas r1 r2).2 : ℚ) := by
  unfold should_merge
  rw [if_neg hq]
  show (if (count_shared_pixels atlas r1 r2).2 = 0 then false
      else decide (min_overlap_ratio ≤ ((count_shared_pixels atlas r1 r2).1 : ℚ) /
        ((count_shared_pixels atlas r1 r2).2 : ℚ))) = true ↔ _
  rcases count_shared_pixels_cases atlas r1 r2 with h | h
  · rw [h]
    norm_num [min_overlap_ratio]
  · have hne : (count_shared_pixels atlas r1 r2).2 ≠ 0 := ne_of_gt h.2
    rw [if_neg hne]
    exact decide_eq_true_iff

/-- C7 (confirmed): for every pair of exactly edge-adjacent region
fragments of positive size — `r1`/`r2` flush left-right in either order
with overlapping vertical extents, or flush top-bottom in either order
with overlapping horizontal extents, the four adjacency cases of
`count_shared_pixels` — the merger fuses them into one region, the
merged bounding box, exactly when the fraction `shared / edge_len` of
their shared boundary that is opaque on both sides is at least
`min_overlap_ratio = 0.5` and the merged box does not exceed
`max_merged_size = 96` in either dimension; otherwise the two fragments
are returned unchanged. -/
theorem C7_merge_pair_threshold (atlas : PImage) (r1 r2 : Region)
    (hw1 : 1 ≤ r1.w) (hw2 : 1 ≤ r2.w) (hh1 : 1 ≤ r1.h) (hh2 : 1 ≤ r2.h)
    (hadj : ((r1.x + r1.w = r2.x ∨ r2.x + r2.w = r1.x) ∧
        max r1.y r2.y < min (r1.y + r1.h) (r2.y + r2.h)) ∨
      ((r1.y + r1.h = r2.y ∨ r2.y + r2.h = r1.y) ∧
        max r1.x r2.x < min (r1.x + r1.w) (r2.x + r2.w))) :
    (merge_adjacent_sprites [r1, r2] atlas = [mergedBox r1 r2] ↔
      (min_overlap_ratio ≤ ((count_shared_pixels atlas r1 r2).1 : ℚ) /
          ((count_shared_pixels atlas r1 r2).2 : ℚ) ∧
        (mergedBox r1 r2).w ≤ max_merged_size ∧ (mergedBox r1 r2).h ≤ max_merged_size)) ∧
    (merge_adjacent_sprites [r1, r2] atlas ≠ [mergedBox r1 r2] →
      merge_adjacent_sprites [r1, r2] atlas = [r1, r2]) := by
  have hq := quickcheck_false_of_adj hw1 hw2 hh1 hh2 hadj
  have hlen : [r1, r2] ≠ [mergedBox r1 r2] := by
    intro hEq
    have := congrArg List.length hEq
    simp at this
  constructor
  · constructor
    · intro hEq
      cases hsm : should_merge atlas r1 r2 with
      | false => exact absurd ((merge_pair_not hsm).symm.trans hEq) hlen
      | true =>
        have hy := merge_pair_yes hsm
        by_cases hcap : max_merged_size < (mergedBox r1 r2).w ∨
            max_merged_size < (mergedBox r1 r2).h
        · rw [if_pos hcap] at hy
          exact absurd (hy.symm.trans hEq) hlen
        · push_neg at hcap
          exact ⟨(should_merge_iff_ratio hq).1 hsm, hcap.1, hcap.2⟩
    · intro hrhs
      have hsm : should_merge atlas r1 r2 = true :=
        (should_merge_iff_ratio hq).2 hrhs.1
      have hy := merge_pair_yes hsm
      rw [if_neg (by push_neg; exact ⟨hrhs.2.1, hrhs.2.2⟩)] at hy
      exact hy
  · intro hne
    cases hsm : should_merge atlas r1 r2 with
    | false => exact merge_pair_not hsm
    | true =>
      have hy := merge_pair_yes hsm
      by_cases hcap : max_merged_size < (mergedBox r1 r2).w ∨
          max_merged_size < (mergedBox r1 r2).h
      · rw [if_pos hcap] at hy
        exact hy
      · rw [if_neg hcap] at hy
        exact absurd hy hne

theorem C7_witness :
    (rm1.x + rm1.w = rm2.x ∧ 1 ≤ rm1.w ∧ 1 ≤ rm2.w ∧ 1 ≤ rm1.h ∧ 1 ≤ rm2.h ∧
      max rm1.y rm2.y < min (rm1.y + rm1.h) (rm2.y + rm2.h) ∧
      rv1.y + rv1.h = rv2.y ∧ max rv1.x rv2.x < min (rv1.x + rv1.w) (rv2.x + rv2.w)) ∧
    merge_adjacent_sprites [rm1, rm2] img60 = [mergedBox rm1 rm2] ∧
    merge_adjacent_sprites [rm1, rm2] img20 = [rm1, rm2] ∧
    merge_adjacent_sprites [rm2, rm1] img60 = [mergedBox rm2 rm1] ∧
    merge_adjacent_sprites [rv1, rv2] img60v = [mergedBox rv1 rv2] ∧
    merge_adjacent_sprites [rv2, rv1] img60v = [mergedBox rv2 rv1] := by
  refine ⟨by decide, ?_, ?_, ?_, ?_, ?_⟩
  · refine (C7_merge_pair_threshold img60 rm1 rm2 (by decide) (by decide) (by decide)
      (by decide) (by decide)).1.2 ⟨?_, by decide, by decide⟩
    rw [(by decide : count_shared_pixels img60 rm1 rm2 = (3, 5))]
    norm_num [min_overlap_ratio]
  · have h := C7_merge_pair_threshold img20 rm1 rm2 (by decide) (by decide) (by decide)
      (by decide) (by decide)
    refine h.2 (fun hEq => absurd (h.1.1 hEq).1 ?_)
    rw [(by decide : count_shared_pixels img20 rm1 rm2 = (1, 5))]
    norm_num [min_overlap_ratio]
  · refine (C7_merge_pair_threshold img60 rm2 rm1 (by decide) (by decide) (by decide)
      (by decide) (by decide)).1.2 ⟨?_, by decide, by decide⟩
    rw [(by decide : count_shared_pixels img60 rm2 rm1 = (3, 5))]
    norm_num [min_overlap_ratio]
  · refine (C7_merge_pair_threshold img60v rv1 rv2 (by decide) (by decide) (by decide)
      (by decide) (by decide)).1.2 ⟨?_, by decide, by decide⟩
    rw [(by decide : count_shared_pixels img60v rv1 rv2 = (3, 5))]
    norm_num [min_overlap_ratio]
  · refine (C7_merge_pair_threshold img60v rv2 rv1 (by decide) (by decide) (by decide)
      (by decide) (by decide)).1.2 ⟨?_, by decide, by decide⟩
    rw [(by decide : count_shared_pixels img60v rv2 rv1 = (3, 5))]
    norm_num [min_overlap_ratio]

/-! ## Flood-fill detection: basic lemmas -/

theorem adjP_symm {p q : Int × Int} (h : adjP p q) : adjP q p := by
  unfold adjP at *
  omega

theorem stepPix_symm {img : PImage} {p q : Int × Int} (h : stepPix img p q) :
    stepPix img q p :=
  ⟨h.2.1, h.1, adjP_symm h.2.2⟩

theorem opaque_of_reach {img : PImage} {s q : Int × Int} (hs : opaquePix img s)
    (h : Reach img s q) : opaquePix img q := by
  induction h with
  | refl => exact hs
  | tail _ hstep _ => exact hstep.2.1

theorem reach_symm {img : PImage} {p q : Int × Int} (h : Reach img p q) :
    Reach img q p :=
  Relation.ReflTransGen.symmetric (fun _ _ h' => stepPix_symm h') h

theorem reach_not_in_closed {img : PImage} {V : Finset (Int × Int)} {s q : Int × Int}
    (hcl : ClosedSet img V) (hs : s ∉ V) (h : Reach img s q) : q ∉ V := by
  induction h with
  | refl => exact hs
  | tail _ hstep ih =>
    intro hq
    exact ih (hcl _ hq _ (stepPix_symm hstep))

theorem adjP_iff_mem_neighbors {p q : Int × Int} : adjP p q ↔ q ∈ neighbors p := by
  simp only [neighbors, List.mem_cons, List.not_mem_nil, or_false, Prod.ext_iff]
  unfold adjP
  omega

theorem mem_opaqueF {img : PImage} {p : Int × Int} :
    p ∈ opaqueF img ↔ opaquePix img p := by
  unfold opaqueF
  simp only [Finset.mem_filter, Finset.mem_image, Finset.mem_product, Finset.mem_range]
  constructor
  · exact fun h => h.2
  · intro h
    refine ⟨⟨(p.1.toNat, p.2.toNat), ⟨?_, ?_⟩, ?_⟩, h⟩
    · obtain ⟨h1, h2, _⟩ := h
      omega
    · obtain ⟨_, _, h3, h4, _⟩ := h
      omega
    · obtain ⟨h1, _, h3, _⟩ := h
      exact Prod.ext (by simp; omega) (by simp; omega)

theorem opaqueF_card_le (img : PImage) :
    (opaqueF img).card ≤ img.width * img.height := by
  unfold opaqueF
  calc _ ≤ (((Finset.range img.width) ×ˢ (Finset.range img.height)).image
        (fun ab => ((ab.1 : Int), (ab.2 : Int)))).card := Finset.card_filter_le _ _
    _ ≤ ((Finset.range img.width) ×ˢ (Finset.range img.height)).card :=
        Finset.card_image_le
    _ = img.width * img.height := by simp [Finset.card_product]

theorem insert_sdiff_notmem {p : Int × Int} {V V0 : Finset (Int × Int)}
    (h : p ∉ V0) : (insert p V) \ V0 = insert p (V \ V0) := by
  ext q
  simp only [Finset.mem_sdiff, Finset.mem_insert]
  constructor
  · rintro ⟨rfl | hq, h0⟩
    · exact Or.inl rfl
    · exact Or.inr ⟨hq, h0⟩
  · rintro (rfl | ⟨hq, h0⟩)
    · exact ⟨Or.inl rfl, h⟩
    · exact ⟨Or.inr hq, h0⟩

theorem is_transparent_eq_false {img : PImage} {p : Int × Int} :
    is_transparent img p = false ↔ opaquePix img p := by
  unfold is_transparent opaquePix
  split_ifs with h
  · simp only [Bool.true_eq_false, false_iff]
    omega
  · simp only [decide_eq_false_iff_not]
    omega

theorem forall2_mem_left {α β : Type} {R : α → β → Prop} :
    ∀ {l₁ : List α} {l₂ : List β}, List.Forall₂ R l₁ l₂ →
      ∀ {a}, a ∈ l₁ → ∃ b ∈ l₂, R a b := by
  intro l₁ l₂ h
  induction h with
  | nil => intro a ha; cases ha
  | cons hab _ ih =>
    intro a ha
    rcases List.mem_cons.mp ha with rfl | ha'
    · exact ⟨_, List.mem_cons_self _ _, hab⟩
    · obtain ⟨b, hb, hr⟩ := ih ha'
      exact ⟨b, List.mem_cons_of_mem _ hb, hr⟩

theorem forall2_perm_right {α β : Type} {R : α → β → Prop} :
    ∀ {l₂ l₂' : List β}, l₂.Perm l₂' → ∀ {l₁ : List α}, List.Forall₂ R l₁ l₂ →
      ∃ l₁', l₁.Perm l₁' ∧ List.Forall₂ R l₁' l₂' := by
  intro l₂ l₂' hp
  induction hp with
  | nil =>
    intro l₁ h
    rw [List.forall₂_nil_right_iff.mp h]
    exact ⟨[], List.Perm.refl _, List.Forall₂.nil⟩
  | cons b _ ih =>
    intro l₁ h
    cases h with
    | cons hab htail =>
      obtain ⟨t', hpt, ht⟩ := ih htail
      exact ⟨_ :: t', hpt.cons _, ht.cons hab⟩
  | swap b₁ b₂ l =>
    intro l₁ h
    cases h with
    | cons h1 h2 =>
      cases h2 with
      | cons h3 h4 =>
        exact ⟨_ :: _ :: _, List.Perm.swap _ _ _, List.Forall₂.cons h3 (List.Forall₂.cons h1 h4)⟩
  | trans _ _ ih1 ih2 =>
    intro l₁ h
    obtain ⟨m, hm, hf⟩ := ih1 h
    obtain ⟨m', hm', hf'⟩ := ih2 hf
    exact ⟨m', hm.trans hm', hf'⟩

theorem mem_intRange {a b x : Int} : x ∈ intRange a b ↔ a ≤ x ∧ x < b := by
  unfold intRange
  simp only [List.mem_map, List.mem_range]
  constructor
  · rintro ⟨i, hi, rfl⟩
    omega
  · intro h
    exact ⟨(x - a).toNat, by omega, by omega⟩

theorem mem_scanCoords {img : PImage} {p : Int × Int} :
    p ∈ scanCoords img ↔
      0 ≤ p.1 ∧ p.1 < (img.width : Int) ∧ 0 ≤ p.2 ∧ p.2 < (img.height : Int) := by
  unfold scanCoords
  simp only [List.mem_flatMap, List.mem_map, mem_intRange, Prod.ext_iff]
  constructor
  · rintro ⟨y, hy, x, hx, h1, h2⟩
    omega
  · intro h
    exact ⟨p.2, ⟨h.2.2.1, h.2.2.2⟩, p.1, ⟨h.1, h.2.1⟩, rfl, rfl⟩

/-! ## Flood-fill loop: correctness -/

theorem floodLoop_nil (img : PImage) (fuel : Nat) (V : Finset (Int × Int))
    (minx miny maxx maxy : Int) :
    floodLoop img fuel [] V minx miny maxx maxy = (V, minx, miny, maxx, maxy) := by
  cases fuel <;> rfl

theorem floodLoop_cons (img : PImage) (fuel : Nat) (p : Int × Int)
    (rest : List (Int × Int)) (V : Finset (Int × Int)) (minx miny maxx maxy : Int) :
    floodLoop img (fuel + 1) (p :: rest) V minx miny maxx maxy =
      if p ∈ V ∨ is_transparent img p then
        floodLoop img fuel rest V minx miny maxx maxy
      else
        floodLoop img fuel ((neighbors p).filter (fun q => q ∉ insert p V) ++ rest)
          (insert p V) (min minx p.1) (min miny p.2) (max maxx p.1) (max maxy p.2) := rfl

theorem floodInv_empty_post (img : PImage) (s : Int × Int) (V0 : Finset (Int × Int))
    (hs0 : s ∉ V0) (hcl : ClosedSet img V0)
    (V : Finset (Int × Int)) (minx miny maxx maxy : Int)
    (hinv : FloodInv img s V0 [] V minx miny maxx maxy) :
    FloodPost img s V0 (V, minx, miny, maxx, maxy) := by
  obtain ⟨hA1, hA2, _, hC, hD, hE, hx1, hx2, hy1, hy2⟩ := hinv
  have hsV : s ∈ V := by
    rcases hD with h | h
    · exact h
    · cases h
  have hreach_mem : ∀ q, Reach img s q → q ∈ V ∧ q ∉ V0 := by
    intro q hq
    induction hq with
    | refl => exact ⟨hsV, hs0⟩
    | tail _ hstep ih =>
      obtain ⟨hmV, hm0⟩ := ih
      rcases hC _ hmV hm0 _ hstep with h | h
      · exact ⟨h, fun hq0 => hm0 (hcl _ hq0 _ (stepPix_symm hstep))⟩
      · cases h
  have hset : ∀ q, q ∈ insert s (V \ V0) ↔ Reach img s q := by
    intro q
    simp only [Finset.mem_insert, Finset.mem_sdiff]
    constructor
    · rintro (rfl | ⟨hV, h0⟩)
      · exact Relation.ReflTransGen.refl
      · exact (hA2 q hV).resolve_left h0
    · intro hr
      exact Or.inr (hreach_mem q hr)
  refine ⟨?_, ?_, ?_, ?_, ?_, ?_, ?_⟩
  · intro q
    constructor
    · exact hA2 q
    · rintro (h0 | hr)
      · exact hA1 h0
      · exact (hreach_mem q hr).1
  · intro x hxV q hstep
    rcases hA2 x hxV with h0 | hr
    · exact hA1 (hcl _ h0 _ hstep)
    · exact (hreach_mem q (hr.tail hstep)).1
  · intro q hr
    exact hE q ((hset q).mpr hr)
  · obtain ⟨q, hq, h⟩ := hx1
    exact ⟨q, (hset q).mp hq, h⟩
  · obtain ⟨q, hq, h⟩ := hx2
    exact ⟨q, (hset q).mp hq, h⟩
  · obtain ⟨q, hq, h⟩ := hy1
    exact ⟨q, (hset q).mp hq, h⟩
  · obtain ⟨q, hq, h⟩ := hy2
    exact ⟨q, (hset q).mp hq, h⟩

theorem floodLoop_correct (img : PImage) (s : Int × Int) (V0 : Finset (Int × Int))
    (hs : opaquePix img s) (hs0 : s ∉ V0) (hcl : ClosedSet img V0) :
    ∀ (fuel : Nat) (stack : List (Int × Int)) (V : Finset (Int × Int))
      (minx miny maxx maxy : Int),
      floodMeasure img stack V ≤ fuel →
      FloodInv img s V0 stack V minx miny maxx maxy →
      FloodPost img s V0 (floodLoop img fuel stack V minx miny maxx maxy) := by
  intro fuel
  induction fuel with
  | zero =>
    intro stack V minx miny maxx maxy hm hinv
    cases stack with
    | nil =>
      rw [floodLoop_nil]
      exact floodInv_empty_post img s V0 hs0 hcl V minx miny maxx maxy hinv
    | cons p rest =>
      exfalso
      unfold floodMeasure at hm
      simp only [List.length_cons] at hm
      omega
  | succ fuel ih =>
    intro stack V minx miny maxx maxy hm hinv
    cases stack with
    | nil =>
      rw [floodLoop_nil]
      exact floodInv_empty_post img s V0 hs0 hcl V minx miny maxx maxy hinv
    | cons p rest =>
      obtain ⟨hA1, hA2, hB, hC, hD, hE, hx1, hx2, hy1, hy2⟩ := hinv
      rw [floodLoop_cons]
      by_cases hskip : p ∈ V ∨ is_transparent img p = true
      · rw [if_pos hskip]
        apply ih
        · unfold floodMeasure at hm ⊢
          simp only [List.length_cons] at hm
          omega
        · refine ⟨hA1, hA2, ?_, ?_, ?_, hE, hx1, hx2, hy1, hy2⟩
          · exact fun q hq => hB q (List.mem_cons_of_mem _ hq)
          · intro x hxV hx0 q hstep
            rcases hC x hxV hx0 q hstep with h | h
            · exact Or.inl h
            · rcases List.mem_cons.mp h with rfl | h'
              · left
                rcases hskip with h1 | h1
                · exact h1
                · exfalso
                  rw [is_transparent_eq_false.mpr hstep.2.1] at h1
                  cases h1
              · exact Or.inr h'
          · rcases hD with h | h
            · exact Or.inl h
            · rcases List.mem_cons.mp h with rfl | h'
              · left
                rcases hskip with h1 | h1
                · exact h1
                · exfalso
                  rw [is_transparent_eq_false.mpr hs] at h1
                  cases h1
              · exact Or.inr h'
      · rw [if_neg hskip]
        push_neg at hskip
        obtain ⟨hpV, hpt⟩ := hskip
        have hpf : is_transparent img p = false := by
          revert hpt
          cases is_transparent img p <;> simp
        have hpo : opaquePix img p := is_transparent_eq_false.mp hpf
        have hp0 : p ∉ V0 := fun h => hpV (hA1 h)
        have hreach_p : Reach img s p := by
          rcases hB p (List.mem_cons_self _ _) with rfl | ⟨x, hxV, hx0, hadj⟩
          · exact Relation.ReflTransGen.refl
          · have hrx : Reach img s x := (hA2 x hxV).resolve_left hx0
            exact hrx.tail ⟨opaque_of_reach hs hrx, hpo, hadj⟩
        have hins : insert s (insert p V \ V0) = insert p (insert s (V \ V0)) := by
          rw [insert_sdiff_notmem hp0, Finset.Insert.comm]
        apply ih
        · have hpF : p ∈ opaqueF img \ V :=
            Finset.mem_sdiff.mpr ⟨mem_opaqueF.mpr hpo, hpV⟩
          have hsd : opaqueF img \ insert p V = (opaqueF img \ V).erase p := by
            ext q
            simp only [Finset.mem_sdiff, Finset.mem_erase, Finset.mem_insert]
            tauto
          have hcard : ((opaqueF img \ V).erase p).card = (opaqueF img \ V).card - 1 :=
            Finset.card_erase_of_mem hpF
          have hpos : 0 < (opaqueF img \ V).card := Finset.card_pos.mpr ⟨p, hpF⟩
          have hlen : ((neighbors p).filter (fun q => q ∉ insert p V)).length ≤ 4 := by
            have h4 := List.length_filter_le (fun q => q ∉ insert p V) (neighbors p)
            simpa [neighbors] using h4
          unfold floodMeasure at hm ⊢
          rw [hsd, hcard]
          simp only [List.length_append, List.length_cons] at hm ⊢
          omega
        · refine ⟨hA1.trans (Finset.subset_insert _ _), ?_, ?_, ?_, ?_, ?_, ?_, ?_, ?_, ?_⟩
          · intro q hq
            rcases Finset.mem_insert.mp hq with rfl | hq'
            · exact Or.inr hreach_p
            · exact hA2 q hq'
          · intro q hq
            rcases List.mem_append.mp hq with hq' | hq'
            · right
              refine ⟨p, Finset.mem_insert_self _ _, hp0, ?_⟩
              exact adjP_iff_mem_neighbors.mpr (List.mem_of_mem_filter hq')
            · rcases hB q (List.mem_cons_of_mem _ hq') with rfl | ⟨x, hxV, hx0, hadj⟩
              · exact Or.inl rfl
              · exact Or.inr ⟨x, Finset.mem_insert_of_mem hxV, hx0, hadj⟩
          · intro x hxV hx0 q hstep
            rcases Finset.mem_insert.mp hxV with rfl | hxV'
            · by_cases hqV : q ∈ insert x V
              · exact Or.inl hqV
              · right
                apply List.mem_append_left
                exact List.mem_filter.mpr
                  ⟨adjP_iff_mem_neighbors.mp hstep.2.2, by simpa using hqV⟩
            · rcases hC x hxV' hx0 q hstep with h | h
              · exact Or.inl (Finset.mem_insert_of_mem h)
              · rcases List.mem_cons.mp h with rfl | h'
                · exact Or.inl (Finset.mem_insert_self _ _)
                · exact Or.inr (List.mem_append_right _ h')
          · rcases hD with h | h
            · exact Or.inl (Finset.mem_insert_of_mem h)
            · rcases List.mem_cons.mp h with rfl | h'
              · exact Or.inl (Finset.mem_insert_self _ _)
              · exact Or.inr (List.mem_append_right _ h')
          · intro q hq
            rw [hins] at hq
            rcases Finset.mem_insert.mp hq with rfl | hq'
            · exact ⟨min_le_right _ _, le_max_right _ _, min_le_right _ _, le_max_right _ _⟩
            · obtain ⟨h1, h2, h3, h4⟩ := hE q hq'
              exact ⟨(min_le_left _ _).trans h1, h2.trans (le_max_left _ _),
                (min_le_left _ _).trans h3, h4.trans (le_max_left _ _)⟩
          · rcases le_total minx p.1 with h | h
            · obtain ⟨q, hq, hq1⟩ := hx1
              refine ⟨q, ?_, ?_⟩
              · rw [hins]
                exact Finset.mem_insert_of_mem hq
              · rw [min_eq_left h]
                exact hq1
            · refine ⟨p, ?_, ?_⟩
              · rw [hins]
                exact Finset.mem_insert_self _ _
              · rw [min_eq_right h]
          · rcases le_total p.1 maxx with h | h
            · obtain ⟨q, hq, hq1⟩ := hx2
              refine ⟨q, ?_, ?_⟩
              · rw [hins]
                exact Finset.mem_insert_of_mem hq
              · rw [max_eq_left h]
                exact hq1
            · refine ⟨p, ?_, ?_⟩
              · rw [hins]
                exact Finset.mem_insert_self _ _
              · rw [max_eq_right h]
          · rcases le_total miny p.2 with h | h
            · obtain ⟨q, hq, hq1⟩ := hy1
              refine ⟨q, ?_, ?_⟩
              · rw [hins]
                exact Finset.mem_insert_of_mem hq
              · rw [min_eq_left h]
                exact hq1
            · refine ⟨p, ?_, ?_⟩
              · rw [hins]
                exact Finset.mem_insert_self _ _
              · rw [min_eq_right h]
          · rcases le_total p.2 maxy with h | h
            · obtain ⟨q, hq, hq1⟩ := hy2
              refine ⟨q, ?_, ?_⟩
              · rw [hins]
                exact Finset.mem_insert_of_mem hq
              · rw [max_eq_left h]
                exact hq1
            · refine ⟨p, ?_, ?_⟩
              · rw [hins]
                exact Finset.mem_insert_self _ _
              · rw [max_eq_right h]

theorem flood_fill_spec (img : PImage) (V0 : Finset (Int × Int)) (s : Int × Int)
    (hs : opaquePix img s) (hs0 : s ∉ V0) (hcl : ClosedSet img V0) :
    FloodPost img s V0 (flood_fill img V0 s) := by
  unfold flood_fill
  apply floodLoop_correct img s V0 hs hs0 hcl
  · unfold floodMeasure
    simp only [List.length_cons, List.length_nil]
    have h1 : (opaqueF img \ V0).card ≤ (opaqueF img).card :=
      Finset.card_le_card Finset.sdiff_subset
    have h2 := opaqueF_card_le img
    omega
  · have hmem : s ∈ insert s (V0 \ V0) := by
      rw [Finset.sdiff_self]
      exact Finset.mem_insert_self _ _
    refine ⟨Finset.Subset.refl _, fun q hq => Or.inl hq, ?_,
      fun x hxV hx0 _ _ => absurd hxV hx0, Or.inr (List.mem_cons_self _ _), ?_,
      ⟨s, hmem, rfl⟩, ⟨s, hmem, rfl⟩, ⟨s, hmem, rfl⟩, ⟨s, hmem, rfl⟩⟩
    · intro q hq
      rcases List.mem_cons.mp hq with rfl | h
      · exact Or.inl rfl
      · cases h
    · intro q hq
      rw [Finset.sdiff_self] at hq
      rcases Finset.mem_insert.mp hq with rfl | h
      · exact ⟨le_refl _, le_refl _, le_refl _, le_refl _⟩
      · exact absurd h (Finset.not_mem_empty q)

theorem detectStep_inv (img : PImage) {done : List (Int × Int)}
    {st : Finset (Int × Int) × List Region} (c : Int × Int)
    (h : DetectInv img done st) : DetectInv img (done ++ [c]) (detectStep img st c) := by
  obtain ⟨hop, hclosed, ⟨reps, hF, hP, hchar⟩, hdone⟩ := h
  unfold detectStep
  split_ifs with hskip
  · refine ⟨hop, hclosed, ⟨reps, hF, hP, hchar⟩, ?_⟩
    intro d hd hdo
    rcases List.mem_append.mp hd with hd' | hd'
    · exact hdone d hd' hdo
    · rcases List.mem_cons.mp hd' with rfl | h0
      · rcases hskip with h1 | h1
        · exact h1
        · exfalso
          rw [is_transparent_eq_false.mpr hdo] at h1
          cases h1
      · cases h0
  · push_neg at hskip
    obtain ⟨hcV, hct⟩ := hskip
    have hcf : is_transparent img c = false := by
      revert hct
      cases is_transparent img c <;> simp
    have hco : opaquePix img c := is_transparent_eq_false.mp hcf
    have hpost := flood_fill_spec img st.1 c hco hcV hclosed
    show DetectInv img (done ++ [c])
      ((flood_fill img st.1 c).1,
        if 1 ≤ (flood_fill img st.1 c).2.2.2.1 - (flood_fill img st.1 c).2.1 + 1 ∧
           1 ≤ (flood_fill img st.1 c).2.2.2.2 - (flood_fill img st.1 c).2.2.1 + 1 then
          st.2 ++ [⟨(flood_fill img st.1 c).2.1, (flood_fill img st.1 c).2.2.1,
            (flood_fill img st.1 c).2.2.2.1 - (flood_fill img st.1 c).2.1 + 1,
            (flood_fill img st.1 c).2.2.2.2 - (flood_fill img st.1 c).2.2.1 + 1⟩]
        else st.2)
    set f := flood_fill img st.1 c with hf
    obtain ⟨hchar', hclosed', hbound, hex1, hex2, hey1, hey2⟩ := hpost
    obtain ⟨hb1, hb2, hb3, hb4⟩ := hbound c Relation.ReflTransGen.refl
    rw [if_pos ⟨by omega, by omega⟩]
    have htight : TightBBox img c
        ⟨f.2.1, f.2.2.1, f.2.2.2.1 - f.2.1 + 1, f.2.2.2.2 - f.2.2.1 + 1⟩ := by
      unfold TightBBox
      dsimp only
      refine ⟨?_, ?_, ?_, ?_, ?_⟩
      · intro q hq
        obtain ⟨g1, g2, g3, g4⟩ := hbound q hq
        exact ⟨g1, by omega, g3, by omega⟩
      · exact hex1
      · obtain ⟨q, hq, he⟩ := hex2
        exact ⟨q, hq, by omega⟩
      · exact hey1
      · obtain ⟨q, hq, he⟩ := hey2
        exact ⟨q, hq, by omega⟩
    refine ⟨?_, hclosed', ⟨reps ++ [c], ?_, ?_, ?_⟩, ?_⟩
    · intro p hp
      rcases (hchar' p).mp hp with h0 | hr
      · exact hop p h0
      · exact opaque_of_reach hco hr
    · exact List.rel_append hF (List.Forall₂.cons ⟨hco, htight⟩ List.Forall₂.nil)
    · rw [List.pairwise_append]
      refine ⟨hP, List.pairwise_singleton _ _, ?_⟩
      intro p hp q hq
      rcases List.mem_cons.mp hq with rfl | h0
      · intro hr
        exact hcV ((hchar q).mpr ⟨p, hp, hr⟩)
      · cases h0
    · intro q
      rw [hchar' q, hchar q]
      constructor
      · rintro (⟨p, hp, hr⟩ | hr)
        · exact ⟨p, List.mem_append_left _ hp, hr⟩
        · exact ⟨c, List.mem_append_right _ (List.mem_cons_self _ _), hr⟩
      · rintro ⟨p, hp, hr⟩
        rcases List.mem_append.mp hp with h0 | h0
        · exact Or.inl ⟨p, h0, hr⟩
        · rcases List.mem_cons.mp h0 with rfl | h1
          · exact Or.inr hr
          · cases h1
    · intro d hd hdo
      rcases List.mem_append.mp hd with hd' | hd'
      · exact (hchar' d).mpr (Or.inl (hdone d hd' hdo))
      · rcases List.mem_cons.mp hd' with rfl | h0
        · exact (hchar' d).mpr (Or.inr Relation.ReflTransGen.refl)
        · cases h0

theorem detectFold_inv (img : PImage) :
    ∀ (cs done : List (Int × Int)) (st : Finset (Int × Int) × List Region),
      DetectInv img done st →
      DetectInv img (done ++ cs) (cs.foldl (detectStep img) st) := by
  intro cs
  induction cs with
  | nil =>
    intro done st h
    simpa using h
  | cons c cs ih =>
    intro done st h
    rw [List.foldl_cons, show done ++ c :: cs = (done ++ [c]) ++ cs by simp]
    exact ih _ _ (detectStep_inv img c h)

theorem detectInv_init (img : PImage) : DetectInv img [] (∅, []) := by
  refine ⟨?_, ?_, ⟨[], List.Forall₂.nil, List.Pairwise.nil, ?_⟩, ?_⟩
  · intro p hp
    exact absurd hp (Finset.not_mem_empty p)
  · intro p hp
    exact absurd hp (Finset.not_mem_empty p)
  · intro q
    simp
  · intro c hc
    cases hc

theorem detect_characterization (img : PImage) :
    ∃ reps : List (Int × Int),
      List.Forall₂ (fun p r => opaquePix img p ∧ TightBBox img p r) reps
        (detect_sprite_regions img) ∧
      reps.Pairwise (fun p q => ¬ Reach img p q) ∧
      (∀ q, opaquePix img q → ∃ p ∈ reps, Reach img p q) ∧
      (detect_sprite_regions img).Sorted regLE := by
  have hinv := detectFold_inv img (scanCoords img) [] (∅, []) (detectInv_init img)
  rw [List.nil_append] at hinv
  obtain ⟨_, _, ⟨reps, hF, hP, hchar⟩, hdone⟩ := hinv
  have hcover : ∀ q, opaquePix img q → ∃ p ∈ reps, Reach img p q := by
    intro q hq
    refine (hchar q).mp (hdone q ?_ hq)
    rw [mem_scanCoords]
    exact ⟨hq.1, hq.2.1, hq.2.2.1, hq.2.2.2.1⟩
  have hperm : (((scanCoords img).foldl (detectStep img) (∅, [])).2).Perm
      (detect_sprite_regions img) :=
    (List.perm_insertionSort regLE _).symm
  obtain ⟨reps', hrp, hF'⟩ := forall2_perm_right hperm hF
  refine ⟨reps', hF', ?_, ?_, List.sorted_insertionSort regLE _⟩
  · refine (List.Perm.pairwise_iff ?_ hrp).mp hP
    intro a b h hr
    exact h (reach_symm hr)
  · intro q hq
    obtain ⟨p, hp, hr⟩ := hcover q hq
    exact ⟨p, hrp.mem_iff.mp hp, hr⟩

theorem detect_no_opaque (img : PImage) (h : ∀ q, ¬ opaquePix img q) :
    detect_sprite_regions img = [] := by
  have hstep : ∀ (st : Finset (Int × Int) × List Region) c, detectStep img st c = st := by
    intro st c
    have ht : is_transparent img c = true := by
      cases hic : is_transparent img c
      · exact absurd (is_transparent_eq_false.mp hic) (h c)
      · rfl
    unfold detectStep
    rw [if_pos (Or.inr ht)]
  have hfold : ∀ (cs : List (Int × Int)) st, cs.foldl (detectStep img) st = st := by
    intro cs
    induction cs with
    | nil => intro st; rfl
    | cons c cs ih =>
      intro st
      rw [List.foldl_cons, hstep st c]
      exact ih st
  unfold detect_sprite_regions
  rw [hfold]
  rfl

theorem opaquePix_sq64 {q : Int × Int} :
    opaquePix sq64 q ↔ 5 ≤ q.1 ∧ q.1 < 15 ∧ 5 ≤ q.2 ∧ q.2 < 15 := by
  unfold opaquePix alphaI sq64
  dsimp only
  constructor
  · rintro ⟨h1, h2, h3, h4, h5⟩
    rw [if_pos ⟨h1, h2, h3, h4⟩] at h5
    by_cases hc : 5 ≤ q.1.toNat ∧ q.1.toNat < 15 ∧ 5 ≤ q.2.toNat ∧ q.2.toNat < 15
    · omega
    · rw [if_neg hc] at h5
      simp [clearPx] at h5
  · intro h
    refine ⟨by omega, by omega, by omega, by omega, ?_⟩
    rw [if_pos ⟨by omega, by omega, by omega, by omega⟩,
      if_pos ⟨by omega, by omega, by omega, by omega⟩]
    simp [whitePx]

theorem sq64_reach_row (x : Int) (hx : 5 ≤ x) (h15 : x < 15) :
    Reach sq64 (5, 5) (x, 5) := by
  refine @Int.le_induction (fun z => z < 15 → Reach sq64 (5, 5) (z, 5)) 5 ?_ ?_ x hx h15
  · intro _
    exact Relation.ReflTransGen.refl
  · intro n hn ih h15n
    refine (ih (by omega)).tail ⟨?_, ?_, Or.inr ⟨rfl, Or.inl rfl⟩⟩
    · exact opaquePix_sq64.mpr ⟨by omega, by omega, by omega, by omega⟩
    · exact opaquePix_sq64.mpr ⟨by omega, by omega, by omega, by omega⟩

theorem sq64_reach_col (x : Int) (hx1 : 5 ≤ x) (hx2 : x < 15)
    (y : Int) (hy : 5 ≤ y) (h15 : y < 15) : Reach sq64 (x, 5) (x, y) := by
  refine @Int.le_induction (fun z => z < 15 → Reach sq64 (x, 5) (x, z)) 5 ?_ ?_ y hy h15
  · intro _
    exact Relation.ReflTransGen.refl
  · intro n hn ih h15n
    refine (ih (by omega)).tail ⟨?_, ?_, Or.inl ⟨rfl, Or.inl rfl⟩⟩
    · exact opaquePix_sq64.mpr ⟨by omega, by omega, by omega, by omega⟩
    · exact opaquePix_sq64.mpr ⟨by omega, by omega, by omega, by omega⟩

theorem sq64_reach {q : Int × Int} (h : opaquePix sq64 q) : Reach sq64 (5, 5) q := by
  obtain ⟨h1, h2, h3, h4⟩ := opaquePix_sq64.mp h
  exact (sq64_reach_row q.1 h1 h2).trans (sq64_reach_col q.1 h1 h2 q.2 h3 h4)

theorem detect_sq64 : detect_sprite_regions sq64 = [⟨5, 5, 10, 10⟩] := by
  obtain ⟨reps, hF, hP, hcov, _⟩ := detect_characterization sq64
  have h55 : opaquePix sq64 (5, 5) := by decide
  obtain ⟨p0, hp0, _⟩ := hcov (5, 5) h55
  have hall : ∀ p ∈ reps, Reach sq64 (5, 5) p := by
    intro p hp
    obtain ⟨r, _, hpr⟩ := forall2_mem_left hF hp
    exact sq64_reach hpr.1
  cases reps with
  | nil => cases hp0
  | cons a t =>
    cases t with
    | cons b t2 =>
      exfalso
      have hab : ¬ Reach sq64 a b :=
        (List.pairwise_cons.mp hP).1 b (List.mem_cons_self _ _)
      exact hab ((reach_symm (hall a (List.mem_cons_self _ _))).trans
        (hall b (List.mem_cons_of_mem _ (List.mem_cons_self _ _))))
    | nil =>
      have hsingle : ∀ {l : List Region},
          List.Forall₂ (fun p r => opaquePix sq64 p ∧ TightBBox sq64 p r) [a] l →
          ∃ r, l = [r] ∧ opaquePix sq64 a ∧ TightBBox sq64 a r := by
        intro l hl
        cases hl with
        | cons hhead htail =>
          exact ⟨_, by rw [List.forall₂_nil_left_iff.mp htail], hhead⟩
      obtain ⟨r, hdet, hao, htight⟩ := hsingle hF
      rw [hdet]
      have hreach_iff : ∀ q, Reach sq64 a q ↔ opaquePix sq64 q := by
        intro q
        constructor
        · exact opaque_of_reach hao
        · intro hq
          exact (reach_symm (sq64_reach hao)).trans (sq64_reach hq)
      obtain ⟨hbnd, ⟨q1, hq1, he1⟩, ⟨q2, hq2, he2⟩, ⟨q3, hq3, he3⟩, ⟨q4, hq4, he4⟩⟩ :=
        htight
      have hb1 := hbnd (5, 5) ((hreach_iff _).mpr (by decide))
      have hb2 := hbnd (14, 14) ((hreach_iff _).mpr (by decide))
      have hq1o := opaquePix_sq64.mp ((hreach_iff q1).mp hq1)
      have hq2o := opaquePix_sq64.mp ((hreach_iff q2).mp hq2)
      have hq3o := opaquePix_sq64.mp ((hreach_iff q3).mp hq3)
      have hq4o := opaquePix_sq64.mp ((hreach_iff q4).mp hq4)
      rcases r with ⟨rx, ry, rw2, rh2⟩
      dsimp only at hb1 hb2 he1 he2 he3 he4
      simp only [List.cons.injEq, and_true, Region.mk.injEq]
      omega

/-- C8 (confirmed): for every RGBA image, `detect_sprite_regions` returns
exactly one region per 4-connected component of the pixels with alpha > 0
— there is a system of representative pixels, one per returned region (in
order), with pairwise disconnected components, every opaque pixel lying
in the component of some representative, and each returned region the
tight bounding box of its representative's component — and the returned
list is sorted by `(y, x)`.  In particular a 64×64 transparent image with
a single fully-opaque 10×10 square at (5,5) yields exactly
`[{x:5, y:5, w:10, h:10}]`, and an image with no opaque pixel yields `[]`. -/
theorem C8_detect_regions :
    (∀ img : PImage, ∃ reps : List (Int × Int),
      List.Forall₂ (fun p r => opaquePix img p ∧ TightBBox img p r) reps
        (detect_sprite_regions img) ∧
      reps.Pairwise (fun p q => ¬ Reach img p q) ∧
      (∀ q, opaquePix img q → ∃ p ∈ reps, Reach img p q) ∧
      (detect_sprite_regions img).Sorted regLE) ∧
    detect_sprite_regions sq64 = [⟨5, 5, 10, 10⟩] ∧
    (∀ img : PImage, (∀ q, ¬ opaquePix img q) → detect_sprite_regions img = []) :=
  ⟨detect_characterization, detect_sq64, detect_no_opaque⟩

/-! ## Splitter coverage -/

theorem detect_covers (img : PImage) (q : Int × Int) (hq : opaquePix img q) :
    coveredBy q (detect_sprite_regions img) := by
  obtain ⟨reps, hF, _, hcov, _⟩ := detect_characterization img
  obtain ⟨p, hp, hr⟩ := hcov q hq
  obtain ⟨r, hrmem, _, htight⟩ := forall2_mem_left hF hp
  obtain ⟨h1, h2, h3, h4⟩ := htight.1 q hr
  exact ⟨r, hrmem, h1, by omega, h3, by omega⟩

theorem alphaI_crop (img : PImage) (a b : Int) (w h : Nat) (u v : Int)
    (hu0 : 0 ≤ u) (hu1 : u < (w : Int)) (hv0 : 0 ≤ v) (hv1 : v < (h : Int)) :
    alphaI (crop img a b w h) u v = alphaI img (a + u) (b + v) := by
  unfold alphaI crop
  dsimp only
  rw [if_pos ⟨hu0, hu1, hv0, hv1⟩, Int.toNat_of_nonneg hu0, Int.toNat_of_nonneg hv0]
  split_ifs with h1
  · rfl
  · rfl

theorem inRegion_mono {r r' : Region} {p : Int × Int} (hs : subRegion r r')
    (h : inRegion r p) : inRegion r' p := by
  unfold subRegion at hs
  unfold inRegion at *
  omega

theorem subRegion_refl (r : Region) : subRegion r r := by
  unfold subRegion
  omega

theorem foldl_min_le_acc (f : Region → Int) :
    ∀ (t : List Region) (acc : Int), t.foldl (fun m q => min m (f q)) acc ≤ acc := by
  intro t
  induction t with
  | nil => intro acc; exact le_refl _
  | cons q t ih =>
    intro acc
    rw [List.foldl_cons]
    exact (ih _).trans (min_le_left _ _)

theorem foldl_min_le_mem (f : Region → Int) :
    ∀ (t : List Region) (acc : Int) (r : Region), r ∈ t →
      t.foldl (fun m q => min m (f q)) acc ≤ f r := by
  intro t
  induction t with
  | nil => intro acc r hr; cases hr
  | cons q t ih =>
    intro acc r hr
    rw [List.foldl_cons]
    rcases List.mem_cons.mp hr with rfl | hr'
    · exact (foldl_min_le_acc f t _).trans (min_le_right _ _)
    · exact ih _ r hr'

theorem foldMin_le (f : Region → Int) {l : List Region} {r : Region} (h : r ∈ l) :
    foldMin f l ≤ f r := by
  cases l with
  | nil => cases h
  | cons a t =>
    unfold foldMin
    rcases List.mem_cons.mp h with rfl | h'
    · exact foldl_min_le_acc f t _
    · exact foldl_min_le_mem f t _ r h'

theorem foldl_le_max_acc (f : Region → Int) :
    ∀ (t : List Region) (acc : Int), acc ≤ t.foldl (fun m q => max m (f q)) acc := by
  intro t
  induction t with
  | nil => intro acc; exact le_refl _
  | cons q t ih =>
    intro acc
    rw [List.foldl_cons]
    exact (le_max_left _ _).trans (ih _)

theorem foldl_le_max_mem (f : Region → Int) :
    ∀ (t : List Region) (acc : Int) (r : Region), r ∈ t →
      f r ≤ t.foldl (fun m q => max m (f q)) acc := by
  intro t
  induction t with
  | nil => intro acc r hr; cases hr
  | cons q t ih =>
    intro acc r hr
    rw [List.foldl_cons]
    rcases List.mem_cons.mp hr with rfl | hr'
    · exact (le_max_right _ _).trans (foldl_le_max_acc f t _)
    · exact ih _ r hr'

theorem le_foldMax (f : Region → Int) {l : List Region} {r : Region} (h : r ∈ l) :
    f r ≤ foldMax f l := by
  cases l with
  | nil => cases h
  | cons a t =>
    unfold foldMax
    rcases List.mem_cons.mp h with rfl | h'
    · exact foldl_le_max_acc f t _
    · exact foldl_le_max_mem f t _ r h'

theorem appendGroup_preserve (k : Nat) (r r' : Region) :
    ∀ (m : List (Nat × List Region)), (∃ g ∈ m, r' ∈ g.2) →
      ∃ g ∈ appendGroup k r m, r' ∈ g.2 := by
  intro m
  induction m with
  | nil =>
    rintro ⟨g, hg, _⟩
    cases hg
  | cons e rest ih =>
    rintro ⟨g, hg, hr'⟩
    rcases e with ⟨k', g0⟩
    unfold appendGroup
    split_ifs with hk
    · rcases List.mem_cons.mp hg with rfl | hg'
      · exact ⟨(k', g0 ++ [r]), List.mem_cons_self _ _, List.mem_append_left _ hr'⟩
      · exact ⟨g, List.mem_cons_of_mem _ hg', hr'⟩
    · rcases List.mem_cons.mp hg with rfl | hg'
      · exact ⟨(k', g0), List.mem_cons_self _ _, hr'⟩
      · obtain ⟨g2, hg2, hr2⟩ := ih ⟨g, hg', hr'⟩
        exact ⟨g2, List.mem_cons_of_mem _ hg2, hr2⟩

theorem appendGroup_self (k : Nat) (r : Region) :
    ∀ (m : List (Nat × List Region)), ∃ g ∈ appendGroup k r m, r ∈ g.2 := by
  intro m
  induction m with
  | nil => exact ⟨(k, [r]), List.mem_cons_self _ _, List.mem_singleton.mpr rfl⟩
  | cons e rest ih =>
    rcases e with ⟨k', g0⟩
    unfold appendGroup
    split_ifs with hk
    · exact ⟨(k', g0 ++ [r]), List.mem_cons_self _ _,
        List.mem_append_right _ (List.mem_singleton.mpr rfl)⟩
    · obtain ⟨g, hg, hr⟩ := ih
      exact ⟨g, List.mem_cons_of_mem _ hg, hr⟩

theorem foldl_range_mem {σ β : Type} (Q : σ → β → Prop) (f : σ → Nat → σ) (v : Nat → β)
    (hpres : ∀ acc i b, Q acc b → Q (f acc i) b)
    (hself : ∀ acc i, Q (f acc i) (v i)) :
    ∀ (n : Nat) (acc : σ),
      (∀ b, Q acc b → Q ((List.range n).foldl f acc) b) ∧
      (∀ i, i < n → Q ((List.range n).foldl f acc) (v i)) := by
  intro n
  induction n with
  | zero =>
    intro acc
    exact ⟨fun b h => h, fun i hi => absurd hi (by omega)⟩
  | succ n ih =>
    intro acc
    rw [List.range_succ, List.foldl_append, List.foldl_cons, List.foldl_nil]
    refine ⟨?_, ?_⟩
    · intro b hb
      exact hpres _ _ _ ((ih acc).1 b hb)
    · intro i hi
      rcases Nat.lt_succ_iff_lt_or_eq.mp hi with h | rfl
      · exact hpres _ _ _ ((ih acc).2 i h)
      · exact hself _ _

theorem buildGroups_mem (rs : List Region) (par : Array Nat) {r : Region} (h : r ∈ rs) :
    ∃ g ∈ (buildGroups rs par).1, r ∈ g.2 := by
  obtain ⟨i, hi, hget⟩ := List.getElem_of_mem h
  have hgd : rs.getD i r0 = r := by
    rw [List.getD_eq_getElem rs r0 hi]
    exact hget
  have hmain := (foldl_range_mem (fun acc r' => ∃ g ∈ acc.1, r' ∈ g.2)
    (fun acc i =>
      let f := ufFind acc.2 i
      (appendGroup f.1 (rs.getD i r0) acc.1, f.2))
    (fun i => rs.getD i r0)
    (fun acc i b hb => appendGroup_preserve _ _ b acc.1 hb)
    (fun acc i => appendGroup_self _ _ acc.1)
    rs.length ([], par)).2 i hi
  rw [hgd] at hmain
  exact hmain

theorem mergeGroups_foldl_eq :
    ∀ (groups : List (Nat × List Region)) (res : List Region),
      groups.foldl (fun res kg =>
        match kg.2 with
        | [r] => res ++ [r]
        | g =>
          let minX := foldMin (fun r => r.x) g
          let minY := foldMin (fun r => r.y) g
          let maxX := foldMax (fun r => r.x + r.w) g
          let maxY := foldMax (fun r => r.y + r.h) g
          if maxX - minX > max_merged_size ∨ maxY - minY > max_merged_size then res ++ g
          else res ++ [⟨minX, minY, maxX - minX, maxY - minY⟩]) res
      = res ++ groups.flatMap groupOut := by
  intro groups
  induction groups with
  | nil =>
    intro res
    simp
  | cons kg t ih =>
    intro res
    rw [List.foldl_cons, ih, List.flatMap_cons, ← List.append_assoc]
    congr 1
    rcases kg with ⟨k, g⟩
    cases g with
    | nil =>
      unfold groupOut
      dsimp only
      split_ifs <;> rfl
    | cons r1 t1 =>
      cases t1 with
      | nil => rfl
      | cons r2 t2 =>
        unfold groupOut
        dsimp only
        split_ifs <;> rfl

theorem mergeGroups_eq (groups : List (Nat × List Region)) :
    mergeGroups groups = groups.flatMap groupOut := by
  unfold mergeGroups
  exact (mergeGroups_foldl_eq groups []).trans (List.nil_append _)

theorem groupOut_cover (kg : Nat × List Region) {r : Region} (h : r ∈ kg.2) :
    ∃ r' ∈ groupOut kg, subRegion r r' := by
  rcases kg with ⟨k, g⟩
  cases g with
  | nil => exact absurd h (List.not_mem_nil r)
  | cons r1 t1 =>
    cases t1 with
    | nil =>
      have h' : r = r1 := List.mem_singleton.mp h
      subst h'
      exact ⟨r, List.mem_singleton.mpr rfl, subRegion_refl r⟩
    | cons r2 t2 =>
      unfold groupOut
      dsimp only at h ⊢
      split_ifs with hbig
      · exact ⟨r, h, subRegion_refl r⟩
      · refine ⟨_, List.mem_singleton.mpr rfl, ?_⟩
        have h1 := foldMin_le (fun r => r.x) h
        have h2 := le_foldMax (fun r => r.x + r.w) h
        have h3 := foldMin_le (fun r => r.y) h
        have h4 := le_foldMax (fun r => r.y + r.h) h
        simp only at h1 h2 h3 h4
        unfold subRegion
        dsimp only
        omega

theorem merge_cover (rs : List Region) (atlas : PImage) {r : Region} (h : r ∈ rs) :
    ∃ r' ∈ merge_adjacent_sprites rs atlas, subRegion r r' := by
  unfold merge_adjacent_sprites
  split_ifs with he
  · exact ⟨r, h, subRegion_refl r⟩
  · obtain ⟨g, hg, hmem⟩ := buildGroups_mem rs (unionPass atlas rs) h
    obtain ⟨r', hr', hsub⟩ := groupOut_cover g hmem
    rw [mergeGroups_eq]
    exact ⟨r', List.mem_flatMap.mpr ⟨g, hg, hr'⟩, hsub⟩

theorem gridOffsets_cover {gs w l : Int} (hgs : 0 < gs) (h0 : 0 ≤ l) (hl : l < w) :
    ∃ g ∈ gridOffsets w gs, g ≤ l ∧ l < g + min gs (w - g) := by
  have hdiv := Int.ediv_add_emod l gs
  have hmod0 := Int.emod_nonneg l (ne_of_gt hgs)
  have hmodlt := Int.emod_lt_of_pos l hgs
  have hq0 : 0 ≤ l / gs := Int.ediv_nonneg h0 (le_of_lt hgs)
  refine ⟨gs * (l / gs), ?_, by linarith, ?_⟩
  · unfold gridOffsets
    rw [List.mem_map]
    refine ⟨(l / gs).toNat, ?_, ?_⟩
    · rw [List.mem_range]
      have hle : l / gs ≤ (w - 1) / gs := Int.ediv_le_ediv hgs (by omega)
      have hsucc : (w - 1 + 1 * gs) / gs = (w - 1) / gs + 1 :=
        Int.add_mul_ediv_right _ _ (ne_of_gt hgs)
      have hrw : w + gs - 1 = w - 1 + 1 * gs := by ring
      have hlt : l / gs < (w + gs - 1) / gs := by
        rw [hrw, hsucc]
        omega
      omega
    · rw [Int.toNat_of_nonneg hq0]
      ring
  · rcases le_total gs (w - gs * (l / gs)) with hmin | hmin
    · rw [min_eq_left hmin]
      linarith
    · rw [min_eq_right hmin]
      linarith

theorem split_by_grid_covers (region : Region) (atlas : PImage) (gs : Int) (hgs : 0 < gs)
    (p : Int × Int) (hop : opaquePix atlas p) (hin : inRegion region p) :
    coveredBy p (split_by_grid region atlas gs) := by
  obtain ⟨hx1, hx2, hy1, hy2⟩ := hin
  obtain ⟨gx, hgxm, hgx1, hgx2⟩ :=
    gridOffsets_cover hgs (show 0 ≤ p.1 - region.x by omega)
      (show p.1 - region.x < region.w by omega)
  obtain ⟨gy, hgym, hgy1, hgy2⟩ :=
    gridOffsets_cover hgs (show 0 ≤ p.2 - region.y by omega)
      (show p.2 - region.y < region.h by omega)
  set cw := min gs (region.w - gx) with hcw
  set ch := min gs (region.h - gy) with hch
  have hcwpos : 0 < cw := by omega
  have hchpos : 0 < ch := by omega
  have hcwc : ((cw.toNat : Int)) = cw := Int.toNat_of_nonneg (le_of_lt hcwpos)
  have hchc : ((ch.toNat : Int)) = ch := Int.toNat_of_nonneg (le_of_lt hchpos)
  have hcell : opaquePix (crop atlas (region.x + gx) (region.y + gy) cw.toNat ch.toNat)
      (p.1 - (region.x + gx), p.2 - (region.y + gy)) := by
    obtain ⟨ho1, ho2, ho3, ho4, ho5⟩ := hop
    refine ⟨by dsimp only; omega, ?_, by dsimp only; omega, ?_, ?_⟩
    · show p.1 - (region.x + gx) < ((cw.toNat : Nat) : Int)
      rw [hcwc]
      omega
    · show p.2 - (region.y + gy) < ((ch.toNat : Nat) : Int)
      rw [hchc]
      omega
    · show 0 < alphaI _ (p.1 - (region.x + gx)) (p.2 - (region.y + gy))
      rw [alphaI_crop atlas (region.x + gx) (region.y + gy) cw.toNat ch.toNat _ _
        (by omega) (by rw [hcwc]; omega) (by omega) (by rw [hchc]; omega)]
      rw [show region.x + gx + (p.1 - (region.x + gx)) = p.1 by ring,
        show region.y + gy + (p.2 - (region.y + gy)) = p.2 by ring]
      exact ho5
  obtain ⟨cr, hcr, hcrin⟩ := detect_covers _ _ hcell
  obtain ⟨hc1, hc2, hc3, hc4⟩ := hcrin
  dsimp only at hc1 hc2 hc3 hc4
  have hmap : (⟨cr.x + (region.x + gx), cr.y + (region.y + gy), cr.w, cr.h⟩ : Region) ∈
      gridResult region atlas gs := by
    unfold gridResult
    rw [List.mem_flatMap]
    refine ⟨gy, hgym, ?_⟩
    rw [List.mem_flatMap]
    refine ⟨gx, hgxm, ?_⟩
    rw [List.mem_map]
    exact ⟨cr, hcr, rfl⟩
  have hmapin : inRegion ⟨cr.x + (region.x + gx), cr.y + (region.y + gy), cr.w, cr.h⟩ p := by
    unfold inRegion
    dsimp only
    omega
  unfold split_by_grid
  show coveredBy p
    (if (if (gridResult region atlas gs).isEmpty then gridResult region atlas gs
        else merge_adjacent_sprites (gridResult region atlas gs) atlas).isEmpty then [region]
      else (if (gridResult region atlas gs).isEmpty then gridResult region atlas gs
        else merge_adjacent_sprites (gridResult region atlas gs) atlas))
  have hne : (gridResult region atlas gs).isEmpty = false := by
    cases hi : (gridResult region atlas gs).isEmpty
    · rfl
    · rw [List.isEmpty_iff.mp hi] at hmap
      cases hmap
  rw [hne]
  simp only [Bool.false_eq_true, if_false]
  obtain ⟨r', hr', hsub⟩ := merge_cover (gridResult region atlas gs) atlas hmap
  split_ifs with hmerge
  · exact ⟨region, List.mem_singleton.mpr rfl, hx1, hx2, hy1, hy2⟩
  · exact ⟨r', hr', inRegion_mono hsub hmapin⟩

theorem consecPairs_cover :
    ∀ (L : List Nat) (a n m : Nat), a ≤ m → m < n →
      ∃ ab ∈ consecPairs (a :: (L ++ [n])), ab.1 ≤ m ∧ m < ab.2 := by
  intro L
  induction L with
  | nil =>
    intro a n m h1 h2
    exact ⟨(a, n), List.mem_singleton.mpr rfl, h1, h2⟩
  | cons b t ih =>
    intro a n m h1 h2
    by_cases hb : m < b
    · exact ⟨(a, b), List.mem_cons_self _ _, h1, hb⟩
    · obtain ⟨ab, hab, hx⟩ := ih b n m (by omega) h2
      exact ⟨ab, List.mem_cons_of_mem _ hab, hx⟩

theorem foldl_gapAux_cons (t : Nat → Bool) :
    ∀ (ys : List Nat) (a : Nat) (acc : List Nat),
      ∃ rest, List.foldl (gapAux t) (a :: acc) ys = a :: rest := by
  intro ys
  induction ys with
  | nil => intro a acc; exact ⟨acc, rfl⟩
  | cons y ys ih =>
    intro a acc
    rw [List.foldl_cons]
    unfold gapAux
    split_ifs with h1 h2
    · rw [List.cons_append]
      exact ih a (acc ++ [y])
    · exact ih a acc
    · exact ih a acc

theorem splitsOf_shape (n : Nat) (t : Nat → Bool) :
    ∃ rest, splitsOf n t = 0 :: (rest ++ [n]) := by
  obtain ⟨rest, h⟩ := foldl_gapAux_cons t (List.range n) 0 []
  refine ⟨rest, ?_⟩
  unfold splitsOf
  rw [h, List.cons_append]

theorem splits_cover (n : Nat) (t : Nat → Bool) {m : Nat} (hm : m < n) :
    ∃ ab ∈ consecPairs (splitsOf n t), ab.1 ≤ m ∧ m < ab.2 := by
  obtain ⟨rest, h⟩ := splitsOf_shape n t
  rw [h]
  exact consecPairs_cover rest 0 n m (Nat.zero_le m) hm

theorem alphaI_subImage (region : Region) (atlas : PImage) (u v : Int)
    (hu0 : 0 ≤ u) (hu1 : u < region.w) (hv0 : 0 ≤ v) (hv1 : v < region.h) :
    alphaI (subImage region atlas) u v = alphaI atlas (region.x + u) (region.y + v) := by
  unfold subImage
  exact alphaI_crop atlas region.x region.y region.w.toNat region.h.toNat u v
    hu0 (by omega) hv0 (by omega)

theorem subImage_width (region : Region) (atlas : PImage) :
    (subImage region atlas).width = region.w.toNat := rfl

theorem subImage_height (region : Region) (atlas : PImage) :
    (subImage region atlas).height = region.h.toNat := rfl

/-- C3 (corrected): every opaque pixel of the input region is either
covered by some sub-region returned by `split_by_gaps` (including its
small-region pass-through, the grid fallback, and the all-cells-skipped
fallback), or lies in a gap cell that the splitter skips for being
thinner than 2 pixels — the pixels it can genuinely lose. -/
theorem C3_split_coverage (region : Region) (atlas : PImage) (p : Int × Int)
    (hop : opaquePix atlas p) (hin : inRegion region p) :
    coveredBy p (split_by_gaps region atlas 64) ∨ ThinLoss region atlas p := by
  unfold split_by_gaps
  by_cases hsmall : region.w ≤ (64 : Int) ∧ region.h ≤ (64 : Int)
  · rw [if_pos hsmall]
    exact Or.inl ⟨region, List.mem_singleton.mpr rfl, hin⟩
  · rw [if_neg hsmall]
    by_cases hnogap :
        (hSplits region atlas).length ≤ 2 ∧ (vSplits region atlas).length ≤ 2
    · rw [if_pos hnogap]
      exact Or.inl (split_by_grid_covers region atlas 32 (by norm_num) p hop hin)
    · rw [if_neg hnogap]
      obtain ⟨hx1, hx2, hy1, hy2⟩ := hin
      set lx := (p.1 - region.x).toNat with hlx
      set ly := (p.2 - region.y).toNat with hly
      have hsw := subImage_width region atlas
      have hsh := subImage_height region atlas
      have hlxlt : lx < (subImage region atlas).width := by omega
      have hlylt : ly < (subImage region atlas).height := by omega
      obtain ⟨xab, hxab, hxa1, hxa2⟩ :=
        splits_cover (subImage region atlas).width
          (colTransparent (subImage region atlas)) hlxlt
      obtain ⟨yab, hyab, hya1, hya2⟩ :=
        splits_cover (subImage region atlas).height
          (rowTransparent (subImage region atlas)) hlylt
      by_cases hthin : xab.2 - xab.1 < 2 ∨ yab.2 - yab.1 < 2
      · right
        exact ⟨xab, hxab, yab, hyab, hthin, by omega, by omega, by omega, by omega⟩
      · left
        have hcell : opaquePix
            (crop (subImage region atlas) (xab.1 : Int) (yab.1 : Int)
              (xab.2 - xab.1) (yab.2 - yab.1))
            ((lx : Int) - (xab.1 : Int), (ly : Int) - (yab.1 : Int)) := by
          obtain ⟨_, _, _, _, ho5⟩ := hop
          refine ⟨by dsimp only; omega, ?_, by dsimp only; omega, ?_, ?_⟩
          · show (lx : Int) - (xab.1 : Int) < (((xab.2 - xab.1 : Nat) : Nat) : Int)
            omega
          · show (ly : Int) - (yab.1 : Int) < (((yab.2 - yab.1 : Nat) : Nat) : Int)
            omega
          · show 0 < alphaI _ ((lx : Int) - (xab.1 : Int)) ((ly : Int) - (yab.1 : Int))
            rw [alphaI_crop (subImage region atlas) (xab.1 : Int) (yab.1 : Int)
              (xab.2 - xab.1) (yab.2 - yab.1) _ _ (by omega) (by omega) (by omega)
              (by omega)]
            rw [show (xab.1 : Int) + ((lx : Int) - (xab.1 : Int)) = (lx : Int) by ring,
              show (yab.1 : Int) + ((ly : Int) - (yab.1 : Int)) = (ly : Int) by ring]
            rw [alphaI_subImage region atlas (lx : Int) (ly : Int)
              (by omega) (by omega) (by omega) (by omega)]
            rw [show region.x + (lx : Int) = p.1 by omega,
              show region.y + (ly : Int) = p.2 by omega]
            exact ho5
        obtain ⟨cr, hcr, hcrin⟩ := detect_covers _ _ hcell
        obtain ⟨hc1, hc2, hc3, hc4⟩ := hcrin
        dsimp only at hc1 hc2 hc3 hc4
        have hmap : (⟨cr.x + region.x + (xab.1 : Int), cr.y + region.y + (yab.1 : Int),
            cr.w, cr.h⟩ : Region) ∈ gapResult region atlas := by
          unfold gapResult
          rw [List.mem_flatMap]
          refine ⟨yab, hyab, ?_⟩
          rw [List.mem_flatMap]
          refine ⟨xab, hxab, ?_⟩
          unfold cellContrib
          rw [if_neg hthin, List.mem_map]
          exact ⟨cr, hcr, rfl⟩
        have hmapin : inRegion ⟨cr.x + region.x + (xab.1 : Int),
            cr.y + region.y + (yab.1 : Int), cr.w, cr.h⟩ p := by
          unfold inRegion
          dsimp only
          omega
        show coveredBy p
          (if (gapResult region atlas).isEmpty then [region] else gapResult region atlas)
        split_ifs with hie
        · exact ⟨region, List.mem_singleton.mpr rfl, hx1, hx2, hy1, hy2⟩
        · exact ⟨_, hmap, hmapin⟩

set_option maxRecDepth 1000000 in
theorem C3_counterexample :
    opaquePix imgC3 (0, 0) ∧ inRegion regC3 (0, 0) ∧
    ¬ coveredBy (0, 0) (split_by_gaps regC3 imgC3 64) := by
  decide

theorem C3_witness :
    (opaquePix (solidImage 1 1) (0, 0) ∧ inRegion ⟨0, 0, 1, 1⟩ (0, 0)) ∧
    (coveredBy (0, 0) (split_by_gaps ⟨0, 0, 1, 1⟩ (solidImage 1 1) 64) ∨
      ThinLoss ⟨0, 0, 1, 1⟩ (solidImage 1 1) (0, 0)) :=
  ⟨⟨by decide, by decide⟩,
    C3_split_coverage ⟨0, 0, 1, 1⟩ (solidImage 1 1) (0, 0) (by decide) (by decide)⟩

end Atlas

